import Mathlib

/-!
# FEM linear-system wrapper: default operations and Cuthill-McKee reordering

A shallow embedding of `Code/Numerics/FEM/itkFEMLinearSystemWrapper.cxx`, with the
constructors of the errors of `Code/Numerics/FEM/itkFEMException.cxx`.

* `ColumnArray` (`std::vector<unsigned int>`) is a `List Nat`.
* Indexing a vector past its end is undefined behaviour in the source; here every
  such access is the fault `Fault.outOfRange`, so the embedding is total.
* `unsigned int` arithmetic is arithmetic on `Nat`, reduced modulo `2 ^ 32` where
  the source can wrap: `currentRow.size() - 1` and `m_Order - 1`.  The counter
  `nextRowNumber` is only ever incremented and is kept as a plain natural number.
* The virtual storage functions of the class are the fields of
  `LinearSystemBackend`; the member `m_Order` is the explicit argument `N`.
* The `while` loop of `FollowConnectionsCuthillMckeeOrdering` is run with an
  explicit pass budget; exhausting it is the separate fault `Fault.outOfFuel`.
* An error is a record of its description and source location; a text built in an
  `ostrstream` and passed on as a `char*` is read up to its first `\0`.
-/

namespace itk.fem

/-! ## Data model -/

/-- The type `ColumnArray` of the source, a vector of unsigned integers. -/
abbrev ColumnArray := List Nat

/-- Ways in which a run of the embedded code can fail to produce a result. -/
inductive Fault where
  /-- A vector was indexed at or past its size. -/
  | outOfRange
  /-- The pass budget of the traversal loop ran out. -/
  | outOfFuel
  deriving DecidableEq, Repr

deriving instance DecidableEq for Except

/-- Read `a[i]` of a vector. -/
def readAt (a : ColumnArray) (i : Nat) : Except Fault Nat :=
  match a[i]? with
  | some v => .ok v
  | none => .error .outOfRange

/-- Assignment `a[i] = v` to an element of a vector. -/
def writeAt (a : ColumnArray) (i v : Nat) : Except Fault ColumnArray :=
  if i < a.length then .ok (a.set i v) else .error .outOfRange

/-- Value of `k - 1` computed on `unsigned int`. -/
def decrementUnsigned (k : Nat) : Nat := ((2 ^ 32 - 1) + k) % 2 ^ 32

/-! ## Linear-system interface and default operations -/

/-- The storage functions that `LinearSystemWrapper` declares and leaves to a
concrete backend, over a state `σ` and a scalar type `F` (the type `Float` of the
source).  Arguments come in the order of the source, after the state. -/
structure LinearSystemBackend (σ F : Type) where
  /-- Virtual `GetMatrixValue(i, j, matrixIndex)`. -/
  GetMatrixValue : σ → Nat → Nat → Nat → F
  /-- Virtual `SetMatrixValue(i, j, value, matrixIndex)`. -/
  SetMatrixValue : σ → Nat → Nat → F → Nat → σ
  /-- Virtual `GetVectorValue(i, vectorIndex)`. -/
  GetVectorValue : σ → Nat → Nat → F
  /-- Virtual `SetVectorValue(i, value, vectorIndex)`. -/
  SetVectorValue : σ → Nat → F → Nat → σ
  /-- Virtual `GetSolutionValue(i, solutionIndex)`. -/
  GetSolutionValue : σ → Nat → Nat → F
  /-- Virtual `SetSolutionValue(i, value, solutionIndex)`. -/
  SetSolutionValue : σ → Nat → F → Nat → σ
  /-- Virtual `InitializeMatrix(matrixIndex)`. -/
  InitializeMatrix : σ → Nat → σ
  /-- Virtual `InitializeVector(vectorIndex)`. -/
  InitializeVector : σ → Nat → σ
  /-- Virtual `DestroyMatrix(matrixIndex)`. -/
  DestroyMatrix : σ → Nat → σ
  /-- Virtual `SwapMatrices(matrixIndex1, matrixIndex2)`. -/
  SwapMatrices : σ → Nat → Nat → σ
  /-- Virtual `GetColumnsOfNonZeroMatrixElementsInRow(row, cols, matrixIndex)`,
  which a backend may override; the result is `cols`. -/
  GetColumnsOfNonZeroMatrixElementsInRow : σ → Nat → Nat → ColumnArray

section DefaultOperations

variable {σ F : Type}

/-- `LinearSystemWrapper::ScaleMatrix`. -/
def ScaleMatrix [Mul F] [One F] [DecidableEq F] (B : LinearSystemBackend σ F) (N : Nat)
    (scale : F) (matrixIndex : Nat) (s : σ) : σ :=
  if scale = 1 then s
  else
    (List.range N).foldl (fun s i =>
      (List.range N).foldl (fun s j =>
        B.SetMatrixValue s i j (scale * B.GetMatrixValue s i j matrixIndex) matrixIndex) s) s

/-- `LinearSystemWrapper::ScaleVector`. -/
def ScaleVector [Mul F] [One F] [DecidableEq F] (B : LinearSystemBackend σ F) (N : Nat)
    (scale : F) (vectorIndex : Nat) (s : σ) : σ :=
  if scale = 1 then s
  else
    (List.range N).foldl (fun s i =>
      B.SetVectorValue s i (scale * B.GetVectorValue s i vectorIndex) vectorIndex) s

/-- `LinearSystemWrapper::ScaleSolution`. -/
def ScaleSolution [Mul F] [One F] [DecidableEq F] (B : LinearSystemBackend σ F) (N : Nat)
    (scale : F) (solutionIndex : Nat) (s : σ) : σ :=
  if scale = 1 then s
  else
    (List.range N).foldl (fun s i =>
      B.SetSolutionValue s i (scale * B.GetSolutionValue s i solutionIndex) solutionIndex) s

/-- `LinearSystemWrapper::AddVectorValue`. -/
def AddVectorValue [Add F] (B : LinearSystemBackend σ F) (i : Nat) (value : F)
    (vectorIndex : Nat) (s : σ) : σ :=
  B.SetVectorValue s i (value + B.GetVectorValue s i vectorIndex) vectorIndex

/-- `LinearSystemWrapper::AddMatrixValue`. -/
def AddMatrixValue [Add F] (B : LinearSystemBackend σ F) (i j : Nat) (value : F)
    (matrixIndex : Nat) (s : σ) : σ :=
  B.SetMatrixValue s i j (value + B.GetMatrixValue s i j matrixIndex) matrixIndex

/-- `LinearSystemWrapper::AddSolutionValue`. -/
def AddSolutionValue [Add F] (B : LinearSystemBackend σ F) (i : Nat) (value : F)
    (solutionIndex : Nat) (s : σ) : σ :=
  B.SetSolutionValue s i (value + B.GetSolutionValue s i solutionIndex) solutionIndex

/-- `LinearSystemWrapper::MultiplyMatrixVector`. -/
def MultiplyMatrixVector [Add F] [Mul F] (B : LinearSystemBackend σ F) (N : Nat)
    (resultVector matrixIndex vectorIndex : Nat) (s : σ) : σ :=
  (List.range N).foldl (fun s i =>
    (List.range N).foldl (fun s j =>
      AddVectorValue B i
        (B.GetMatrixValue s i j matrixIndex * B.GetVectorValue s j vectorIndex)
        resultVector s) s) (B.InitializeVector s resultVector)

/-- `LinearSystemWrapper::OptimizeMatrixStorage`. -/
def OptimizeMatrixStorage (B : LinearSystemBackend σ F) (N : Nat)
    (matrixIndex tempMatrixIndex : Nat) (s : σ) : σ :=
  B.DestroyMatrix
    ((List.range N).foldl (fun s i =>
      (B.GetColumnsOfNonZeroMatrixElementsInRow s i tempMatrixIndex).foldl (fun s c =>
        B.SetMatrixValue s i c (B.GetMatrixValue s i c tempMatrixIndex) matrixIndex) s)
      (B.InitializeMatrix (B.SwapMatrices s matrixIndex tempMatrixIndex) matrixIndex))
    tempMatrixIndex

end DefaultOperations

/-! ### Laws of a backend and instruments -/

section Laws

variable {σ F : Type}

/-- The get/set laws of a backend: a read returns the last value written to that
position of that slot, a write leaves every other position, slot and kind of
slot alone, and `InitializeVector` zeroes its slot and nothing else. -/
structure GetSetLaws [Zero F] (B : LinearSystemBackend σ F) : Prop where
  matrix_read_written : ∀ s i j v m, B.GetMatrixValue (B.SetMatrixValue s i j v m) i j m = v
  matrix_read_other : ∀ s i j v m i2 j2 m2, (i2, j2, m2) ≠ (i, j, m) →
    B.GetMatrixValue (B.SetMatrixValue s i j v m) i2 j2 m2 = B.GetMatrixValue s i2 j2 m2
  matrix_write_vector : ∀ s i j v m i2 k,
    B.GetVectorValue (B.SetMatrixValue s i j v m) i2 k = B.GetVectorValue s i2 k
  matrix_write_solution : ∀ s i j v m i2 k,
    B.GetSolutionValue (B.SetMatrixValue s i j v m) i2 k = B.GetSolutionValue s i2 k
  vector_read_written : ∀ s i v k, B.GetVectorValue (B.SetVectorValue s i v k) i k = v
  vector_read_other : ∀ s i v k i2 k2, (i2, k2) ≠ (i, k) →
    B.GetVectorValue (B.SetVectorValue s i v k) i2 k2 = B.GetVectorValue s i2 k2
  vector_write_matrix : ∀ s i v k i2 j2 m,
    B.GetMatrixValue (B.SetVectorValue s i v k) i2 j2 m = B.GetMatrixValue s i2 j2 m
  vector_write_solution : ∀ s i v k i2 k2,
    B.GetSolutionValue (B.SetVectorValue s i v k) i2 k2 = B.GetSolutionValue s i2 k2
  solution_read_written : ∀ s i v k, B.GetSolutionValue (B.SetSolutionValue s i v k) i k = v
  solution_read_other : ∀ s i v k i2 k2, (i2, k2) ≠ (i, k) →
    B.GetSolutionValue (B.SetSolutionValue s i v k) i2 k2 = B.GetSolutionValue s i2 k2
  solution_write_matrix : ∀ s i v k i2 j2 m,
    B.GetMatrixValue (B.SetSolutionValue s i v k) i2 j2 m = B.GetMatrixValue s i2 j2 m
  solution_write_vector : ∀ s i v k i2 k2,
    B.GetVectorValue (B.SetSolutionValue s i v k) i2 k2 = B.GetVectorValue s i2 k2
  fresh_vector_zero : ∀ s k i, B.GetVectorValue (B.InitializeVector s k) i k = 0
  fresh_vector_other : ∀ s k i k2, k2 ≠ k →
    B.GetVectorValue (B.InitializeVector s k) i k2 = B.GetVectorValue s i k2
  fresh_vector_matrix : ∀ s k i j m,
    B.GetMatrixValue (B.InitializeVector s k) i j m = B.GetMatrixValue s i j m
  fresh_vector_solution : ∀ s k i k2,
    B.GetSolutionValue (B.InitializeVector s k) i k2 = B.GetSolutionValue s i k2

/-- The laws of the slot-level matrix functions: `SwapMatrices` exchanges the
contents and the enumerations of its two slots, and `InitializeMatrix`,
`DestroyMatrix` and `SetMatrixValue` leave the values and the enumeration of every
other matrix slot alone. -/
structure StorageLaws (B : LinearSystemBackend σ F) : Prop where
  swap_second : ∀ s a b i j,
    B.GetMatrixValue (B.SwapMatrices s a b) i j b = B.GetMatrixValue s i j a
  swap_second_columns : ∀ s a b row,
    B.GetColumnsOfNonZeroMatrixElementsInRow (B.SwapMatrices s a b) row b
      = B.GetColumnsOfNonZeroMatrixElementsInRow s row a
  fresh_matrix_other : ∀ s m i j m2, m2 ≠ m →
    B.GetMatrixValue (B.InitializeMatrix s m) i j m2 = B.GetMatrixValue s i j m2
  fresh_matrix_other_columns : ∀ s m row m2, m2 ≠ m →
    B.GetColumnsOfNonZeroMatrixElementsInRow (B.InitializeMatrix s m) row m2
      = B.GetColumnsOfNonZeroMatrixElementsInRow s row m2
  write_other_columns : ∀ s i j v m row m2, m2 ≠ m →
    B.GetColumnsOfNonZeroMatrixElementsInRow (B.SetMatrixValue s i j v m) row m2
      = B.GetColumnsOfNonZeroMatrixElementsInRow s row m2
  destroy_other : ∀ s t i j m, m ≠ t →
    B.GetMatrixValue (B.DestroyMatrix s t) i j m = B.GetMatrixValue s i j m

/-- The laws of the slot-level matrix functions that `StorageLaws` leaves open: a
freshly initialised slot holds zero everywhere and an enumeration that does not
depend on what the slot held before; what a destroyed slot holds does not depend
on what it held before; `SwapMatrices`, `InitializeMatrix` and `DestroyMatrix`
leave alone the matrix slots that they do not address, the vector slots and the
solution slots; and the enumeration of a slot after a write is determined by the
contents of that slot before the write. -/
structure SlotLaws [Zero F] (B : LinearSystemBackend σ F) : Prop where
  fresh_matrix_zero : ∀ s m i j, B.GetMatrixValue (B.InitializeMatrix s m) i j m = 0
  fresh_matrix_columns : ∀ s s2 m row,
    B.GetColumnsOfNonZeroMatrixElementsInRow (B.InitializeMatrix s m) row m
      = B.GetColumnsOfNonZeroMatrixElementsInRow (B.InitializeMatrix s2 m) row m
  fresh_matrix_vector : ∀ s m i k,
    B.GetVectorValue (B.InitializeMatrix s m) i k = B.GetVectorValue s i k
  fresh_matrix_solution : ∀ s m i k,
    B.GetSolutionValue (B.InitializeMatrix s m) i k = B.GetSolutionValue s i k
  swap_other : ∀ s a b i j m, m ≠ a → m ≠ b →
    B.GetMatrixValue (B.SwapMatrices s a b) i j m = B.GetMatrixValue s i j m
  swap_other_columns : ∀ s a b row m, m ≠ a → m ≠ b →
    B.GetColumnsOfNonZeroMatrixElementsInRow (B.SwapMatrices s a b) row m
      = B.GetColumnsOfNonZeroMatrixElementsInRow s row m
  swap_vector : ∀ s a b i k,
    B.GetVectorValue (B.SwapMatrices s a b) i k = B.GetVectorValue s i k
  swap_solution : ∀ s a b i k,
    B.GetSolutionValue (B.SwapMatrices s a b) i k = B.GetSolutionValue s i k
  destroy_other_columns : ∀ s t row m, m ≠ t →
    B.GetColumnsOfNonZeroMatrixElementsInRow (B.DestroyMatrix s t) row m
      = B.GetColumnsOfNonZeroMatrixElementsInRow s row m
  destroyed_value : ∀ s s2 t i j,
    B.GetMatrixValue (B.DestroyMatrix s t) i j t = B.GetMatrixValue (B.DestroyMatrix s2 t) i j t
  destroyed_columns : ∀ s s2 t row,
    B.GetColumnsOfNonZeroMatrixElementsInRow (B.DestroyMatrix s t) row t
      = B.GetColumnsOfNonZeroMatrixElementsInRow (B.DestroyMatrix s2 t) row t
  destroy_vector : ∀ s t i k,
    B.GetVectorValue (B.DestroyMatrix s t) i k = B.GetVectorValue s i k
  destroy_solution : ∀ s t i k,
    B.GetSolutionValue (B.DestroyMatrix s t) i k = B.GetSolutionValue s i k
  write_columns : ∀ s s2 i j v m,
    (∀ i2 j2, B.GetMatrixValue s i2 j2 m = B.GetMatrixValue s2 i2 j2 m) →
    (∀ row, B.GetColumnsOfNonZeroMatrixElementsInRow s row m
      = B.GetColumnsOfNonZeroMatrixElementsInRow s2 row m) →
    ∀ row, B.GetColumnsOfNonZeroMatrixElementsInRow (B.SetMatrixValue s i j v m) row m
      = B.GetColumnsOfNonZeroMatrixElementsInRow (B.SetMatrixValue s2 i j v m) row m

/-- Two states hold the same in every slot other than matrix slot `t`: the same
values and enumerations in every other matrix slot, the same values in every
vector slot and in every solution slot. -/
def SameOutside (B : LinearSystemBackend σ F) (t : Nat) (s1 s2 : σ) : Prop :=
  (∀ i j m, m ≠ t → B.GetMatrixValue s1 i j m = B.GetMatrixValue s2 i j m) ∧
  (∀ row m, m ≠ t → B.GetColumnsOfNonZeroMatrixElementsInRow s1 row m
    = B.GetColumnsOfNonZeroMatrixElementsInRow s2 row m) ∧
  (∀ i k, B.GetVectorValue s1 i k = B.GetVectorValue s2 i k) ∧
  (∀ i k, B.GetSolutionValue s1 i k = B.GetSolutionValue s2 i k)

/-- Two states hold the same in every slot: whatever is read from the one is read
from the other. -/
def SameState (B : LinearSystemBackend σ F) (s1 s2 : σ) : Prop :=
  (∀ i j m, B.GetMatrixValue s1 i j m = B.GetMatrixValue s2 i j m) ∧
  (∀ row m, B.GetColumnsOfNonZeroMatrixElementsInRow s1 row m
    = B.GetColumnsOfNonZeroMatrixElementsInRow s2 row m) ∧
  (∀ i k, B.GetVectorValue s1 i k = B.GetVectorValue s2 i k) ∧
  (∀ i k, B.GetSolutionValue s1 i k = B.GetSolutionValue s2 i k)

/-- One call of a `Set...Value` function, with its position and slot. -/
inductive WriteCall where
  | matrix (i j matrixIndex : Nat)
  | vector (i vectorIndex : Nat)
  | solution (i solutionIndex : Nat)
  deriving DecidableEq, Repr

/-- A write-counting backend: the backend `B` with a log to which every call of
`SetMatrixValue`, `SetVectorValue` and `SetSolutionValue` is appended. -/
def recordWrites (B : LinearSystemBackend σ F) : LinearSystemBackend (σ × List WriteCall) F where
  GetMatrixValue s i j m := B.GetMatrixValue s.1 i j m
  SetMatrixValue s i j v m := (B.SetMatrixValue s.1 i j v m, s.2 ++ [WriteCall.matrix i j m])
  GetVectorValue s i k := B.GetVectorValue s.1 i k
  SetVectorValue s i v k := (B.SetVectorValue s.1 i v k, s.2 ++ [WriteCall.vector i k])
  GetSolutionValue s i k := B.GetSolutionValue s.1 i k
  SetSolutionValue s i v k := (B.SetSolutionValue s.1 i v k, s.2 ++ [WriteCall.solution i k])
  InitializeMatrix s m := (B.InitializeMatrix s.1 m, s.2)
  InitializeVector s k := (B.InitializeVector s.1 k, s.2)
  DestroyMatrix s m := (B.DestroyMatrix s.1 m, s.2)
  SwapMatrices s a b := (B.SwapMatrices s.1 a b, s.2)
  GetColumnsOfNonZeroMatrixElementsInRow s row m :=
    B.GetColumnsOfNonZeroMatrixElementsInRow s.1 row m

/-- State of the reference backend: values of the matrix slots (slot, row,
column), the enumeration kept with each matrix slot (slot, row), values of the
vector slots and of the solution slots (slot, index). -/
structure Store (F : Type) where
  matrices : Nat → Nat → Nat → F
  patterns : Nat → Nat → ColumnArray
  vectors : Nat → Nat → F
  solutions : Nat → Nat → F

/-- A reference backend on `Store`, showing that the laws can be met: a write
updates one value, `Initialize...` fills a slot with zero, `InitializeMatrix` and
`DestroyMatrix` also empty the enumeration of the slot, `SwapMatrices` exchanges two
slots with their enumerations, and the enumeration of a row is the one kept in the
store. -/
def storeBackend (F : Type) [Zero F] : LinearSystemBackend (Store F) F where
  GetMatrixValue s i j m := s.matrices m i j
  SetMatrixValue s i j v m :=
    { s with matrices := fun m2 i2 j2 =>
        if (i2, j2, m2) = (i, j, m) then v else s.matrices m2 i2 j2 }
  GetVectorValue s i k := s.vectors k i
  SetVectorValue s i v k :=
    { s with vectors := fun k2 i2 => if (i2, k2) = (i, k) then v else s.vectors k2 i2 }
  GetSolutionValue s i k := s.solutions k i
  SetSolutionValue s i v k :=
    { s with solutions := fun k2 i2 => if (i2, k2) = (i, k) then v else s.solutions k2 i2 }
  InitializeMatrix s m :=
    { s with
      matrices := fun m2 i j => if m2 = m then 0 else s.matrices m2 i j
      patterns := fun m2 row => if m2 = m then [] else s.patterns m2 row }
  InitializeVector s k :=
    { s with vectors := fun k2 i => if k2 = k then 0 else s.vectors k2 i }
  DestroyMatrix s m :=
    { s with
      matrices := fun m2 i j => if m2 = m then 0 else s.matrices m2 i j
      patterns := fun m2 row => if m2 = m then [] else s.patterns m2 row }
  SwapMatrices s a b :=
    { s with
      matrices := fun m2 => if m2 = b then s.matrices a else if m2 = a then s.matrices b
        else s.matrices m2
      patterns := fun m2 => if m2 = b then s.patterns a else if m2 = a then s.patterns b
        else s.patterns m2 }
  GetColumnsOfNonZeroMatrixElementsInRow s row m := s.patterns m row

end Laws

/-! ## Cuthill-McKee ordering

The matrix enters only through `GetColumnsOfNonZeroMatrixElementsInRow`, which the
ordering never changes; it is the argument `cols`, mapping a row to its
enumeration of nonzero columns. -/

/-- Array `rowDegree` after the initialisation loop of `CuthillMckeeOrdering`:
`rowDegree[i] = currentRow.size() - 1`. -/
def initialRowDegree (N : Nat) (cols : Nat → ColumnArray) : ColumnArray :=
  (List.range N).map fun i => decrementUnsigned (cols i).length

/-- Array `reverseMapping` after the initialisation loop of `CuthillMckeeOrdering`:
every entry holds the impossible value `m_Order`. -/
def initialReverseMapping (N : Nat) : ColumnArray := List.replicate N N

/-- Body of the loop `for (i=1; i<m_Order; i++)` that looks for the row of lowest
degree: `rows` are the values of `i` still to visit. -/
def scanLowestDegree (rowDegree : ColumnArray) :
    List Nat → Nat → Nat → Except Fault Nat
  | [], startingRow, _ => .ok startingRow
  | i :: rows, startingRow, lowestDegree => do
    let d ← readAt rowDegree i
    if d < lowestDegree then scanLowestDegree rowDegree rows i d
    else scanLowestDegree rowDegree rows startingRow lowestDegree

/-- The branch `if (startingRow < 0)` of `CuthillMckeeOrdering`. -/
def chooseStartingRow (N : Nat) (rowDegree : ColumnArray) : Except Fault Nat := do
  let lowestDegree ← readAt rowDegree 0
  scanLowestDegree rowDegree (List.range' 1 (N - 1)) 0 lowestDegree

/-- Inner loop of the bubble sort, `for (j=0; j<count; j++)`, acting on the
elements from position `j` on: compare `rowDegree[x[j+1]] < rowDegree[x[j]]`
and swap the two neighbours when it holds.  The last case is a comparison past the
end of the list, which the bounds of the outer loop rule out. -/
def bubbleInner (rowDegree : ColumnArray) : Nat → ColumnArray → Except Fault ColumnArray
  | 0, xs => .ok xs
  | count + 1, a :: b :: rest => do
    let db ← readAt rowDegree b
    let da ← readAt rowDegree a
    if db < da then do
      let tail ← bubbleInner rowDegree count (a :: rest)
      pure (b :: tail)
    else do
      let tail ← bubbleInner rowDegree count (b :: rest)
      pure (a :: tail)
  | _ + 1, _ => .error .outOfRange

/-- Outer loop of the bubble sort: the inner loop runs `passes, passes - 1, ..., 1`
comparisons (`size-1-i` for `i = 0, ..., size-2`). -/
def bubblePasses (rowDegree : ColumnArray) : Nat → ColumnArray → Except Fault ColumnArray
  | 0, xs => .ok xs
  | passes + 1, xs => do
    let ys ← bubbleInner rowDegree (passes + 1) xs
    bubblePasses rowDegree passes ys

/-- The block `/* order by degree */`, guarded by `size() > 1`. -/
def orderByDegree (rowDegree : ColumnArray) (xs : ColumnArray) : Except Fault ColumnArray :=
  if xs.length > 1 then bubblePasses rowDegree (xs.length - 1) xs else .ok xs

/-- The loop `reverseMapping[ nextRows[i] ] = nextRowNumber++`. -/
def assignNumbers : ColumnArray → ColumnArray → Nat → Except Fault (ColumnArray × Nat)
  | [], reverseMapping, nextRowNumber => .ok (reverseMapping, nextRowNumber)
  | r :: rows, reverseMapping, nextRowNumber => do
    let reverseMapping ← writeAt reverseMapping r nextRowNumber
    assignNumbers rows reverseMapping (nextRowNumber + 1)

/-- The loop `/* remove previously renumbered rows */`, which reads
`reverseMapping[c]` for every entry `c` in turn and erases those with
`reverseMapping[c] < m_Order`. -/
def removeNumbered (N : Nat) (reverseMapping : ColumnArray) :
    ColumnArray → Except Fault ColumnArray
  | [] => .ok []
  | c :: rowBuffer => do
    let v ← readAt reverseMapping c
    let rest ← removeNumbered N reverseMapping rowBuffer
    if v < N then pure rest else pure (c :: rest)

/-- The loop `/* add rows in rowBuffer to bufferArray (don't add repeats) */`. -/
def addNoRepeats : ColumnArray → ColumnArray → ColumnArray
  | bufferArray, [] => bufferArray
  | bufferArray, r :: rowBuffer =>
    if r ∈ bufferArray then addNoRepeats bufferArray rowBuffer
    else addNoRepeats (bufferArray ++ [r]) rowBuffer

/-- The loop `/* renumber rows in nextRows */` over the rows of the frontier
still to visit: enumerate a row, drop numbered rows, order by degree, append
to `bufferArray` what is not yet in it. -/
def expandFrontier (N : Nat) (cols : Nat → ColumnArray) (rowDegree reverseMapping : ColumnArray) :
    ColumnArray → ColumnArray → Except Fault ColumnArray
  | [], bufferArray => .ok bufferArray
  | r :: nextRows, bufferArray => do
    let rowBuffer ← removeNumbered N reverseMapping (cols r)
    let rowBuffer ← orderByDegree rowDegree rowBuffer
    expandFrontier N cols rowDegree reverseMapping nextRows (addNoRepeats bufferArray rowBuffer)

/-- The loop `while ( (nextRows.size() != 0 ) && (nextRowNumber < m_Order) )`, with
a budget of passes. -/
def followLoop (N : Nat) (cols : Nat → ColumnArray) (rowDegree : ColumnArray) :
    Nat → ColumnArray → ColumnArray → Nat → Except Fault ColumnArray
  | fuel, nextRows, reverseMapping, nextRowNumber =>
    if nextRows.length ≠ 0 ∧ nextRowNumber < N then
      match fuel with
      | 0 => .error .outOfFuel
      | fuel + 1 => do
        let (reverseMapping, nextRowNumber) ← assignNumbers nextRows reverseMapping nextRowNumber
        let bufferArray ← expandFrontier N cols rowDegree reverseMapping nextRows []
        followLoop N cols rowDegree fuel bufferArray reverseMapping nextRowNumber
    else .ok reverseMapping

/-- `LinearSystemWrapper::FollowConnectionsCuthillMckeeOrdering`; the result is the
array `reverseMapping`, which the source updates through a reference.  The loop
`/* remove diagonal element */` erases an entry equal to `rowNumber` and steps the
iterator back onto its predecessor, so that the scan resumes at the entry that
followed: what is left are the entries different from `rowNumber`, in their order.
Every pass of the `while` loop advances `nextRowNumber` by the size of a non-empty
frontier and the loop stops once `nextRowNumber` reaches `m_Order`, hence the budget
of `N` passes. -/
def FollowConnectionsCuthillMckeeOrdering (N : Nat) (cols : Nat → ColumnArray)
    (rowNumber : Nat) (rowDegree reverseMapping : ColumnArray) (nextRowNumber : Nat) :
    Except Fault ColumnArray := do
  let v ← readAt reverseMapping rowNumber
  if v > decrementUnsigned N then pure reverseMapping
  else do
    let nextRows := (cols rowNumber).filter fun c => c ≠ rowNumber
    let nextRows ← orderByDegree rowDegree nextRows
    followLoop N cols rowDegree N nextRows reverseMapping nextRowNumber

/-- The final loop `newNumbering[ reverseMapping[i] ] = i` of `CuthillMckeeOrdering`,
over the values of `i` still to visit. -/
def invertMapping (reverseMapping : ColumnArray) :
    List Nat → ColumnArray → Except Fault ColumnArray
  | [], newNumbering => .ok newNumbering
  | i :: rows, newNumbering => do
    let v ← readAt reverseMapping i
    let newNumbering ← writeAt newNumbering v i
    invertMapping reverseMapping rows newNumbering

/-- `LinearSystemWrapper::CuthillMckeeOrdering`; the result is `newNumbering`.  The
argument `startingRow` is an `int`; the row found by the scan is stored back into
it, which presumes, as the source does, that the order fits an `int`. -/
def CuthillMckeeOrdering (N : Nat) (cols : Nat → ColumnArray) (startingRow : Int) :
    Except Fault ColumnArray := do
  let newNumbering := List.replicate N 0
  let rowDegree := initialRowDegree N cols
  let reverseMapping := initialReverseMapping N
  let startingRow ← if startingRow < 0 then chooseStartingRow N rowDegree
    else pure startingRow.toNat
  let reverseMapping ← writeAt reverseMapping startingRow 0
  let reverseMapping ←
    FollowConnectionsCuthillMckeeOrdering N cols startingRow rowDegree reverseMapping 1
  invertMapping reverseMapping (List.range N) newNumbering

/-- `LinearSystemWrapper::ReverseCuthillMckeeOrdering`. -/
def ReverseCuthillMckeeOrdering (N : Nat) (cols : Nat → ColumnArray) :
    Except Fault ColumnArray :=
  CuthillMckeeOrdering N cols (-1)

/-- `LinearSystemWrapper::GetColumnsOfNonZeroMatrixElementsInRow`, the default of the
base class: `cols = ColumnArray(m_Order)` followed by the loop `cols[i] = i`.  The
row, the matrix index and the stored values are not read. -/
def GetColumnsOfNonZeroMatrixElementsInRow (N : Nat) (_row : Nat) (_matrixIndex : Nat) :
    ColumnArray :=
  (List.range N).foldl (fun cols i => cols.set i i) (List.replicate N 0)

/-! ## Errors

The constructors of `itkFEMException.cxx` and of `itkFEMLinearSystemWrapper.cxx`.
The base class `ExceptionObject` and the declaration of `FEMException`, with the
default of its argument `location`, are not among the sources: that default is the
argument `defaultLocation` of the constructors that call
`FEMException(file, lineNumber)`. -/

/-- Modelled from the spec: the base class `ExceptionObject`, which is not among the
sources.  An error carries a description and a source location made of a file, a
line and a logical location. -/
structure ExceptionObject where
  file : String
  line : Nat
  location : String
  description : String
  deriving DecidableEq, Repr

/-- Modelled from the spec: the constructor `ExceptionObject(file, lineNumber)`.  The
location and the description it starts with are replaced by `FEMException` before
anything reads them; they stand here as empty strings. -/
def ExceptionObject.atLine (file : String) (lineNumber : Nat) : ExceptionObject :=
  { file := file, line := lineNumber, location := "", description := "" }

/-- Modelled from the spec: `SetDescription`, which replaces the description. -/
def ExceptionObject.SetDescription (e : ExceptionObject) (s : String) : ExceptionObject :=
  { e with description := s }

/-- Modelled from the spec: `SetLocation`, which replaces the logical location. -/
def ExceptionObject.SetLocation (e : ExceptionObject) (s : String) : ExceptionObject :=
  { e with location := s }

/-- The character `\0` with which the constructors end the text they build in an
`ostrstream`. -/
def nul : Char := Char.ofNat 0

/-- The string that a `char*` denotes, here the result of `buf.str()` handed to
`SetDescription`: the characters of the buffer that precede the first `\0`. -/
def cString (buffer : String) : String :=
  String.mk (buffer.data.takeWhile fun c => c ≠ nul)

/-- `FEMException::FEMException(file, lineNumber, location)`. -/
def FEMException (file : String) (lineNumber : Nat) (location : String) : ExceptionObject :=
  ((ExceptionObject.atLine file lineNumber).SetDescription
    "Unhandled exception in FEM class!").SetLocation location

/-- `FEMExceptionLinearSystem::FEMExceptionLinearSystem`. -/
def FEMExceptionLinearSystem (defaultLocation : String) (file : String) (lineNumber : Nat)
    (location : String) (moreDescription : String) : ExceptionObject :=
  ((FEMException file lineNumber defaultLocation).SetDescription
    ("Error in linear system: " ++ moreDescription)).SetLocation location

/-- `FEMExceptionLinearSystemBounds::FEMExceptionLinearSystemBounds` with one index:
the text is written to an `ostrstream`, ended by `\0`, and handed to `SetDescription`
as a `char*`.  The argument `location` is not used by the source. -/
def FEMExceptionLinearSystemBounds.oneIndex (defaultLocation : String) (file : String)
    (lineNumber : Nat) (_location : String) (moreDescription : String) (index1 : Nat) :
    ExceptionObject :=
  (FEMException file lineNumber defaultLocation).SetDescription
    (cString ("Index of " ++ moreDescription ++ " out of bounds (" ++ toString index1 ++ ")"
      ++ String.singleton nul))

/-- `FEMExceptionLinearSystemBounds::FEMExceptionLinearSystemBounds` with two indices.
The arguments `location` and `moreDescription` are not used by the source. -/
def FEMExceptionLinearSystemBounds.twoIndices (defaultLocation : String) (file : String)
    (lineNumber : Nat) (_location : String) (_moreDescription : String)
    (index1 index2 : Nat) : ExceptionObject :=
  (FEMException file lineNumber defaultLocation).SetDescription
    (cString ("Index out of bounds (" ++ toString index1 ++ "," ++ toString index2 ++ ")"
      ++ String.singleton nul))

/-- `FEMExceptionIO::FEMExceptionIO`. -/
def FEMExceptionIO (defaultLocation : String) (file : String) (lineNumber : Nat)
    (location : String) (moreDescription : String) : ExceptionObject :=
  ((FEMException file lineNumber defaultLocation).SetDescription
    ("IO error in FEM class: " ++ moreDescription)).SetLocation location

/-- `FEMExceptionWrongClass::FEMExceptionWrongClass`. -/
def FEMExceptionWrongClass (file : String) (lineNumber : Nat) (location : String) :
    ExceptionObject :=
  (FEMException file lineNumber location).SetDescription "Object was of wrong class!"

/-- An object of the class `FEMExceptionObjectNotFound`: an error with the members
`m_baseClassName` and `m_GN` that its constructor assigns. -/
structure ObjectNotFound extends ExceptionObject where
  m_baseClassName : String
  m_GN : Int
  deriving DecidableEq, Repr

/-- `FEMExceptionObjectNotFound::FEMExceptionObjectNotFound`: the two members are
assigned, the text is written to an `ostrstream`, ended by `\0`, and handed to
`SetDescription` as a `char*`.  The argument `GN` is an `int`. -/
def FEMExceptionObjectNotFound (file : String) (lineNumber : Nat) (location : String)
    (baseClassName : String) (GN : Int) : ObjectNotFound :=
  { toExceptionObject :=
      (FEMException file lineNumber location).SetDescription
        (cString ("Object not found (" ++ baseClassName ++ ", GN=" ++ toString GN ++ ")!"
          ++ String.singleton nul))
    m_baseClassName := baseClassName
    m_GN := GN }

/-- `FEMExceptionSolution::FEMExceptionSolution`. -/
def FEMExceptionSolution (defaultLocation : String) (file : String) (lineNumber : Nat)
    (location : String) (moreDescription : String) : ExceptionObject :=
  ((FEMException file lineNumber defaultLocation).SetDescription
    ("Error when solving FEM problem: " ++ moreDescription)).SetLocation location

/-! ## Vocabulary of the properties

Patterns of nonzero columns, their well-formedness conditions, and a functional
description of the traversal against which the embedded code is compared. -/

/-- Every enumerated column of a row of `[0, N)` is a column of `[0, N)`. -/
def ColumnsInRange (N : Nat) (cols : Nat → ColumnArray) : Prop :=
  ∀ r, r < N → ∀ c ∈ cols r, c < N

/-- No row of `[0, N)` enumerates a column twice. -/
def DuplicateFree (N : Nat) (cols : Nat → ColumnArray) : Prop :=
  ∀ r, r < N → (cols r).Nodup

/-- Column `c` is enumerated in row `r` exactly when `r` is enumerated in row `c`. -/
def StructurallySymmetric (N : Nat) (cols : Nat → ColumnArray) : Prop :=
  ∀ r c, r < N → c < N → c ∈ cols r → r ∈ cols c

/-- Every row of `[0, N)` is reached from every other one along enumerated columns. -/
def Connected (N : Nat) (cols : Nat → ColumnArray) : Prop :=
  ∀ a b, a < N → b < N → Relation.ReflTransGen (fun x y => y ∈ cols x) a b

/-- The chain pattern: row `i` enumerates those of `i - 1`, `i`, `i + 1` that lie in
`[0, N)`, in ascending order. -/
def chainColumns (N : Nat) (i : Nat) : ColumnArray :=
  (if 0 < i then [i - 1] else []) ++ [i] ++ (if i + 1 < N then [i + 1] else [])

/-- The degree that `CuthillMckeeOrdering` stores for row `i`. -/
def rowDegreeOf (cols : Nat → ColumnArray) (i : Nat) : Nat :=
  decrementUnsigned (cols i).length

/-- Result of the scan for the row of lowest degree, as a function of the degrees. -/
def lowestDegreeScan (deg : Nat → Nat) : List Nat → Nat → Nat → Nat
  | [], startingRow, _ => startingRow
  | i :: rows, startingRow, lowestDegree =>
    if deg i < lowestDegree then lowestDegreeScan deg rows i (deg i)
    else lowestDegreeScan deg rows startingRow lowestDegree

/-- Result of one inner loop of the bubble sort, as a function of the degrees. -/
def sortInner (deg : Nat → Nat) : Nat → List Nat → List Nat
  | 0, xs => xs
  | count + 1, a :: b :: rest =>
    if deg b < deg a then b :: sortInner deg count (a :: rest)
    else a :: sortInner deg count (b :: rest)
  | _ + 1, xs => xs

/-- Result of the outer loop of the bubble sort, as a function of the degrees. -/
def sortPasses (deg : Nat → Nat) : Nat → List Nat → List Nat
  | 0, xs => xs
  | passes + 1, xs => sortPasses deg passes (sortInner deg (passes + 1) xs)

/-- Result of the block `/* order by degree */`, as a function of the degrees. -/
def sortByDegree (deg : Nat → Nat) (xs : List Nat) : List Nat :=
  if xs.length > 1 then sortPasses deg (xs.length - 1) xs else xs

/-- The entry of `reverseMapping` for row `i` once the rows of `order` have been
numbered in that order: its position in `order`, or the impossible value `N`. -/
def numberOf (N : Nat) (order : List Nat) (i : Nat) : Nat :=
  if i ∈ order then order.indexOf i else N

/-- The array `reverseMapping` once the rows of `order` have been numbered in that
order. -/
def encodeOrder (N : Nat) (order : List Nat) : ColumnArray :=
  (List.range N).map (numberOf N order)

/-- The next frontier as a function of the list `order` of numbered rows: the rows
of the frontier still to visit, then `bufferArray`. -/
def nextFrontier (cols : Nat → ColumnArray) (deg : Nat → Nat) (order : List Nat) :
    List Nat → List Nat → List Nat
  | [], bufferArray => bufferArray
  | r :: frontier, bufferArray =>
    nextFrontier cols deg order frontier
      (addNoRepeats bufferArray (sortByDegree deg ((cols r).filter fun c => c ∉ order)))

/-- The traversal as a function on the list of numbered rows: each pass appends the
frontier to the list and moves to the next frontier. -/
def levelTraversal (N : Nat) (cols : Nat → ColumnArray) (deg : Nat → Nat) :
    Nat → List Nat → List Nat → List Nat
  | fuel, order, frontier =>
    if frontier.length ≠ 0 ∧ order.length < N then
      match fuel with
      | 0 => order
      | fuel + 1 =>
        levelTraversal N cols deg fuel (order ++ frontier)
          (nextFrontier cols deg (order ++ frontier) frontier [])
    else order

/-- Bandwidth of a pattern under a numbering `p` of its rows: the largest
`|p i - p j|` over the enumerated positions `(i, j)`. -/
def bandwidth (N : Nat) (cols : Nat → ColumnArray) (p : Nat → Nat) : Nat :=
  ((List.range N).flatMap fun i => (cols i).map fun j => Nat.dist (p i) (p j)).foldl max 0

/-- The row that the scan for the lowest degree selects, as a function of the
degrees. -/
def lowestDegreeRow (N : Nat) (deg : Nat → Nat) : Nat :=
  lowestDegreeScan deg (List.range' 1 (N - 1)) 0 (deg 0)

/-- The list of rows in the order in which the traversal from row `s` numbers
them. -/
def traversalFrom (N : Nat) (cols : Nat → ColumnArray) (s : Nat) : List Nat :=
  levelTraversal N cols (rowDegreeOf cols) N [s]
    (sortByDegree (rowDegreeOf cols) ((cols s).filter fun c => c ≠ s))

/-- The enumeration of a backend that keeps the default of the base class: every
row of matrix `matrixIndex` enumerates all `N` columns. -/
def denseColumns (N matrixIndex : Nat) : Nat → ColumnArray :=
  fun row => GetColumnsOfNonZeroMatrixElementsInRow N row matrixIndex

/-- The star pattern on five rows: row 2 is coupled to every row, and every other
row to itself and to row 2. -/
def starColumns : Nat → ColumnArray
  | 0 => [0, 2]
  | 1 => [1, 2]
  | 2 => [0, 1, 2, 3, 4]
  | 3 => [2, 3]
  | 4 => [2, 4]
  | _ => []

/-- A run that did not stop for lack of passes: it completed or met an
out-of-range index. -/
def WithinBudget {α : Type} (x : Except Fault α) : Prop := x ≠ .error .outOfFuel


/-- Row `b` is reached from row `a` along enumerated columns. -/
def Reachable (cols : Nat → ColumnArray) (a b : Nat) : Prop :=
  Relation.ReflTransGen (fun x y => y ∈ cols x) a b

/-- Row `x` is reached from row `s` in at most `k` steps along enumerated columns:
the graph distance from `s` to `x` is at most `k`. -/
def WithinDistance (cols : Nat → ColumnArray) (s : Nat) : Nat → Nat → Prop
  | 0, x => x = s
  | k + 1, x => WithinDistance cols s k x ∨ ∃ y, WithinDistance cols s k y ∧ x ∈ cols y

/-- First-occurrence deduplication of a list of rows, in the words of the
specification: every row is kept where it is first seen and dropped where it is
seen again. -/
def firstOccurrences : List Nat → List Nat
  | [] => []
  | x :: xs => x :: (firstOccurrences xs).filter fun y => y ≠ x

/-- The next frontier in the words of the specification: the first-occurrence
deduplication of the concatenation, in frontier order, of the degree-sorted lists of
the still-unnumbered neighbours of the rows of the frontier. -/
def nextFrontierOfSpec (N : Nat) (cols : Nat → ColumnArray) (rowDegree reverseMapping : ColumnArray)
    (frontier : List Nat) : List Nat :=
  firstOccurrences (frontier.flatMap fun r =>
    sortByDegree (fun i => rowDegree.getD i 0)
      ((cols r).filter fun c => ¬ reverseMapping.getD c 0 < N))

/-- The states in which a call of `FollowConnectionsCuthillMckeeOrdering` made by
`CuthillMckeeOrdering` for the start row `s` stands at the head of its `while` loop,
as the frontier `nextRows`, the array `reverseMapping` and the counter
`nextRowNumber`: the state on entry, and the state after every pass made from such a
state in which the loop condition holds. -/
inductive LoopHead (N : Nat) (cols : Nat → ColumnArray) (s : Nat) :
    ColumnArray → ColumnArray → Nat → Prop where
  | entry {reverseMapping nextRows : ColumnArray} :
      writeAt (initialReverseMapping N) s 0 = .ok reverseMapping →
      orderByDegree (initialRowDegree N cols) ((cols s).filter fun c => c ≠ s) = .ok nextRows →
      LoopHead N cols s nextRows reverseMapping 1
  | pass {nextRows reverseMapping bufferArray reverseMapping1 : ColumnArray}
      {nextRowNumber nextRowNumber1 : Nat} :
      LoopHead N cols s nextRows reverseMapping nextRowNumber →
      nextRows.length ≠ 0 ∧ nextRowNumber < N →
      assignNumbers nextRows reverseMapping nextRowNumber
        = .ok (reverseMapping1, nextRowNumber1) →
      expandFrontier N cols (initialRowDegree N cols) reverseMapping1 nextRows []
        = .ok bufferArray →
      LoopHead N cols s bufferArray reverseMapping1 nextRowNumber1

/-- The pattern of a diagonal matrix: every row enumerates its diagonal only. -/
def diagonalColumns : Nat → ColumnArray := fun i => [i]

/-- The pattern of two uncoupled blocks on four rows: rows 0 and 1 are coupled to
each other, and so are rows 2 and 3. -/
def twoBlockColumns : Nat → ColumnArray
  | 0 => [0, 1]
  | 1 => [0, 1]
  | 2 => [2, 3]
  | 3 => [2, 3]
  | _ => []

/-- A pattern on six rows in which the rows 1 and 2, coupled to row 0, lead on to
row 3 of degree 3 and to row 4 of degree 2. -/
def forkColumns : Nat → ColumnArray
  | 0 => [0, 1, 2]
  | 1 => [0, 1, 3]
  | 2 => [0, 2, 4]
  | 3 => [1, 3, 4, 5]
  | 4 => [2, 3, 4]
  | 5 => [3, 5]
  | _ => []

/-! ## Proofs: default operations -/

section DefaultOperationProofs

variable {σ F : Type}

/-- A loop nested in a loop visits the pairs of the product in row-major order. -/
theorem foldl_nested_eq_foldl_product {α β τ : Type} (f : τ → α → β → τ) (l₂ : List β) :
    ∀ (l₁ : List α) (s : τ),
      l₁.foldl (fun s a => l₂.foldl (fun s b => f s a b) s) s
        = (l₁ ×ˢ l₂).foldl (fun s p => f s p.1 p.2) s := by
  intro l₁
  induction l₁ with
  | nil => intro s; rfl
  | cons a l ih =>
    intro s
    rw [List.foldl_cons, ih, List.product_cons, List.foldl_append, List.foldl_map]

theorem storeBackend_getSetLaws (F : Type) [Zero F] : GetSetLaws (storeBackend F) := by
  constructor <;> intros <;> simp_all [storeBackend]

theorem storeBackend_storageLaws (F : Type) [Zero F] : StorageLaws (storeBackend F) := by
  constructor <;> intros <;> simp_all [storeBackend]

/-- Rewriting the positions of a duplicate-free list as `scale * old` scales exactly
those positions. -/
theorem scale_positions [Zero F] [Mul F] (B : LinearSystemBackend σ F) (h : GetSetLaws B)
    (scale : F) (m : Nat) :
    ∀ (ps : List (Nat × Nat)) (s : σ), ps.Nodup → ∀ i j,
      B.GetMatrixValue
          (ps.foldl (fun s p =>
            B.SetMatrixValue s p.1 p.2 (scale * B.GetMatrixValue s p.1 p.2 m) m) s) i j m
        = if (i, j) ∈ ps then scale * B.GetMatrixValue s i j m else B.GetMatrixValue s i j m := by
  intro ps
  induction ps with
  | nil => intro s _ i j; simp
  | cons p ps ih =>
    intro s hnd i j
    obtain ⟨hp, hnd⟩ := List.nodup_cons.mp hnd
    rw [List.foldl_cons, ih _ hnd]
    by_cases hmem : (i, j) ∈ ps
    · have hne : (i, j, m) ≠ (p.1, p.2, m) := by
        intro he
        simp only [Prod.mk.injEq] at he
        exact hp (by rw [show p = (i, j) from Prod.ext he.1.symm he.2.1.symm]; exact hmem)
      simp [hmem, h.matrix_read_other _ _ _ _ _ _ _ _ hne]
    · by_cases hpe : (i, j) = p
      · subst hpe
        simp [hmem, h.matrix_read_written]
      · have hne : (i, j, m) ≠ (p.1, p.2, m) := by
          intro he
          simp only [Prod.mk.injEq] at he
          exact hpe (Prod.ext he.1 he.2.1)
        simp [hmem, hpe, h.matrix_read_other _ _ _ _ _ _ _ _ hne]

/-- On the write-counting backend the scaling loop does what it does on the backend
itself and logs one matrix write per visited position. -/
theorem scale_positions_log [Mul F] (B : LinearSystemBackend σ F) (scale : F) (m : Nat) :
    ∀ (ps : List (Nat × Nat)) (s : σ) (log : List WriteCall),
      ps.foldl (fun s p =>
          (recordWrites B).SetMatrixValue s p.1 p.2
            (scale * (recordWrites B).GetMatrixValue s p.1 p.2 m) m) (s, log)
        = (ps.foldl (fun s p =>
            B.SetMatrixValue s p.1 p.2 (scale * B.GetMatrixValue s p.1 p.2 m) m) s,
           log ++ ps.map fun p => WriteCall.matrix p.1 p.2 m) := by
  intro ps
  induction ps with
  | nil => intro s log; simp
  | cons p ps ih =>
    intro s log
    rw [List.foldl_cons, List.foldl_cons]
    have : (recordWrites B).SetMatrixValue (s, log) p.1 p.2
        (scale * (recordWrites B).GetMatrixValue (s, log) p.1 p.2 m) m
        = (B.SetMatrixValue s p.1 p.2 (scale * B.GetMatrixValue s p.1 p.2 m) m,
           log ++ [WriteCall.matrix p.1 p.2 m]) := rfl
    rw [this, ih]
    simp

theorem ScaleMatrix_of_ne [Mul F] [One F] [DecidableEq F] (B : LinearSystemBackend σ F)
    (N : Nat) (scale : F) (hs : scale ≠ 1) (m : Nat) (s : σ) :
    ScaleMatrix B N scale m s
      = (List.range N ×ˢ List.range N).foldl (fun s p =>
          B.SetMatrixValue s p.1 p.2 (scale * B.GetMatrixValue s p.1 p.2 m) m) s := by
  unfold ScaleMatrix
  rw [if_neg hs]
  exact foldl_nested_eq_foldl_product
    (fun s i j => B.SetMatrixValue s i j (scale * B.GetMatrixValue s i j m) m) _ _ s

theorem count_matrix_write (N m i j : Nat) (hi : i < N) (hj : j < N) :
    ((List.range N ×ˢ List.range N).map fun p => WriteCall.matrix p.1 p.2 m).count
      (WriteCall.matrix i j m) = 1 := by
  have hinj : Function.Injective fun p : Nat × Nat => WriteCall.matrix p.1 p.2 m := by
    intro p q hpq
    simp only [WriteCall.matrix.injEq] at hpq
    exact Prod.ext hpq.1 hpq.2.1
  have hnd : (List.range N ×ˢ List.range N).Nodup :=
    List.Nodup.product (List.nodup_range N) (List.nodup_range N)
  have := List.count_map_of_injective (List.range N ×ˢ List.range N) _ hinj (i, j)
  rw [this]
  exact List.count_eq_one_of_mem hnd (by simp [List.mem_product, hi, hj])

/-- Claim C4. For every scale different from 1 and every matrix slot, on a backend
obeying the get/set laws, after `ScaleMatrix` every position `(i, j)` of
`[0, N) x [0, N)` holds `scale` times the value it held before, and on the
write-counting backend the log of the call holds exactly one write for each such
position. -/
theorem ScaleMatrix_scales_each_position_once [Zero F] [Mul F] [One F] [DecidableEq F]
    (B : LinearSystemBackend σ F) (h : GetSetLaws B) (N : Nat) (scale : F) (hs : scale ≠ 1)
    (matrixIndex : Nat) (s : σ) :
    (∀ i j, i < N → j < N →
      B.GetMatrixValue (ScaleMatrix B N scale matrixIndex s) i j matrixIndex
        = scale * B.GetMatrixValue s i j matrixIndex) ∧
    (ScaleMatrix (recordWrites B) N scale matrixIndex (s, [])).1
        = ScaleMatrix B N scale matrixIndex s ∧
    (∀ i j, i < N → j < N →
      (ScaleMatrix (recordWrites B) N scale matrixIndex (s, [])).2.count
        (WriteCall.matrix i j matrixIndex) = 1) ∧
    (ScaleMatrix (recordWrites B) N scale matrixIndex (s, [])).2.length = N * N := by
  have hlog := scale_positions_log B scale matrixIndex (List.range N ×ˢ List.range N) s []
  rw [ScaleMatrix_of_ne (recordWrites B) N scale hs, ScaleMatrix_of_ne B N scale hs, hlog]
  refine ⟨?_, rfl, ?_, ?_⟩
  · intro i j hi hj
    rw [scale_positions B h scale matrixIndex _ s
      (List.Nodup.product (List.nodup_range N) (List.nodup_range N))]
    simp [List.mem_product, hi, hj]
  · intro i j hi hj
    simpa using count_matrix_write N matrixIndex i j hi hj
  · simp [List.length_product]

/-- Witness of C4 on the reference backend over the integers. -/
theorem ScaleMatrix_scales_each_position_once_witness :
    GetSetLaws (storeBackend ℤ) ∧ (3 : ℤ) ≠ 1 ∧
    (∀ i j, i < 2 → j < 2 →
      (storeBackend ℤ).GetMatrixValue
          (ScaleMatrix (storeBackend ℤ) 2 3 0 ⟨fun _ i j => i + j, fun _ _ => [], 0, 0⟩) i j 0
        = 3 * (i + j)) :=
  ⟨storeBackend_getSetLaws ℤ, by decide,
    (ScaleMatrix_scales_each_position_once (storeBackend ℤ) (storeBackend_getSetLaws ℤ) 2 3
      (by decide) 0 ⟨fun _ i j => i + j, fun _ _ => [], 0, 0⟩).1⟩

/-- Claim C5. When the scale is exactly 1, `ScaleMatrix`, `ScaleVector` and
`ScaleSolution` return the state they were given, on every backend; on the
write-counting backend in particular the log of writes is unchanged. -/
theorem Scale_by_one_performs_no_write [Mul F] [One F] [DecidableEq F]
    (B : LinearSystemBackend σ F) (N index : Nat) (s : σ) (log : List WriteCall) :
    ScaleMatrix B N 1 index s = s ∧ ScaleVector B N 1 index s = s ∧
    ScaleSolution B N 1 index s = s ∧
    ScaleMatrix (recordWrites B) N 1 index (s, log) = (s, log) ∧
    ScaleVector (recordWrites B) N 1 index (s, log) = (s, log) ∧
    ScaleSolution (recordWrites B) N 1 index (s, log) = (s, log) := by
  simp [ScaleMatrix, ScaleVector, ScaleSolution]

end DefaultOperationProofs


section MultiplyProofs

variable {σ F : Type}

/-- Inner loop of `MultiplyMatrixVector` on row `i`: matrices and the other vector
positions are untouched, and element `i` of the result accumulates the products in
the order of the loop. -/
theorem multiply_row [Zero F] [Add F] [Mul F] (B : LinearSystemBackend σ F) (h : GetSetLaws B)
    (r m v i : Nat) (hne : r ≠ v) :
    ∀ (js : List Nat) (s : σ),
      (∀ i2 j2 m2, B.GetMatrixValue (js.foldl (fun s j =>
          AddVectorValue B i (B.GetMatrixValue s i j m * B.GetVectorValue s j v) r s) s) i2 j2 m2
        = B.GetMatrixValue s i2 j2 m2) ∧
      (∀ i2 k2, (i2, k2) ≠ (i, r) → B.GetVectorValue (js.foldl (fun s j =>
          AddVectorValue B i (B.GetMatrixValue s i j m * B.GetVectorValue s j v) r s) s) i2 k2
        = B.GetVectorValue s i2 k2) ∧
      B.GetVectorValue (js.foldl (fun s j =>
          AddVectorValue B i (B.GetMatrixValue s i j m * B.GetVectorValue s j v) r s) s) i r
        = js.foldl (fun acc j => B.GetMatrixValue s i j m * B.GetVectorValue s j v + acc)
            (B.GetVectorValue s i r) := by
  intro js
  induction js with
  | nil => intro s; simp
  | cons j js ih =>
    intro s
    obtain ⟨hM, hV, hR⟩ := ih
      (AddVectorValue B i (B.GetMatrixValue s i j m * B.GetVectorValue s j v) r s)
    have hM1 : ∀ i2 j2 m2, B.GetMatrixValue
        (AddVectorValue B i (B.GetMatrixValue s i j m * B.GetVectorValue s j v) r s) i2 j2 m2
        = B.GetMatrixValue s i2 j2 m2 := fun i2 j2 m2 => h.vector_write_matrix _ _ _ _ _ _ _
    have hV1 : ∀ i2 k2, (i2, k2) ≠ (i, r) → B.GetVectorValue
        (AddVectorValue B i (B.GetMatrixValue s i j m * B.GetVectorValue s j v) r s) i2 k2
        = B.GetVectorValue s i2 k2 := fun i2 k2 hk => h.vector_read_other _ _ _ _ _ _ hk
    have hin : ∀ j2, (j2, v) ≠ (i, r) := by
      intro j2 he
      simp only [Prod.mk.injEq] at he
      exact hne he.2.symm
    refine ⟨?_, ?_, ?_⟩
    · intro i2 j2 m2
      rw [List.foldl_cons, hM, hM1]
    · intro i2 k2 hk
      rw [List.foldl_cons, hV i2 k2 hk, hV1 i2 k2 hk]
    · rw [List.foldl_cons, hR, List.foldl_cons]
      have hval : B.GetVectorValue
          (AddVectorValue B i (B.GetMatrixValue s i j m * B.GetVectorValue s j v) r s) i r
          = B.GetMatrixValue s i j m * B.GetVectorValue s j v + B.GetVectorValue s i r :=
        h.vector_read_written _ _ _ _
      rw [hval]
      congr 1
      funext acc j2
      rw [hM1, hV1 j2 v (hin j2)]

/-- Outer loop of `MultiplyMatrixVector` over duplicate-free rows: element `i` of a
visited row is the accumulated row product, everything else is untouched. -/
theorem multiply_rows [Zero F] [Add F] [Mul F] (B : LinearSystemBackend σ F) (h : GetSetLaws B)
    (r m v : Nat) (hne : r ≠ v) (js : List Nat) :
    ∀ (rows : List Nat) (s : σ), rows.Nodup →
      (∀ i2 j2 m2, B.GetMatrixValue (rows.foldl (fun s i => js.foldl (fun s j =>
          AddVectorValue B i (B.GetMatrixValue s i j m * B.GetVectorValue s j v) r s) s) s)
          i2 j2 m2 = B.GetMatrixValue s i2 j2 m2) ∧
      (∀ i2 k2, k2 ≠ r → B.GetVectorValue (rows.foldl (fun s i => js.foldl (fun s j =>
          AddVectorValue B i (B.GetMatrixValue s i j m * B.GetVectorValue s j v) r s) s) s)
          i2 k2 = B.GetVectorValue s i2 k2) ∧
      (∀ i, B.GetVectorValue (rows.foldl (fun s i => js.foldl (fun s j =>
          AddVectorValue B i (B.GetMatrixValue s i j m * B.GetVectorValue s j v) r s) s) s) i r
        = if i ∈ rows then
            js.foldl (fun acc j => B.GetMatrixValue s i j m * B.GetVectorValue s j v + acc)
              (B.GetVectorValue s i r)
          else B.GetVectorValue s i r) := by
  intro rows
  induction rows with
  | nil => intro s _; simp
  | cons i0 rows ih =>
    intro s hnd
    obtain ⟨hi0, hnd⟩ := List.nodup_cons.mp hnd
    obtain ⟨hM1, hV1, hR1⟩ := multiply_row B h r m v i0 hne js s
    obtain ⟨hM, hV, hR⟩ := ih (js.foldl (fun s j =>
      AddVectorValue B i0 (B.GetMatrixValue s i0 j m * B.GetVectorValue s j v) r s) s) hnd
    have hother : ∀ i2 k2, k2 ≠ r → (i2, k2) ≠ (i0, r) := by
      intro i2 k2 hk he
      simp only [Prod.mk.injEq] at he
      exact hk he.2
    refine ⟨?_, ?_, ?_⟩
    · intro i2 j2 m2
      rw [List.foldl_cons, hM, hM1]
    · intro i2 k2 hk
      rw [List.foldl_cons, hV i2 k2 hk, hV1 i2 k2 (hother i2 k2 hk)]
    · intro i
      rw [List.foldl_cons, hR]
      have hfun : (fun acc j => B.GetMatrixValue (js.foldl (fun s j =>
            AddVectorValue B i0 (B.GetMatrixValue s i0 j m * B.GetVectorValue s j v) r s) s)
              i j m * B.GetVectorValue (js.foldl (fun s j =>
            AddVectorValue B i0 (B.GetMatrixValue s i0 j m * B.GetVectorValue s j v) r s) s)
              j v + acc)
          = fun acc j => B.GetMatrixValue s i j m * B.GetVectorValue s j v + acc := by
        funext acc j
        rw [hM1, hV1 j v (hother j v (Ne.symm hne))]
      rw [hfun]
      by_cases hmem : i ∈ rows
      · have hii : i ≠ i0 := fun he => hi0 (he ▸ hmem)
        have hp : (i, r) ≠ (i0, r) := by
          intro he
          simp only [Prod.mk.injEq] at he
          exact hii he.1
        simp [hmem, hV1 i r hp]
      · by_cases hii : i = i0
        · subst hii
          simp [hmem, hR1]
        · have hp : (i, r) ≠ (i0, r) := by
            intro he
            simp only [Prod.mk.injEq] at he
            exact hii he.1
          simp [hmem, hii, hV1 i r hp]

/-- The result of `MultiplyMatrixVector` with no assumption on the arithmetic of the
scalars: element `i` is the accumulation, in the order of the loop and starting
from the zero left by `InitializeVector`, of the products of row `i`. -/
theorem MultiplyMatrixVector_accumulates [Zero F] [Add F] [Mul F]
    (B : LinearSystemBackend σ F) (h : GetSetLaws B) (N r m v : Nat) (hne : r ≠ v) (s : σ)
    (i : Nat) (hi : i < N) :
    B.GetVectorValue (MultiplyMatrixVector B N r m v s) i r
      = (List.range N).foldl
          (fun acc j => B.GetMatrixValue s i j m * B.GetVectorValue s j v + acc) 0 := by
  unfold MultiplyMatrixVector
  obtain ⟨_, _, hR⟩ := multiply_rows B h r m v hne (List.range N) (List.range N)
    (B.InitializeVector s r) (List.nodup_range N)
  rw [hR i, if_pos (List.mem_range.mpr hi), h.fresh_vector_zero]
  congr 1
  funext acc j
  rw [h.fresh_vector_matrix, h.fresh_vector_other _ _ _ _ (Ne.symm hne)]

/-- Accumulating from zero over `[0, N)` is the sum over `[0, N)`. -/
theorem foldl_accumulate_eq_sum [AddCommMonoid F] (a : Nat → F) (N : Nat) :
    (List.range N).foldl (fun acc j => a j + acc) 0 = ∑ j in Finset.range N, a j := by
  induction N with
  | zero => simp
  | succ n ih =>
    rw [List.range_succ, List.foldl_append, ih, Finset.sum_range_succ]
    simp [add_comm]

/-- Claim C2. On a backend obeying the get/set laws and for a result slot different
from the input slot, after `MultiplyMatrixVector` every element `i` of `[0, N)` of
the result slot is the sum over `j` in `[0, N)` of `matrix[i][j] * vector[j]`,
whatever the result slot held before (the scalars form a commutative additive
monoid with a multiplication). -/
theorem MultiplyMatrixVector_computes_product [AddCommMonoid F] [Mul F]
    (B : LinearSystemBackend σ F) (h : GetSetLaws B) (N resultVector matrixIndex vectorIndex : Nat)
    (hne : resultVector ≠ vectorIndex) (s : σ) (i : Nat) (hi : i < N) :
    B.GetVectorValue (MultiplyMatrixVector B N resultVector matrixIndex vectorIndex s) i
        resultVector
      = ∑ j in Finset.range N,
          B.GetMatrixValue s i j matrixIndex * B.GetVectorValue s j vectorIndex := by
  rw [MultiplyMatrixVector_accumulates B h N resultVector matrixIndex vectorIndex hne s i hi]
  exact foldl_accumulate_eq_sum _ N

/-- Witness of C2 on the reference backend over the integers: a 2 x 2 matrix with
entries `i + 2 j + 1`, the input vector `(5, 7)` in slot 0 and a result slot 1 that
held 100 everywhere. -/
theorem MultiplyMatrixVector_computes_product_witness :
    GetSetLaws (storeBackend ℤ) ∧ (1 : Nat) ≠ 0 ∧ (1 : Nat) < 2 ∧
    (storeBackend ℤ).GetVectorValue
        (MultiplyMatrixVector (storeBackend ℤ) 2 1 0 0
          ⟨fun _ i j => i + 2 * j + 1, fun _ _ => [],
            fun k i => if k = 0 then (if i = 0 then 5 else 7) else 100, 0⟩) 1 1
      = ∑ j in Finset.range 2, ((1 : ℤ) + 2 * j + 1) * (if j = 0 then 5 else 7) :=
  ⟨storeBackend_getSetLaws ℤ, by decide, by decide,
    MultiplyMatrixVector_computes_product (storeBackend ℤ) (storeBackend_getSetLaws ℤ) 2 1 0 0
      (by decide) ⟨fun _ i j => i + 2 * j + 1, fun _ _ => [],
            fun k i => if k = 0 then (if i = 0 then 5 else 7) else 100, 0⟩ 1 (by decide)⟩

end MultiplyProofs

section OptimizeProofs

variable {σ F : Type}

/-- Copy loop of `OptimizeMatrixStorage` on one row `i` and a list of columns: slot
`t` keeps its values and its enumerations, and slot `m` receives the values of
slot `t` at the listed columns of row `i`. -/
theorem copy_row [Zero F] (B : LinearSystemBackend σ F) (hg : GetSetLaws B)
    (hs : StorageLaws B) (m t i : Nat) (hne : m ≠ t) :
    ∀ (cs : List Nat) (s : σ),
      (∀ i2 j2, B.GetMatrixValue (cs.foldl (fun s c =>
          B.SetMatrixValue s i c (B.GetMatrixValue s i c t) m) s) i2 j2 t
        = B.GetMatrixValue s i2 j2 t) ∧
      (∀ row, B.GetColumnsOfNonZeroMatrixElementsInRow (cs.foldl (fun s c =>
          B.SetMatrixValue s i c (B.GetMatrixValue s i c t) m) s) row t
        = B.GetColumnsOfNonZeroMatrixElementsInRow s row t) ∧
      (∀ i2 j2, B.GetMatrixValue (cs.foldl (fun s c =>
          B.SetMatrixValue s i c (B.GetMatrixValue s i c t) m) s) i2 j2 m
        = if i2 = i ∧ j2 ∈ cs then B.GetMatrixValue s i2 j2 t
          else B.GetMatrixValue s i2 j2 m) := by
  intro cs
  induction cs with
  | nil => intro s; simp
  | cons c cs ih =>
    intro s
    obtain ⟨hT, hC, hM⟩ := ih (B.SetMatrixValue s i c (B.GetMatrixValue s i c t) m)
    have hT1 : ∀ i2 j2, B.GetMatrixValue
        (B.SetMatrixValue s i c (B.GetMatrixValue s i c t) m) i2 j2 t
        = B.GetMatrixValue s i2 j2 t := by
      intro i2 j2
      apply hg.matrix_read_other
      intro he
      simp only [Prod.mk.injEq] at he
      exact hne he.2.2.symm
    refine ⟨?_, ?_, ?_⟩
    · intro i2 j2
      rw [List.foldl_cons, hT, hT1]
    · intro row
      rw [List.foldl_cons, hC, hs.write_other_columns _ _ _ _ _ _ _ (Ne.symm hne)]
    · intro i2 j2
      rw [List.foldl_cons, hM, hT1]
      by_cases hmem : i2 = i ∧ j2 ∈ cs
      · have : i2 = i ∧ j2 ∈ c :: cs := ⟨hmem.1, List.mem_cons_of_mem _ hmem.2⟩
        rw [if_pos hmem, if_pos this]
      · rw [if_neg hmem]
        by_cases hpos : i2 = i ∧ j2 = c
        · obtain ⟨h1, h2⟩ := hpos
          subst h1 h2
          rw [hg.matrix_read_written, if_pos ⟨rfl, List.mem_cons_self _ _⟩]
        · have hnot : ¬ (i2 = i ∧ j2 ∈ c :: cs) := by
            rintro ⟨h1, h2⟩
            rcases List.mem_cons.mp h2 with h2 | h2
            · exact hpos ⟨h1, h2⟩
            · exact hmem ⟨h1, h2⟩
          rw [if_neg hnot]
          apply hg.matrix_read_other
          intro he
          simp only [Prod.mk.injEq] at he
          exact hpos ⟨he.1, he.2.1⟩

/-- Copy loop of `OptimizeMatrixStorage` over a list of rows. -/
theorem copy_rows [Zero F] (B : LinearSystemBackend σ F) (hg : GetSetLaws B)
    (hs : StorageLaws B) (m t : Nat) (hne : m ≠ t) :
    ∀ (rows : List Nat) (s : σ),
      (∀ i2 j2, B.GetMatrixValue (rows.foldl (fun s i =>
          (B.GetColumnsOfNonZeroMatrixElementsInRow s i t).foldl (fun s c =>
            B.SetMatrixValue s i c (B.GetMatrixValue s i c t) m) s) s) i2 j2 t
        = B.GetMatrixValue s i2 j2 t) ∧
      (∀ row, B.GetColumnsOfNonZeroMatrixElementsInRow (rows.foldl (fun s i =>
          (B.GetColumnsOfNonZeroMatrixElementsInRow s i t).foldl (fun s c =>
            B.SetMatrixValue s i c (B.GetMatrixValue s i c t) m) s) s) row t
        = B.GetColumnsOfNonZeroMatrixElementsInRow s row t) ∧
      (∀ i2 j2, B.GetMatrixValue (rows.foldl (fun s i =>
          (B.GetColumnsOfNonZeroMatrixElementsInRow s i t).foldl (fun s c =>
            B.SetMatrixValue s i c (B.GetMatrixValue s i c t) m) s) s) i2 j2 m
        = if i2 ∈ rows ∧ j2 ∈ B.GetColumnsOfNonZeroMatrixElementsInRow s i2 t
          then B.GetMatrixValue s i2 j2 t else B.GetMatrixValue s i2 j2 m) := by
  intro rows
  induction rows with
  | nil => intro s; simp
  | cons i rows ih =>
    intro s
    obtain ⟨hT1, hC1, hM1⟩ :=
      copy_row B hg hs m t i hne (B.GetColumnsOfNonZeroMatrixElementsInRow s i t) s
    obtain ⟨hT, hC, hM⟩ := ih ((B.GetColumnsOfNonZeroMatrixElementsInRow s i t).foldl (fun s c =>
      B.SetMatrixValue s i c (B.GetMatrixValue s i c t) m) s)
    refine ⟨?_, ?_, ?_⟩
    · intro i2 j2
      rw [List.foldl_cons, hT, hT1]
    · intro row
      rw [List.foldl_cons, hC, hC1]
    · intro i2 j2
      rw [List.foldl_cons, hM, hC1, hT1, hM1]
      by_cases hrow : i2 ∈ rows ∧ j2 ∈ B.GetColumnsOfNonZeroMatrixElementsInRow s i2 t
      · rw [if_pos hrow, if_pos ⟨List.mem_cons_of_mem _ hrow.1, hrow.2⟩]
      · rw [if_neg hrow]
        by_cases hcur : i2 = i ∧ j2 ∈ B.GetColumnsOfNonZeroMatrixElementsInRow s i t
        · rw [if_pos hcur, if_pos]
          obtain ⟨h1, h2⟩ := hcur
          subst h1
          exact ⟨List.mem_cons_self _ _, h2⟩
        · rw [if_neg hcur, if_neg]
          rintro ⟨h1, h2⟩
          rcases List.mem_cons.mp h1 with h1 | h1
          · subst h1
            exact hcur ⟨rfl, h2⟩
          · exact hrow ⟨h1, h2⟩

/-- Claim C3. For distinct `matrixIndex` and `tempMatrixIndex`, on a backend obeying
the get/set and storage laws, after `OptimizeMatrixStorage` the slot `matrixIndex`
holds the original value at every position `(i, j)` with `i < N` and `j` enumerated
for row `i` of the original matrix, and holds the value of a freshly initialised
slot at every other position, whatever the original matrix held there. -/
theorem OptimizeMatrixStorage_keeps_enumerated_only [Zero F] (B : LinearSystemBackend σ F)
    (hg : GetSetLaws B) (hs : StorageLaws B) (N matrixIndex tempMatrixIndex : Nat)
    (hne : matrixIndex ≠ tempMatrixIndex) (s : σ) (i j : Nat) :
    ((i < N ∧ j ∈ B.GetColumnsOfNonZeroMatrixElementsInRow s i matrixIndex) →
      B.GetMatrixValue (OptimizeMatrixStorage B N matrixIndex tempMatrixIndex s) i j matrixIndex
        = B.GetMatrixValue s i j matrixIndex) ∧
    (¬ (i < N ∧ j ∈ B.GetColumnsOfNonZeroMatrixElementsInRow s i matrixIndex) →
      B.GetMatrixValue (OptimizeMatrixStorage B N matrixIndex tempMatrixIndex s) i j matrixIndex
        = B.GetMatrixValue
            (B.InitializeMatrix (B.SwapMatrices s matrixIndex tempMatrixIndex) matrixIndex)
            i j matrixIndex) := by
  unfold OptimizeMatrixStorage
  obtain ⟨_, _, hM⟩ := copy_rows B hg hs matrixIndex tempMatrixIndex hne (List.range N)
    (B.InitializeMatrix (B.SwapMatrices s matrixIndex tempMatrixIndex) matrixIndex)
  rw [hs.destroy_other _ _ _ _ _ hne, hM,
    hs.fresh_matrix_other_columns _ _ _ _ (Ne.symm hne), hs.swap_second_columns,
    hs.fresh_matrix_other _ _ _ _ _ (Ne.symm hne), hs.swap_second]
  constructor
  · intro h
    rw [if_pos ⟨List.mem_range.mpr h.1, h.2⟩]
  · intro h
    rw [if_neg]
    rintro ⟨h1, h2⟩
    exact h ⟨List.mem_range.mp h1, h2⟩

/-- Witness of C3 on the reference backend over the integers: slot 0 holds 7 at
every position and enumerates column 1 only in each row; position `(0, 0)` is not
enumerated and position `(0, 1)` is. -/
theorem OptimizeMatrixStorage_keeps_enumerated_only_witness :
    GetSetLaws (storeBackend ℤ) ∧ StorageLaws (storeBackend ℤ) ∧ (0 : Nat) ≠ 1 ∧
    (storeBackend ℤ).GetMatrixValue
        (OptimizeMatrixStorage (storeBackend ℤ) 2 0 1 ⟨fun _ _ _ => 7, fun _ _ => [1], 0, 0⟩)
        0 1 0 = 7 ∧
    (storeBackend ℤ).GetMatrixValue
        (OptimizeMatrixStorage (storeBackend ℤ) 2 0 1 ⟨fun _ _ _ => 7, fun _ _ => [1], 0, 0⟩)
        0 0 0 = 0 :=
  ⟨storeBackend_getSetLaws ℤ, storeBackend_storageLaws ℤ, by decide,
    (OptimizeMatrixStorage_keeps_enumerated_only (storeBackend ℤ) (storeBackend_getSetLaws ℤ)
      (storeBackend_storageLaws ℤ) 2 0 1 (by decide)
      ⟨fun _ _ _ => 7, fun _ _ => [1], 0, 0⟩ 0 1).1 ⟨by decide, by decide⟩,
    (OptimizeMatrixStorage_keeps_enumerated_only (storeBackend ℤ) (storeBackend_getSetLaws ℤ)
      (storeBackend_storageLaws ℤ) 2 0 1 (by decide)
      ⟨fun _ _ _ => 7, fun _ _ => [1], 0, 0⟩ 0 0).2 (by decide)⟩

end OptimizeProofs

/-! ## Proofs: the default enumeration -/

section DefaultEnumerationProofs

theorem fill_length : ∀ (rows : List Nat) (cols : List Nat),
    (rows.foldl (fun cols i => cols.set i i) cols).length = cols.length := by
  intro rows
  induction rows with
  | nil => intro cols; rfl
  | cons i rows ih =>
    intro cols
    rw [List.foldl_cons, ih, List.length_set]

/-- After `k` rounds of the loop `cols[i] = i` the first `k` entries hold their own
index and the others still hold the initial zero. -/
theorem fill_getElem? (N : Nat) : ∀ (k : Nat), k ≤ N → ∀ (j : Nat),
    ((List.range k).foldl (fun cols i => cols.set i i) (List.replicate N 0))[j]?
      = if j < k then some j else if j < N then some 0 else none := by
  intro k
  induction k with
  | zero =>
    intro _ j
    simp [List.getElem?_replicate]
  | succ k ih =>
    intro hk j
    rw [List.range_succ, List.foldl_append, List.foldl_cons, List.foldl_nil,
      List.getElem?_set, fill_length, List.length_replicate, ih (by omega) j]
    by_cases hkj : k = j
    · subst hkj
      simp [hk]
      omega
    · simp only [hkj, if_false]
      by_cases hlt : j < k
      · simp [hlt, Nat.lt_succ_of_lt hlt]
      · have : ¬ j < k + 1 := by omega
        simp [hlt, this]

/-- The default enumeration is `[0, 1, ..., N-1]`. -/
theorem GetColumnsOfNonZeroMatrixElementsInRow_eq_range (N row matrixIndex : Nat) :
    GetColumnsOfNonZeroMatrixElementsInRow N row matrixIndex = List.range N := by
  unfold GetColumnsOfNonZeroMatrixElementsInRow
  apply List.ext_getElem?
  intro j
  rw [fill_getElem? N N (le_refl N) j]
  by_cases hj : j < N
  · simp [hj, List.getElem?_range hj]
  · simp [hj, List.getElem?_eq_none (show (List.range N).length ≤ j by simp; omega)]

theorem denseColumns_eq (N matrixIndex : Nat) :
    denseColumns N matrixIndex = fun _ => List.range N := by
  funext row
  exact GetColumnsOfNonZeroMatrixElementsInRow_eq_range N row matrixIndex

end DefaultEnumerationProofs


/-! ## Proofs: Cuthill-McKee ordering -/

section CuthillMckeeProofs

@[simp] theorem ok_bind {α β : Type} (a : α) (f : α → Except Fault β) :
    (Except.ok a >>= f) = f a := rfl

@[simp] theorem error_bind {α β : Type} (e : Fault) (f : α → Except Fault β) :
    (Except.error e >>= f) = Except.error e := rfl

@[simp] theorem pure_eq_ok {α : Type} (a : α) : (pure a : Except Fault α) = Except.ok a := rfl

theorem readAt_of_getElem? {a : ColumnArray} {i v : Nat} (h : a[i]? = some v) :
    readAt a i = .ok v := by
  simp [readAt, h]

theorem readAt_eq_ok {a : ColumnArray} {i v : Nat} (h : readAt a i = .ok v) :
    a[i]? = some v := by
  unfold readAt at h
  split at h
  · rename_i w hw
    injection h with h
    rw [hw, h]
  · cases h

theorem writeAt_of_lt {a : ColumnArray} {i : Nat} (v : Nat) (h : i < a.length) :
    writeAt a i v = .ok (a.set i v) := by
  simp [writeAt, h]

theorem writeAt_eq_ok {a b : ColumnArray} {i v : Nat} (h : writeAt a i v = .ok b) :
    i < a.length ∧ b = a.set i v := by
  unfold writeAt at h
  split at h
  · rename_i hlt
    injection h with h
    exact ⟨hlt, h.symm⟩
  · cases h

theorem decrementUnsigned_of_pos {k : Nat} (h0 : 0 < k) (h : k ≤ 2 ^ 32) :
    decrementUnsigned k = k - 1 := by
  unfold decrementUnsigned
  have : (2 ^ 32 - 1) + k = (k - 1) + 2 ^ 32 := by omega
  rw [this, Nat.add_mod_right, Nat.mod_eq_of_lt (by omega)]

theorem initialRowDegree_length (N : Nat) (cols : Nat → ColumnArray) :
    (initialRowDegree N cols).length = N := by
  simp [initialRowDegree]

theorem readAt_initialRowDegree {N : Nat} (cols : Nat → ColumnArray) {i : Nat} (h : i < N) :
    readAt (initialRowDegree N cols) i = .ok (rowDegreeOf cols i) := by
  apply readAt_of_getElem?
  simp [initialRowDegree, rowDegreeOf, List.getElem?_map, List.getElem?_range h]


/-! ### The bubble sort -/

theorem sortInner_perm (deg : Nat → Nat) : ∀ (n : Nat) (xs : List Nat),
    (sortInner deg n xs).Perm xs := by
  intro n
  induction n with
  | zero => intro xs; simp [sortInner]
  | succ n ih =>
    intro xs
    match xs with
    | [] => simp [sortInner]
    | [a] => simp [sortInner]
    | a :: b :: rest =>
      simp only [sortInner]
      split
      · exact ((ih (a :: rest)).cons b).trans (List.Perm.swap a b rest)
      · exact (ih (b :: rest)).cons a

theorem sortPasses_perm (deg : Nat → Nat) : ∀ (p : Nat) (xs : List Nat),
    (sortPasses deg p xs).Perm xs := by
  intro p
  induction p with
  | zero => intro xs; simp [sortPasses]
  | succ p ih =>
    intro xs
    simp only [sortPasses]
    exact (ih _).trans (sortInner_perm deg _ xs)

theorem sortByDegree_perm (deg : Nat → Nat) (xs : List Nat) :
    (sortByDegree deg xs).Perm xs := by
  unfold sortByDegree
  split
  · exact sortPasses_perm deg _ xs
  · exact List.Perm.refl xs

theorem mem_sortByDegree {deg : Nat → Nat} {xs : List Nat} {x : Nat} :
    x ∈ sortByDegree deg xs ↔ x ∈ xs :=
  (sortByDegree_perm deg xs).mem_iff

/-- A list whose degrees never decrease from an element to the next is left as it
is by an inner loop of the sort. -/
theorem sortInner_of_sorted (deg : Nat → Nat) : ∀ (n : Nat) (xs : List Nat),
    xs.Chain' (fun a b => deg a ≤ deg b) → sortInner deg n xs = xs := by
  intro n
  induction n with
  | zero => intro xs _; simp [sortInner]
  | succ n ih =>
    intro xs h
    match xs with
    | [] => simp [sortInner]
    | [a] => simp [sortInner]
    | a :: b :: rest =>
      have hab : deg a ≤ deg b := (List.chain'_cons.mp h).1
      simp only [sortInner, if_neg (Nat.not_lt.mpr hab)]
      rw [ih (b :: rest) (List.chain'_cons.mp h).2]

theorem sortPasses_of_sorted (deg : Nat → Nat) : ∀ (p : Nat) (xs : List Nat),
    xs.Chain' (fun a b => deg a ≤ deg b) → sortPasses deg p xs = xs := by
  intro p
  induction p with
  | zero => intro xs _; simp [sortPasses]
  | succ p ih =>
    intro xs h
    simp only [sortPasses]
    rw [sortInner_of_sorted deg _ xs h, ih xs h]

theorem sortByDegree_of_sorted (deg : Nat → Nat) (xs : List Nat)
    (h : xs.Chain' (fun a b => deg a ≤ deg b)) : sortByDegree deg xs = xs := by
  unfold sortByDegree
  split
  · exact sortPasses_of_sorted deg _ xs h
  · rfl

theorem bubbleInner_eq_sortInner {N : Nat} {rd : ColumnArray} {deg : Nat → Nat}
    (hrd : ∀ i, i < N → readAt rd i = .ok (deg i)) :
    ∀ (n : Nat) (xs : List Nat), (∀ x ∈ xs, x < N) → n ≤ xs.length - 1 →
      bubbleInner rd n xs = .ok (sortInner deg n xs) := by
  intro n
  induction n with
  | zero => intro xs _ _; simp [bubbleInner, sortInner]
  | succ n ih =>
    intro xs hx hn
    match xs with
    | [] => simp at hn
    | [a] => simp at hn
    | a :: b :: rest =>
      have ha : a < N := hx a (by simp)
      have hb : b < N := hx b (by simp)
      have hn2 : n ≤ rest.length := by simpa using hn
      have h1 := ih (a :: rest) (fun x hx2 => hx x (by
          rcases List.mem_cons.mp hx2 with h | h
          · simp [h]
          · simp [h])) (by simpa using hn2)
      have h2 := ih (b :: rest) (fun x hx2 => hx x (by
          rcases List.mem_cons.mp hx2 with h | h
          · simp [h]
          · simp [h])) (by simpa using hn2)
      rw [bubbleInner, sortInner, hrd a ha, hrd b hb]
      simp only [ok_bind]
      split
      · rw [h1]; rfl
      · rw [h2]; rfl

theorem bubblePasses_eq_sortPasses {N : Nat} {rd : ColumnArray} {deg : Nat → Nat}
    (hrd : ∀ i, i < N → readAt rd i = .ok (deg i)) :
    ∀ (p : Nat) (xs : List Nat), (∀ x ∈ xs, x < N) → p ≤ xs.length - 1 →
      bubblePasses rd p xs = .ok (sortPasses deg p xs) := by
  intro p
  induction p with
  | zero => intro xs _ _; simp [bubblePasses, sortPasses]
  | succ p ih =>
    intro xs hx hp
    have hperm := sortInner_perm deg (p + 1) xs
    rw [bubblePasses, sortPasses, bubbleInner_eq_sortInner hrd (p + 1) xs hx hp]
    simp only [ok_bind]
    apply ih
    · intro x hx2
      exact hx x (hperm.mem_iff.mp hx2)
    · rw [hperm.length_eq]
      omega

theorem orderByDegree_eq_sortByDegree {N : Nat} {rd : ColumnArray} {deg : Nat → Nat}
    (hrd : ∀ i, i < N → readAt rd i = .ok (deg i)) (xs : List Nat)
    (hx : ∀ x ∈ xs, x < N) :
    orderByDegree rd xs = .ok (sortByDegree deg xs) := by
  unfold orderByDegree sortByDegree
  split
  · exact bubblePasses_eq_sortPasses hrd _ xs hx (le_refl _)
  · rfl


/-! ### The array `reverseMapping` as a list of numbered rows -/

theorem encodeOrder_length (N : Nat) (order : List Nat) : (encodeOrder N order).length = N := by
  simp [encodeOrder]

theorem getElem?_encodeOrder {N : Nat} (order : List Nat) {i : Nat} (h : i < N) :
    (encodeOrder N order)[i]? = some (numberOf N order i) := by
  simp [encodeOrder, List.getElem?_map, List.getElem?_range h]

theorem readAt_encodeOrder {N : Nat} (order : List Nat) {i : Nat} (h : i < N) :
    readAt (encodeOrder N order) i = .ok (numberOf N order i) :=
  readAt_of_getElem? (getElem?_encodeOrder order h)

theorem numberOf_lt_iff {N : Nat} {order : List Nat} (hlen : order.length ≤ N) (i : Nat) :
    numberOf N order i < N ↔ i ∈ order := by
  unfold numberOf
  constructor
  · intro h
    by_contra hmem
    rw [if_neg hmem] at h
    exact Nat.lt_irrefl N h
  · intro hmem
    rw [if_pos hmem]
    exact Nat.lt_of_lt_of_le (List.indexOf_lt_length.mpr hmem) hlen

theorem numberOf_append_singleton (N : Nat) (order : List Nat) (r : Nat) (hr : r ∉ order)
    (i : Nat) :
    numberOf N (order ++ [r]) i = if r = i then order.length else numberOf N order i := by
  unfold numberOf
  by_cases hri : r = i
  · subst hri
    rw [if_pos (by simp), if_pos rfl, List.indexOf_append_of_not_mem hr]
    simp
  · rw [if_neg hri]
    by_cases hmem : i ∈ order
    · rw [if_pos (by simp [hmem]), if_pos hmem, List.indexOf_append_of_mem hmem]
    · have : i ∉ order ++ [r] := by
        simp only [List.mem_append, List.mem_singleton, not_or]
        exact ⟨hmem, fun h => hri h.symm⟩
      rw [if_neg this, if_neg hmem]

theorem writeAt_encodeOrder {N : Nat} (order : List Nat) {r : Nat} (hr : r < N)
    (hmem : r ∉ order) :
    writeAt (encodeOrder N order) r order.length = .ok (encodeOrder N (order ++ [r])) := by
  rw [writeAt_of_lt _ (by rw [encodeOrder_length]; exact hr)]
  congr 1
  apply List.ext_getElem?
  intro i
  rw [List.getElem?_set, encodeOrder_length]
  by_cases hi : i < N
  · rw [getElem?_encodeOrder _ hi, getElem?_encodeOrder _ hi,
      numberOf_append_singleton N order r hmem i]
    by_cases hri : r = i
    · simp [hri, hi]
    · simp [hri]
  · have h1 : (encodeOrder N order)[i]? = none :=
      List.getElem?_eq_none (by rw [encodeOrder_length]; omega)
    have h2 : (encodeOrder N (order ++ [r]))[i]? = none :=
      List.getElem?_eq_none (by rw [encodeOrder_length]; omega)
    rw [h1, h2]
    by_cases hri : r = i
    · exact absurd (hri ▸ hr) hi
    · simp [hri]

theorem initialReverseMapping_eq (N : Nat) : initialReverseMapping N = encodeOrder N [] := by
  unfold initialReverseMapping encodeOrder
  rw [show numberOf N [] = fun _ => N from funext fun i => by simp [numberOf]]
  simp [List.map_const']

theorem assignNumbers_encodeOrder {N : Nat} : ∀ (frontier order : List Nat),
    (∀ x ∈ frontier, x < N) → (order ++ frontier).Nodup →
    assignNumbers frontier (encodeOrder N order) order.length
      = .ok (encodeOrder N (order ++ frontier), order.length + frontier.length) := by
  intro frontier
  induction frontier with
  | nil => intro order _ _; simp [assignNumbers]
  | cons r frontier ih =>
    intro order hlt hnd
    have hr : r ∉ order := by
      intro hmem
      exact (List.nodup_append.mp hnd).2.2 hmem (List.mem_cons_self _ _)
    have hnd2 : ((order ++ [r]) ++ frontier).Nodup := by simpa using hnd
    have := ih (order ++ [r]) (fun x hx => hlt x (List.mem_cons_of_mem _ hx)) hnd2
    rw [assignNumbers, writeAt_encodeOrder order (hlt r (List.mem_cons_self _ _)) hr]
    simp only [ok_bind]
    rw [show order.length + 1 = (order ++ [r]).length by simp, this]
    simp [Nat.add_assoc, Nat.add_comm 1]

theorem removeNumbered_encodeOrder {N : Nat} {order : List Nat} (hlen : order.length ≤ N) :
    ∀ (cs : List Nat), (∀ c ∈ cs, c < N) →
      removeNumbered N (encodeOrder N order) cs = .ok (cs.filter fun c => c ∉ order) := by
  intro cs
  induction cs with
  | nil => intro _; simp [removeNumbered]
  | cons c cs ih =>
    intro hlt
    have hc : c < N := hlt c (List.mem_cons_self _ _)
    rw [removeNumbered, readAt_encodeOrder order hc,
      ih (fun x hx => hlt x (List.mem_cons_of_mem _ hx))]
    simp only [ok_bind]
    by_cases hmem : c ∈ order
    · rw [if_pos ((numberOf_lt_iff hlen c).mpr hmem)]
      simp [List.filter_cons, hmem]
    · rw [if_neg (fun h => hmem ((numberOf_lt_iff hlen c).mp h))]
      simp [List.filter_cons, hmem]

theorem expandFrontier_eq_nextFrontier {N : Nat} {cols : Nat → ColumnArray} {rd : ColumnArray}
    {deg : Nat → Nat} (hrd : ∀ i, i < N → readAt rd i = .ok (deg i))
    (hrange : ColumnsInRange N cols) {order : List Nat} (hlen : order.length ≤ N) :
    ∀ (frontier bufferArray : List Nat), (∀ r ∈ frontier, r < N) →
      expandFrontier N cols rd (encodeOrder N order) frontier bufferArray
        = .ok (nextFrontier cols deg order frontier bufferArray) := by
  intro frontier
  induction frontier with
  | nil => intro _ _; simp [expandFrontier, nextFrontier]
  | cons r frontier ih =>
    intro bufferArray hlt
    have hr : r < N := hlt r (List.mem_cons_self _ _)
    rw [expandFrontier, removeNumbered_encodeOrder hlen (cols r) (hrange r hr)]
    simp only [ok_bind]
    rw [orderByDegree_eq_sortByDegree hrd _ (fun x hx =>
      hrange r hr x (List.mem_filter.mp hx).1)]
    simp only [ok_bind]
    rw [ih _ (fun x hx => hlt x (List.mem_cons_of_mem _ hx)), nextFrontier]


/-! ### The frontier -/

theorem mem_addNoRepeats {x : Nat} : ∀ (rowBuffer bufferArray : List Nat),
    x ∈ addNoRepeats bufferArray rowBuffer ↔ x ∈ bufferArray ∨ x ∈ rowBuffer := by
  intro rowBuffer
  induction rowBuffer with
  | nil => intro bufferArray; simp [addNoRepeats]
  | cons r rowBuffer ih =>
    intro bufferArray
    rw [addNoRepeats]
    split
    · rename_i hmem
      rw [ih]
      constructor
      · rintro (h | h)
        · exact Or.inl h
        · exact Or.inr (List.mem_cons_of_mem _ h)
      · rintro (h | h)
        · exact Or.inl h
        · rcases List.mem_cons.mp h with h | h
          · exact Or.inl (h ▸ hmem)
          · exact Or.inr h
    · rw [ih]
      simp only [List.mem_append, List.mem_singleton, List.mem_cons]
      tauto

theorem nodup_addNoRepeats : ∀ (rowBuffer bufferArray : List Nat), bufferArray.Nodup →
    (addNoRepeats bufferArray rowBuffer).Nodup := by
  intro rowBuffer
  induction rowBuffer with
  | nil => intro bufferArray h; simpa [addNoRepeats] using h
  | cons r rowBuffer ih =>
    intro bufferArray h
    rw [addNoRepeats]
    split
    · exact ih _ h
    · rename_i hmem
      apply ih
      rw [List.nodup_append]
      refine ⟨h, List.nodup_singleton r, ?_⟩
      intro a ha hb
      rw [List.mem_singleton] at hb
      exact hmem (hb ▸ ha)

/-- Rows that are new and pairwise distinct are appended as they come. -/
theorem addNoRepeats_of_nodup : ∀ (rowBuffer bufferArray : List Nat),
    (bufferArray ++ rowBuffer).Nodup → addNoRepeats bufferArray rowBuffer = bufferArray ++ rowBuffer := by
  intro rowBuffer
  induction rowBuffer with
  | nil => intro bufferArray _; simp [addNoRepeats]
  | cons r rowBuffer ih =>
    intro bufferArray h
    have hr : r ∉ bufferArray := by
      intro hmem
      exact (List.nodup_append.mp h).2.2 hmem (List.mem_cons_self _ _)
    rw [addNoRepeats, if_neg hr, ih (bufferArray ++ [r]) (by simpa using h)]
    simp

theorem mem_nextFrontier {cols : Nat → ColumnArray} {deg : Nat → Nat} {order : List Nat}
    {x : Nat} : ∀ (frontier bufferArray : List Nat),
    x ∈ nextFrontier cols deg order frontier bufferArray
      ↔ x ∈ bufferArray ∨ ∃ r ∈ frontier, x ∈ cols r ∧ x ∉ order := by
  intro frontier
  induction frontier with
  | nil => intro bufferArray; simp [nextFrontier]
  | cons r frontier ih =>
    intro bufferArray
    rw [nextFrontier, ih, mem_addNoRepeats, mem_sortByDegree, List.mem_filter]
    simp only [decide_eq_true_eq, List.mem_cons, exists_eq_or_imp]
    tauto

theorem nodup_nextFrontier {cols : Nat → ColumnArray} {deg : Nat → Nat} {order : List Nat} :
    ∀ (frontier bufferArray : List Nat), bufferArray.Nodup →
      (nextFrontier cols deg order frontier bufferArray).Nodup := by
  intro frontier
  induction frontier with
  | nil => intro bufferArray h; simpa [nextFrontier] using h
  | cons r frontier ih =>
    intro bufferArray h
    rw [nextFrontier]
    exact ih _ (nodup_addNoRepeats _ _ h)

/-- A duplicate-free list of rows of `[0, N)` has at most `N` entries. -/
theorem length_le_of_nodup_of_lt {N : Nat} {l : List Nat} (hnd : l.Nodup)
    (hlt : ∀ x ∈ l, x < N) : l.length ≤ N := by
  have hsub : l ⊆ List.range N := fun x hx => List.mem_range.mpr (hlt x hx)
  simpa using (List.subperm_of_subset hnd hsub).length_le

/-- A duplicate-free list of rows of `[0, N)` that holds every row, or has `N`
entries, is a permutation of `[0, N)`. -/
theorem perm_range_of_nodup {N : Nat} {l : List Nat} (hnd : l.Nodup)
    (hlt : ∀ x ∈ l, x < N) (hall : N ≤ l.length) : l.Perm (List.range N) := by
  have hsub : l ⊆ List.range N := fun x hx => List.mem_range.mpr (hlt x hx)
  exact (List.subperm_of_subset hnd hsub).perm_of_length_le (by simpa using hall)

/-- The invariant of the traversal is kept by one pass: the numbered rows and the
frontier stay duplicate-free, disjoint and in range. -/
theorem traversal_step_invariant {N : Nat} {cols : Nat → ColumnArray} (deg : Nat → Nat)
    (hrange : ColumnsInRange N cols) {order frontier : List Nat}
    (hnd : (order ++ frontier).Nodup) (hlt : ∀ x ∈ order ++ frontier, x < N) :
    ((order ++ frontier) ++ nextFrontier cols deg (order ++ frontier) frontier []).Nodup ∧
    (∀ x ∈ (order ++ frontier) ++ nextFrontier cols deg (order ++ frontier) frontier [],
      x < N) := by
  constructor
  · rw [List.nodup_append]
    refine ⟨hnd, nodup_nextFrontier _ _ List.nodup_nil, ?_⟩
    intro a ha hb
    rw [mem_nextFrontier] at hb
    rcases hb with hb | ⟨r, _, _, hb⟩
    · simp at hb
    · exact hb ha
  · intro x hx
    rcases List.mem_append.mp hx with hx | hx
    · exact hlt x hx
    · rw [mem_nextFrontier] at hx
      rcases hx with hx | ⟨r, hr, hx, _⟩
      · simp at hx
      · exact hrange r (hlt r (List.mem_append_right _ hr)) x hx

theorem followLoop_eq_levelTraversal {N : Nat} {cols : Nat → ColumnArray} {rd : ColumnArray}
    {deg : Nat → Nat} (hrd : ∀ i, i < N → readAt rd i = .ok (deg i))
    (hrange : ColumnsInRange N cols) :
    ∀ (fuel : Nat) (order frontier : List Nat), (order ++ frontier).Nodup →
      (∀ x ∈ order ++ frontier, x < N) → N - order.length ≤ fuel →
      followLoop N cols rd fuel frontier (encodeOrder N order) order.length
        = .ok (encodeOrder N (levelTraversal N cols deg fuel order frontier)) := by
  intro fuel
  induction fuel with
  | zero =>
    intro order frontier _ _ hfuel
    have : ¬ (frontier.length ≠ 0 ∧ order.length < N) := by omega
    rw [followLoop, levelTraversal, if_neg this, if_neg this]
  | succ fuel ih =>
    intro order frontier hnd hlt hfuel
    rw [followLoop, levelTraversal]
    split
    · rename_i hcond
      obtain ⟨hnd2, hlt2⟩ := traversal_step_invariant deg hrange hnd hlt
      have hlen : (order ++ frontier).length ≤ N := length_le_of_nodup_of_lt hnd hlt
      simp only []
      rw [assignNumbers_encodeOrder frontier order
        (fun x hx => hlt x (List.mem_append_right _ hx)) hnd]
      simp only [ok_bind]
      rw [expandFrontier_eq_nextFrontier hrd hrange hlen frontier []
        (fun x hx => hlt x (List.mem_append_right _ hx))]
      simp only [ok_bind]
      rw [← List.length_append]
      apply ih _ _ hnd2 hlt2
      rw [List.length_append]
      omega
    · rfl


/-! ### The traversal reaches every row of a connected pattern -/

/-- The list of numbered rows only grows at its end. -/
theorem levelTraversal_prefix (N : Nat) (cols : Nat → ColumnArray) (deg : Nat → Nat) :
    ∀ (fuel : Nat) (order frontier : List Nat),
      order <+: levelTraversal N cols deg fuel order frontier := by
  intro fuel
  induction fuel with
  | zero =>
    intro order frontier
    rw [levelTraversal]
    split <;> exact List.prefix_refl order
  | succ fuel ih =>
    intro order frontier
    rw [levelTraversal]
    split
    · exact (List.prefix_append order frontier).trans (ih _ _)
    · exact List.prefix_refl order

/-- A set of rows that holds `s` and every enumerated column of its rows holds
every row reached from `s`. -/
theorem mem_of_reachable {cols : Nat → ColumnArray} {order : List Nat} {s b : Nat}
    (hs : s ∈ order) (hclosed : ∀ x ∈ order, ∀ y ∈ cols x, y ∈ order)
    (hreach : Relation.ReflTransGen (fun x y => y ∈ cols x) s b) : b ∈ order := by
  induction hreach with
  | refl => exact hs
  | tail _ hstep ih => exact hclosed _ ih _ hstep

theorem levelTraversal_perm_range {N : Nat} {cols : Nat → ColumnArray} (deg : Nat → Nat)
    (hrange : ColumnsInRange N cols) {s : Nat}
    (hreach : ∀ b, b < N → Relation.ReflTransGen (fun x y => y ∈ cols x) s b) :
    ∀ (fuel : Nat) (order frontier : List Nat), (order ++ frontier).Nodup →
      (∀ x ∈ order ++ frontier, x < N) →
      (∀ x ∈ order, ∀ y ∈ cols x, y ∈ order ∨ y ∈ frontier) → s ∈ order →
      N - order.length ≤ fuel →
      (levelTraversal N cols deg fuel order frontier).Perm (List.range N) := by
  have hdone : ∀ (order frontier : List Nat), (order ++ frontier).Nodup →
      (∀ x ∈ order ++ frontier, x < N) →
      (∀ x ∈ order, ∀ y ∈ cols x, y ∈ order ∨ y ∈ frontier) → s ∈ order →
      ¬ (frontier.length ≠ 0 ∧ order.length < N) → order.Perm (List.range N) := by
    intro order frontier hnd hlt hclosed hs hcond
    have hnd1 : order.Nodup := (List.nodup_append.mp hnd).1
    have hlt1 : ∀ x ∈ order, x < N := fun x hx => hlt x (List.mem_append_left _ hx)
    apply perm_range_of_nodup hnd1 hlt1
    by_cases hlen : order.length < N
    · have hnil : frontier = [] := by
        apply List.eq_nil_of_length_eq_zero
        by_contra h
        exact hcond ⟨h, hlen⟩
      subst hnil
      have hall : List.range N ⊆ order := by
        intro b hb
        apply mem_of_reachable hs _ (hreach b (List.mem_range.mp hb))
        intro x hx y hy
        rcases hclosed x hx y hy with h | h
        · exact h
        · simp at h
      simpa using (List.subperm_of_subset (List.nodup_range N) hall).length_le
    · omega
  intro fuel
  induction fuel with
  | zero =>
    intro order frontier hnd hlt hclosed hs hfuel
    have hcond : ¬ (frontier.length ≠ 0 ∧ order.length < N) := by omega
    rw [levelTraversal, if_neg hcond]
    exact hdone order frontier hnd hlt hclosed hs hcond
  | succ fuel ih =>
    intro order frontier hnd hlt hclosed hs hfuel
    rw [levelTraversal]
    split
    · rename_i hcond
      obtain ⟨hnd2, hlt2⟩ := traversal_step_invariant deg hrange hnd hlt
      apply ih _ _ hnd2 hlt2
      · intro x hx y hy
        rcases List.mem_append.mp hx with hx | hx
        · exact Or.inl (List.mem_append.mpr (hclosed x hx y hy))
        · by_cases hmem : y ∈ order ++ frontier
          · exact Or.inl hmem
          · exact Or.inr ((mem_nextFrontier _ _).mpr (Or.inr ⟨x, hx, hy, hmem⟩))
      · exact List.mem_append_left _ hs
      · rw [List.length_append]
        omega
    · rename_i hcond
      exact hdone order frontier hnd hlt hclosed hs hcond

/-! ### The final inversion -/

theorem numberOf_getElem {N : Nat} {order : List Nat} (hnd : order.Nodup) {k : Nat}
    (hk : k < order.length) : numberOf N order order[k] = k := by
  unfold numberOf
  rw [if_pos (List.getElem_mem _), List.indexOf_getElem hnd k hk]

theorem invertMapping_encodeOrder {N : Nat} {order : List Nat} (hnd : order.Nodup)
    (hlen : order.length = N) (hall : ∀ i, i < N → i ∈ order) :
    ∀ (rows newNumbering : List Nat), (∀ i ∈ rows, i < N) → newNumbering.length = N →
      ∃ result, invertMapping (encodeOrder N order) rows newNumbering = .ok result ∧
        result.length = N ∧
        ∀ k (hk : k < order.length),
          result[k]? = if order[k] ∈ rows then some order[k] else newNumbering[k]? := by
  intro rows
  induction rows with
  | nil =>
    intro newNumbering _ hl
    exact ⟨newNumbering, by simp [invertMapping], hl, by simp⟩
  | cons i rows ih =>
    intro newNumbering hlt hl
    have hi : i < N := hlt i (List.mem_cons_self _ _)
    have hmem : i ∈ order := hall i hi
    have hidx : order.indexOf i < order.length := List.indexOf_lt_length.mpr hmem
    have hnum : numberOf N order i = order.indexOf i := by simp [numberOf, hmem]
    obtain ⟨result, hres, hrl, hget⟩ := ih (newNumbering.set (order.indexOf i) i)
      (fun x hx => hlt x (List.mem_cons_of_mem _ hx)) (by simpa using hl)
    refine ⟨result, ?_, hrl, ?_⟩
    · rw [invertMapping, readAt_encodeOrder order hi, hnum]
      simp only [ok_bind]
      rw [writeAt_of_lt _ (by omega)]
      simp only [ok_bind]
      exact hres
    · intro k hk
      rw [hget k hk]
      by_cases hin : order[k] ∈ rows
      · rw [if_pos hin, if_pos (List.mem_cons_of_mem _ hin)]
      · rw [if_neg hin, List.getElem?_set]
        by_cases hki : order[k] = i
        · have : order.indexOf i = k := by
            rw [← hki]
            exact List.indexOf_getElem hnd k hk
          rw [if_pos this, if_pos (by omega), if_pos (by simp [hki])]
          rw [hki]
        · have hne : order.indexOf i ≠ k := by
            intro he
            apply hki
            subst he
            exact List.getElem_indexOf hidx
          rw [if_neg hne, if_neg]
          simp only [List.mem_cons, not_or]
          exact ⟨hki, hin⟩

theorem invertMapping_encodeOrder_range {N : Nat} {order : List Nat}
    (hperm : order.Perm (List.range N)) :
    invertMapping (encodeOrder N order) (List.range N) (List.replicate N 0) = .ok order := by
  have hnd : order.Nodup := hperm.nodup_iff.mpr (List.nodup_range N)
  have hlen : order.length = N := by simpa using hperm.length_eq
  have hall : ∀ i, i < N → i ∈ order := fun i hi => hperm.mem_iff.mpr (List.mem_range.mpr hi)
  obtain ⟨result, hres, hrl, hget⟩ := invertMapping_encodeOrder hnd hlen hall (List.range N)
    (List.replicate N 0) (fun i hi => List.mem_range.mp hi) (by simp)
  rw [hres]
  congr 1
  apply List.ext_getElem?
  intro k
  by_cases hk : k < order.length
  · rw [hget k hk, if_pos (hperm.mem_iff.mp (List.getElem_mem _)), List.getElem?_eq_getElem hk]
  · rw [List.getElem?_eq_none (by omega), List.getElem?_eq_none (by omega)]


/-! ### The starting row -/

theorem scanLowestDegree_eq {N : Nat} {rd : ColumnArray} {deg : Nat → Nat}
    (hrd : ∀ i, i < N → readAt rd i = .ok (deg i)) :
    ∀ (rows : List Nat) (s low : Nat), (∀ i ∈ rows, i < N) →
      scanLowestDegree rd rows s low = .ok (lowestDegreeScan deg rows s low) := by
  intro rows
  induction rows with
  | nil => intro s low _; simp [scanLowestDegree, lowestDegreeScan]
  | cons i rows ih =>
    intro s low hlt
    have hrows : ∀ x ∈ rows, x < N := fun x hx => hlt x (List.mem_cons_of_mem _ hx)
    rw [scanLowestDegree, lowestDegreeScan, hrd i (hlt i (List.mem_cons_self _ _))]
    simp only [ok_bind]
    split
    · exact ih _ _ hrows
    · exact ih _ _ hrows

theorem chooseStartingRow_eq {N : Nat} {rd : ColumnArray} {deg : Nat → Nat}
    (hrd : ∀ i, i < N → readAt rd i = .ok (deg i)) (hN : 1 ≤ N) :
    chooseStartingRow N rd = .ok (lowestDegreeRow N deg) := by
  unfold chooseStartingRow lowestDegreeRow
  rw [hrd 0 (by omega)]
  simp only [ok_bind]
  apply scanLowestDegree_eq hrd
  intro i hi
  rw [List.mem_range'_1] at hi
  omega

/-- The scan over the rows `k, k + 1, ..., k + len - 1` keeps the first row of
lowest degree seen so far. -/
theorem lowestDegreeScan_spec (deg : Nat → Nat) : ∀ (len k s : Nat), s < k →
    (∀ j, j < k → deg s ≤ deg j) → (∀ j, j < s → deg s < deg j) →
    lowestDegreeScan deg (List.range' k len) s (deg s) < k + len ∧
    (∀ j, j < k + len → deg (lowestDegreeScan deg (List.range' k len) s (deg s)) ≤ deg j) ∧
    (∀ j, j < lowestDegreeScan deg (List.range' k len) s (deg s) →
      deg (lowestDegreeScan deg (List.range' k len) s (deg s)) < deg j) := by
  intro len
  induction len with
  | zero =>
    intro k s hs hmin hfirst
    simp only [List.range'_zero, lowestDegreeScan, Nat.add_zero]
    exact ⟨hs, hmin, hfirst⟩
  | succ len ih =>
    intro k s hs hmin hfirst
    rw [List.range'_succ, lowestDegreeScan]
    have hk : k + (len + 1) = (k + 1) + len := by omega
    rw [hk]
    split
    · rename_i hlt
      apply ih (k + 1) k (by omega)
      · intro j hj
        by_cases hjk : j = k
        · rw [hjk]
        · exact Nat.le_of_lt (Nat.lt_of_lt_of_le hlt (hmin j (by omega)))
      · intro j hj
        exact Nat.lt_of_lt_of_le hlt (hmin j hj)
    · rename_i hge
      apply ih (k + 1) s (by omega)
      · intro j hj
        by_cases hjk : j = k
        · rw [hjk]; omega
        · exact hmin j (by omega)
      · exact hfirst

/-- The selected row is the lowest-indexed row of minimum degree. -/
theorem lowestDegreeRow_spec (deg : Nat → Nat) {N : Nat} (hN : 1 ≤ N) :
    lowestDegreeRow N deg < N ∧
    (∀ j, j < N → deg (lowestDegreeRow N deg) ≤ deg j) ∧
    (∀ j, j < lowestDegreeRow N deg → deg (lowestDegreeRow N deg) < deg j) := by
  have h := lowestDegreeScan_spec deg (N - 1) 1 0 (by omega)
    (fun j hj => by rw [show j = 0 by omega]) (fun j hj => absurd hj (Nat.not_lt_zero j))
  rw [show 1 + (N - 1) = N by omega] at h
  exact h

/-- When row 0 has the lowest degree, row 0 is selected. -/
theorem lowestDegreeRow_eq_zero (deg : Nat → Nat) {N : Nat} (hN : 1 ≤ N)
    (h0 : ∀ j, j < N → deg 0 ≤ deg j) : lowestDegreeRow N deg = 0 := by
  obtain ⟨hlt, _, hfirst⟩ := lowestDegreeRow_spec deg hN
  by_contra hne
  have h1 := hfirst 0 (Nat.pos_of_ne_zero hne)
  have h2 := h0 _ hlt
  omega

/-! ### The ordering as a function of the pattern -/

theorem FollowConnections_eq_traversalFrom {N : Nat} {cols : Nat → ColumnArray}
    (hrange : ColumnsInRange N cols) (hdup : DuplicateFree N cols) {s : Nat} (hs : s < N) :
    FollowConnectionsCuthillMckeeOrdering N cols s (initialRowDegree N cols)
        (encodeOrder N [s]) 1
      = .ok (encodeOrder N (traversalFrom N cols s)) := by
  have hrd : ∀ i, i < N → readAt (initialRowDegree N cols) i = .ok (rowDegreeOf cols i) :=
    fun i hi => readAt_initialRowDegree cols hi
  have hin : ∀ x ∈ (cols s).filter (fun c => c ≠ s), x < N :=
    fun x hx => hrange s hs x (List.mem_filter.mp hx).1
  have hperm := sortByDegree_perm (rowDegreeOf cols) ((cols s).filter fun c => c ≠ s)
  unfold FollowConnectionsCuthillMckeeOrdering traversalFrom
  rw [readAt_encodeOrder [s] hs]
  simp only [ok_bind]
  rw [show numberOf N [s] s = 0 by simp [numberOf], if_neg (Nat.not_lt_zero _)]
  rw [orderByDegree_eq_sortByDegree hrd _ hin]
  simp only [ok_bind]
  apply followLoop_eq_levelTraversal hrd hrange N [s]
  · rw [List.singleton_append, List.nodup_cons]
    constructor
    · intro hmem
      have := (List.mem_filter.mp (hperm.mem_iff.mp hmem)).2
      simp at this
    · exact hperm.nodup_iff.mpr ((hdup s hs).filter _)
  · intro x hx
    rcases List.mem_append.mp hx with hx | hx
    · rw [List.mem_singleton.mp hx]; exact hs
    · exact hin x (hperm.mem_iff.mp hx)
  · simp

theorem CuthillMckeeOrdering_eq_traversalFrom {N : Nat} {cols : Nat → ColumnArray}
    (hrange : ColumnsInRange N cols) (hdup : DuplicateFree N cols) {startingRow : Int}
    {s : Nat} (hs : s < N)
    (hstart : (if startingRow < 0 then chooseStartingRow N (initialRowDegree N cols)
      else pure startingRow.toNat) = .ok s)
    (hperm : (traversalFrom N cols s).Perm (List.range N)) :
    CuthillMckeeOrdering N cols startingRow = .ok (traversalFrom N cols s) := by
  have hrest : (do
      let reverseMapping ← writeAt (initialReverseMapping N) s 0
      let reverseMapping ← FollowConnectionsCuthillMckeeOrdering N cols s
        (initialRowDegree N cols) reverseMapping 1
      invertMapping reverseMapping (List.range N) (List.replicate N 0))
      = Except.ok (traversalFrom N cols s) := by
    rw [initialReverseMapping_eq, show (0 : Nat) = ([] : List Nat).length from rfl,
      writeAt_encodeOrder [] hs (by simp)]
    simp only [ok_bind, List.nil_append]
    rw [FollowConnections_eq_traversalFrom hrange hdup hs]
    simp only [ok_bind]
    exact invertMapping_encodeOrder_range hperm
  unfold CuthillMckeeOrdering
  simp only []
  by_cases hneg : startingRow < 0
  · rw [if_pos hneg] at hstart
    rw [if_pos hneg, hstart]
    exact hrest
  · rw [if_neg hneg] at hstart
    rw [if_neg hneg, hstart]
    exact hrest

theorem traversalFrom_perm_range {N : Nat} {cols : Nat → ColumnArray}
    (hrange : ColumnsInRange N cols) (hdup : DuplicateFree N cols) {s : Nat} (hs : s < N)
    (hreach : ∀ b, b < N → Relation.ReflTransGen (fun x y => y ∈ cols x) s b) :
    (traversalFrom N cols s).Perm (List.range N) := by
  have hin : ∀ x ∈ (cols s).filter (fun c => c ≠ s), x < N :=
    fun x hx => hrange s hs x (List.mem_filter.mp hx).1
  have hperm := sortByDegree_perm (rowDegreeOf cols) ((cols s).filter fun c => c ≠ s)
  unfold traversalFrom
  apply levelTraversal_perm_range _ hrange hreach
  · rw [List.singleton_append, List.nodup_cons]
    constructor
    · intro hmem
      have := (List.mem_filter.mp (hperm.mem_iff.mp hmem)).2
      simp at this
    · exact hperm.nodup_iff.mpr ((hdup s hs).filter _)
  · intro x hx
    rcases List.mem_append.mp hx with hx | hx
    · rw [List.mem_singleton.mp hx]; exact hs
    · exact hin x (hperm.mem_iff.mp hx)
  · intro x hx y hy
    rw [List.mem_singleton.mp hx] at hy
    by_cases hys : y = s
    · exact Or.inl (by simp [hys])
    · exact Or.inr (hperm.mem_iff.mpr (List.mem_filter.mpr ⟨hy, by simpa using hys⟩))
  · simp
  · simp


/-! ### The chain pattern and the dense pattern -/

theorem chainColumns_length_pos (N i : Nat) :
    1 ≤ (chainColumns N i).length ∧ (chainColumns N i).length ≤ 3 := by
  unfold chainColumns
  split <;> split <;> simp

theorem chainColumns_zero {N : Nat} (hN : 2 ≤ N) : chainColumns N 0 = [0, 1] := by
  unfold chainColumns
  rw [if_neg (Nat.lt_irrefl 0), if_pos (by omega)]
  rfl

theorem chainColumns_inRange (N : Nat) : ColumnsInRange N (chainColumns N) := by
  intro r hr c hc
  unfold chainColumns at hc
  simp only [List.mem_append, List.mem_singleton] at hc
  rcases hc with (hc | hc) | hc
  · split at hc
    · rw [List.mem_singleton] at hc; omega
    · simp at hc
  · omega
  · split at hc
    · rw [List.mem_singleton] at hc; omega
    · simp at hc

theorem chainColumns_duplicateFree (N : Nat) : DuplicateFree N (chainColumns N) := by
  intro r _
  unfold chainColumns
  split <;> split <;> simp <;> omega

/-- Unnumbered columns of row `k + 1` of the chain once rows `0, ..., k + 1` are
numbered: the next row of the chain, if there is one. -/
theorem chainColumns_filter (N k : Nat) :
    ((chainColumns N (k + 1)).filter fun c => c ∉ List.range (k + 2))
      = if k + 2 < N then [k + 2] else [] := by
  unfold chainColumns
  rw [if_pos (Nat.succ_pos k)]
  split <;> simp [List.filter_cons, List.mem_range]

theorem sortByDegree_short (deg : Nat → Nat) (xs : List Nat) (h : xs.length ≤ 1) :
    sortByDegree deg xs = xs := by
  unfold sortByDegree
  rw [if_neg (by omega)]

theorem levelTraversal_done (N : Nat) (cols : Nat → ColumnArray) (deg : Nat → Nat)
    (fuel : Nat) (order frontier : List Nat)
    (h : ¬ (frontier.length ≠ 0 ∧ order.length < N)) :
    levelTraversal N cols deg fuel order frontier = order := by
  cases fuel <;> rw [levelTraversal, if_neg h]

theorem levelTraversal_chain (N : Nat) (deg : Nat → Nat) : ∀ (fuel k : Nat), k + 1 < N →
    N - (k + 1) ≤ fuel →
    levelTraversal N (chainColumns N) deg fuel (List.range (k + 1)) [k + 1] = List.range N := by
  intro fuel
  induction fuel with
  | zero => intro k hk hfuel; omega
  | succ fuel ih =>
    intro k hk hfuel
    have hcond : [k + 1].length ≠ 0 ∧ (List.range (k + 1)).length < N := by simp; omega
    rw [levelTraversal, if_pos hcond]
    rw [← List.range_succ, nextFrontier, nextFrontier, chainColumns_filter]
    by_cases hlast : k + 2 < N
    · rw [if_pos hlast, sortByDegree_short deg _ (by simp), addNoRepeats_of_nodup _ _ (by simp)]
      exact ih (k + 1) hlast (by omega)
    · rw [if_neg hlast, sortByDegree_short deg _ (by simp)]
      have hN : N = k + 2 := by omega
      rw [levelTraversal_done _ _ _ _ _ _ (by simp [addNoRepeats]), hN]

theorem traversalFrom_chain {N : Nat} (hN : 2 ≤ N) :
    traversalFrom N (chainColumns N) 0 = List.range N := by
  unfold traversalFrom
  rw [chainColumns_zero hN]
  have hf : (List.filter (fun c => decide (c ≠ 0)) [0, 1]) = [1] := by decide
  rw [hf, sortByDegree_short _ _ (by simp)]
  exact levelTraversal_chain N _ N 0 (by omega) (by omega)

theorem rowDegreeOf_chain_zero {N : Nat} (hN : 2 ≤ N) (j : Nat) :
    rowDegreeOf (chainColumns N) 0 ≤ rowDegreeOf (chainColumns N) j := by
  obtain ⟨h1, h3⟩ := chainColumns_length_pos N j
  unfold rowDegreeOf
  rw [chainColumns_zero hN, decrementUnsigned_of_pos (by simp) (by simp),
    decrementUnsigned_of_pos h1 (le_trans h3 (by decide))]
  by_cases hj : j = 0
  · rw [hj, chainColumns_zero hN]
  · have : 2 ≤ (chainColumns N j).length := by
      unfold chainColumns
      rw [if_pos (Nat.pos_of_ne_zero hj)]
      split <;> simp
    simp only [List.length_cons, List.length_nil]
    omega

theorem range_eq_cons {N : Nat} (hN : 1 ≤ N) : List.range N = 0 :: List.range' 1 (N - 1) := by
  rw [List.range_eq_range', show N = (N - 1) + 1 by omega, List.range'_succ]
  simp

theorem dense_filter {N : Nat} (hN : 1 ≤ N) :
    ((List.range N).filter fun c => c ≠ 0) = List.range' 1 (N - 1) := by
  rw [range_eq_cons hN, List.filter_cons]
  simp only [ne_eq, not_true_eq_false, decide_False, Bool.false_eq_true, if_false]
  apply List.filter_eq_self.mpr
  intro a ha
  rw [List.mem_range'_1] at ha
  simp only [decide_eq_true_eq]
  omega

theorem chain'_of_forall {R : Nat → Nat → Prop} (h : ∀ a b, R a b) :
    ∀ (l : List Nat), l.Chain' R := by
  intro l
  exact List.Pairwise.chain' (List.pairwise_of_forall h)

theorem traversalFrom_dense {N : Nat} (hN : 1 ≤ N) (matrixIndex : Nat) :
    traversalFrom N (fun row => GetColumnsOfNonZeroMatrixElementsInRow N row matrixIndex) 0
      = List.range N := by
  have hfun : (fun row => GetColumnsOfNonZeroMatrixElementsInRow N row matrixIndex)
      = fun _ => List.range N :=
    funext fun row => GetColumnsOfNonZeroMatrixElementsInRow_eq_range N row matrixIndex
  rw [hfun]
  unfold traversalFrom
  have hdeg : ∀ a b, rowDegreeOf (fun _ => List.range N) a
      ≤ rowDegreeOf (fun _ => List.range N) b := fun a b => le_of_eq rfl
  rw [dense_filter hN, sortByDegree_of_sorted _ _ (chain'_of_forall hdeg _)]
  by_cases h1 : N = 1
  · subst h1
    rfl
  · obtain ⟨fuel, hfuel⟩ : ∃ fuel, N = fuel + 1 := ⟨N - 1, by omega⟩
    have hcond : (List.range' 1 (N - 1)).length ≠ 0 ∧ [0].length < N := by
      simp only [List.length_range', List.length_singleton]
      omega
    rw [show levelTraversal N _ _ N [0] (List.range' 1 (N - 1))
        = levelTraversal N _ _ (fuel + 1) [0] (List.range' 1 (N - 1)) by rw [← hfuel]]
    rw [levelTraversal, if_pos hcond]
    simp only [List.singleton_append]
    rw [← range_eq_cons hN]
    exact levelTraversal_done _ _ _ _ _ _ (by simp)


/-! ### Facts that hold for every enumeration -/

theorem bubbleInner_perm (rd : ColumnArray) : ∀ (n : Nat) (xs ys : List Nat),
    bubbleInner rd n xs = .ok ys → ys.Perm xs := by
  intro n
  induction n with
  | zero =>
    intro xs ys h
    rw [bubbleInner] at h
    injection h with h
    rw [h]
  | succ n ih =>
    intro xs ys h
    match xs with
    | [] => simp [bubbleInner] at h
    | [a] => simp [bubbleInner] at h
    | a :: b :: rest =>
      rw [bubbleInner] at h
      cases hb : readAt rd b with
      | error e => rw [hb] at h; cases h
      | ok db =>
        cases ha : readAt rd a with
        | error e => rw [hb, ha] at h; cases h
        | ok da =>
          rw [hb, ha] at h
          simp only [ok_bind] at h
          split at h
          · cases ht : bubbleInner rd n (a :: rest) with
            | error e => rw [ht] at h; cases h
            | ok tail =>
              rw [ht] at h
              injection h with h
              rw [← h]
              exact ((ih _ _ ht).cons b).trans (List.Perm.swap a b rest)
          · cases ht : bubbleInner rd n (b :: rest) with
            | error e => rw [ht] at h; cases h
            | ok tail =>
              rw [ht] at h
              injection h with h
              rw [← h]
              exact (ih _ _ ht).cons a

theorem bubblePasses_perm (rd : ColumnArray) : ∀ (p : Nat) (xs ys : List Nat),
    bubblePasses rd p xs = .ok ys → ys.Perm xs := by
  intro p
  induction p with
  | zero =>
    intro xs ys h
    rw [bubblePasses] at h
    injection h with h
    rw [h]
  | succ p ih =>
    intro xs ys h
    rw [bubblePasses] at h
    cases hi : bubbleInner rd (p + 1) xs with
    | error e => rw [hi] at h; cases h
    | ok zs =>
      rw [hi] at h
      exact (ih _ _ h).trans (bubbleInner_perm rd _ _ _ hi)

/-- Whenever the block `/* order by degree */` completes, it has permuted its
list. -/
theorem orderByDegree_perm (rd : ColumnArray) (xs ys : List Nat)
    (h : orderByDegree rd xs = .ok ys) : ys.Perm xs := by
  unfold orderByDegree at h
  split at h
  · exact bubblePasses_perm rd _ _ _ h
  · injection h with h
    rw [h]

theorem assignNumbers_frame : ∀ (frontier rm : List Nat) (n : Nat) (rm1 : List Nat) (n1 : Nat),
    assignNumbers frontier rm n = .ok (rm1, n1) →
    (∀ i, i ∉ frontier → rm1[i]? = rm[i]?) ∧
    (∀ i : Nat, rm1[i]? = rm[i]? ∨ ∃ v, n ≤ v ∧ rm1[i]? = some v) := by
  intro frontier
  induction frontier with
  | nil =>
    intro rm n rm1 n1 h
    rw [assignNumbers] at h
    injection h with h
    injection h with h1 h2
    subst h1
    exact ⟨fun _ _ => rfl, fun _ => Or.inl rfl⟩
  | cons r frontier ih =>
    intro rm n rm1 n1 h
    rw [assignNumbers] at h
    cases hw : writeAt rm r n with
    | error e => rw [hw] at h; cases h
    | ok rm2 =>
      rw [hw] at h
      simp only [ok_bind] at h
      obtain ⟨hlt, hset⟩ := writeAt_eq_ok hw
      obtain ⟨hframe, hvals⟩ := ih _ _ _ _ h
      subst hset
      constructor
      · intro i hi
        have hne : ¬ r = i := fun he => hi (he ▸ List.mem_cons_self _ _)
        rw [hframe i (fun hmem => hi (List.mem_cons_of_mem _ hmem)), List.getElem?_set,
          if_neg hne]
      · intro i
        rcases hvals i with hv | ⟨v, hv, hget⟩
        · rw [hv, List.getElem?_set]
          by_cases hri : r = i
          · rw [if_pos hri, if_pos hlt]
            exact Or.inr ⟨n, le_refl n, rfl⟩
          · rw [if_neg hri]
            exact Or.inl rfl
        · exact Or.inr ⟨v, by omega, hget⟩

theorem removeNumbered_mem (N : Nat) (rm : ColumnArray) : ∀ (cs ys : List Nat),
    removeNumbered N rm cs = .ok ys →
    ∀ x ∈ ys, x ∈ cs ∧ ∃ v, rm[x]? = some v ∧ ¬ v < N := by
  intro cs
  induction cs with
  | nil =>
    intro ys h
    rw [removeNumbered] at h
    injection h with h
    subst h
    intro x hx
    simp at hx
  | cons c cs ih =>
    intro ys h
    rw [removeNumbered] at h
    cases hr : readAt rm c with
    | error e => rw [hr] at h; cases h
    | ok v =>
      cases ht : removeNumbered N rm cs with
      | error e => rw [hr, ht] at h; cases h
      | ok rest =>
        rw [hr, ht] at h
        simp only [ok_bind] at h
        have hrest := ih rest ht
        split at h
        · injection h with h
          subst h
          intro x hx
          exact ⟨List.mem_cons_of_mem _ (hrest x hx).1, (hrest x hx).2⟩
        · rename_i hv
          injection h with h
          subst h
          intro x hx
          rcases List.mem_cons.mp hx with hx | hx
          · subst hx
            exact ⟨List.mem_cons_self _ _, v, readAt_eq_ok hr, hv⟩
          · exact ⟨List.mem_cons_of_mem _ (hrest x hx).1, (hrest x hx).2⟩

/-- Whenever the expansion of a frontier completes, every row it has added is
enumerated by a row of the frontier and is unnumbered. -/
theorem expandFrontier_mem (N : Nat) (cols : Nat → ColumnArray) (rd rm : ColumnArray) :
    ∀ (frontier bufferArray result : List Nat),
      expandFrontier N cols rd rm frontier bufferArray = .ok result →
      ∀ x ∈ result, x ∈ bufferArray ∨
        ((∃ r ∈ frontier, x ∈ cols r) ∧ ∃ v, rm[x]? = some v ∧ ¬ v < N) := by
  intro frontier
  induction frontier with
  | nil =>
    intro bufferArray result h
    rw [expandFrontier] at h
    injection h with h
    subst h
    intro x hx
    exact Or.inl hx
  | cons r frontier ih =>
    intro bufferArray result h
    rw [expandFrontier] at h
    cases hrem : removeNumbered N rm (cols r) with
    | error e => rw [hrem] at h; cases h
    | ok rowBuffer =>
      cases hord : orderByDegree rd rowBuffer with
      | error e => rw [hrem] at h; simp only [ok_bind] at h; rw [hord] at h; cases h
      | ok sorted =>
        rw [hrem] at h
        simp only [ok_bind] at h
        rw [hord] at h
        simp only [ok_bind] at h
        intro x hx
        rcases ih _ _ h x hx with hmem | ⟨⟨r2, hr2, hx2⟩, hv⟩
        · rcases (mem_addNoRepeats _ _).mp hmem with hmem | hmem
          · exact Or.inl hmem
          · have hxr := removeNumbered_mem N rm _ _ hrem x
              ((orderByDegree_perm rd _ _ hord).mem_iff.mp hmem)
            exact Or.inr ⟨⟨r, List.mem_cons_self _ _, hxr.1⟩, hxr.2⟩
        · exact Or.inr ⟨⟨r2, List.mem_cons_of_mem _ hr2, hx2⟩, hv⟩


/-! ### The starting row keeps the number 0 -/

theorem assignNumbers_counter : ∀ (frontier rm : List Nat) (n : Nat) (rm1 : List Nat)
    (n1 : Nat), assignNumbers frontier rm n = .ok (rm1, n1) → n1 = n + frontier.length := by
  intro frontier
  induction frontier with
  | nil =>
    intro rm n rm1 n1 h
    rw [assignNumbers] at h
    injection h with h
    injection h with h1 h2
    simp [h2]
  | cons r frontier ih =>
    intro rm n rm1 n1 h
    rw [assignNumbers] at h
    cases hw : writeAt rm r n with
    | error e => rw [hw] at h; cases h
    | ok rm2 =>
      rw [hw] at h
      simp only [ok_bind] at h
      rw [ih _ _ _ _ h, List.length_cons]
      omega

theorem followLoop_keeps_start {N : Nat} (cols : Nat → ColumnArray) (rd : ColumnArray)
    (s : Nat) (hN : 1 ≤ N) :
    ∀ (fuel : Nat) (frontier rm : List Nat) (n : Nat) (result : List Nat),
      rm[s]? = some 0 → (∀ i : Nat, i ≠ s → rm[i]? ≠ some 0) → s ∉ frontier → 1 ≤ n →
      followLoop N cols rd fuel frontier rm n = .ok result →
      result[s]? = some 0 ∧ ∀ i : Nat, i ≠ s → result[i]? ≠ some 0 := by
  intro fuel
  induction fuel with
  | zero =>
    intro frontier rm n result hs hother _ _ h
    rw [followLoop] at h
    split at h
    · cases h
    · injection h with h
      subst h
      exact ⟨hs, hother⟩
  | succ fuel ih =>
    intro frontier rm n result hs hother hfront hn h
    rw [followLoop] at h
    split at h
    · simp only [] at h
      cases ha : assignNumbers frontier rm n with
      | error e => rw [ha] at h; cases h
      | ok pair =>
        obtain ⟨rm1, n1⟩ := pair
        rw [ha] at h
        simp only [ok_bind] at h
        obtain ⟨hframe, hvals⟩ := assignNumbers_frame _ _ _ _ _ ha
        have hn1 := assignNumbers_counter _ _ _ _ _ ha
        have hs1 : rm1[s]? = some 0 := by rw [hframe s hfront, hs]
        have hother1 : ∀ i : Nat, i ≠ s → rm1[i]? ≠ some 0 := by
          intro i hi
          rcases hvals i with hv | ⟨v, hv, hget⟩
          · rw [hv]
            exact hother i hi
          · rw [hget]
            intro he
            injection he with he
            omega
        cases he : expandFrontier N cols rd rm1 frontier [] with
        | error e => rw [he] at h; cases h
        | ok bufferArray =>
          rw [he] at h
          simp only [ok_bind] at h
          apply ih bufferArray rm1 n1 result hs1 hother1 _ (by omega) h
          intro hmem
          rcases expandFrontier_mem N cols rd rm1 _ _ _ he s hmem with hnil | ⟨_, v, hv, hnot⟩
          · simp at hnil
          · rw [hs1] at hv
            injection hv with hv
            omega
    · injection h with h
      subst h
      exact ⟨hs, hother⟩

theorem FollowConnections_keeps_start {N : Nat} (cols : Nat → ColumnArray) (rd : ColumnArray)
    (s : Nat) (hN : 1 ≤ N) (rm result : List Nat) (hs : rm[s]? = some 0)
    (hother : ∀ i : Nat, i ≠ s → rm[i]? ≠ some 0)
    (h : FollowConnectionsCuthillMckeeOrdering N cols s rd rm 1 = .ok result) :
    result[s]? = some 0 ∧ ∀ i : Nat, i ≠ s → result[i]? ≠ some 0 := by
  unfold FollowConnectionsCuthillMckeeOrdering at h
  rw [readAt_of_getElem? hs] at h
  simp only [ok_bind] at h
  rw [if_neg (Nat.not_lt_zero _)] at h
  cases ho : orderByDegree rd ((cols s).filter fun c => c ≠ s) with
  | error e => rw [ho] at h; cases h
  | ok nextRows =>
    rw [ho] at h
    simp only [ok_bind] at h
    apply followLoop_keeps_start cols rd s hN N nextRows rm 1 result hs hother _ (le_refl 1) h
    intro hmem
    have := (List.mem_filter.mp ((orderByDegree_perm rd _ _ ho).mem_iff.mp hmem)).2
    simp at this

theorem invertMapping_first {rm : ColumnArray} {s : Nat} (hs : rm[s]? = some 0)
    (hother : ∀ i : Nat, i ≠ s → rm[i]? ≠ some 0) :
    ∀ (rows newNumbering result : List Nat),
      invertMapping rm rows newNumbering = .ok result →
      (s ∈ rows → result[0]? = some s) ∧ (s ∉ rows → result[0]? = newNumbering[0]?) := by
  intro rows
  induction rows with
  | nil =>
    intro newNumbering result h
    rw [invertMapping] at h
    injection h with h
    subst h
    exact ⟨fun hmem => by simp at hmem, fun _ => rfl⟩
  | cons i rows ih =>
    intro newNumbering result h
    rw [invertMapping] at h
    cases hr : readAt rm i with
    | error e => rw [hr] at h; cases h
    | ok v =>
      rw [hr] at h
      simp only [ok_bind] at h
      cases hw : writeAt newNumbering v i with
      | error e => rw [hw] at h; cases h
      | ok nn1 =>
        rw [hw] at h
        simp only [ok_bind] at h
        obtain ⟨hlt, hset⟩ := writeAt_eq_ok hw
        obtain ⟨hin, hout⟩ := ih _ _ h
        have hv := readAt_eq_ok hr
        constructor
        · intro hmem
          by_cases hrows : s ∈ rows
          · exact hin hrows
          · have his : i = s := by
              rcases List.mem_cons.mp hmem with h1 | h1
              · exact h1.symm
              · exact absurd h1 hrows
            subst his
            rw [hs] at hv
            injection hv with hv
            subst hv
            rw [hout hrows, hset, List.getElem?_set, if_pos rfl, if_pos hlt]
        · intro hmem
          have hrows : s ∉ rows := fun h1 => hmem (List.mem_cons_of_mem _ h1)
          have his : i ≠ s := fun h1 => hmem (h1 ▸ List.mem_cons_self _ _)
          have hv0 : v ≠ 0 := by
            intro h0
            rw [h0] at hv
            exact hother i his hv
          rw [hout hrows, hset, List.getElem?_set, if_neg hv0]

/-- Whenever `CuthillMckeeOrdering` completes from the start row `s`, whatever the
enumeration, `newNumbering[0]` is `s`. -/
theorem CuthillMckeeOrdering_first {N : Nat} (cols : Nat → ColumnArray) (hN : 1 ≤ N)
    {startingRow : Int} {s : Nat}
    (hstart : (if startingRow < 0 then chooseStartingRow N (initialRowDegree N cols)
      else pure startingRow.toNat) = .ok s)
    {newNumbering : List Nat}
    (h : CuthillMckeeOrdering N cols startingRow = .ok newNumbering) :
    newNumbering[0]? = some s := by
  have hrest : (do
      let reverseMapping ← writeAt (initialReverseMapping N) s 0
      let reverseMapping ← FollowConnectionsCuthillMckeeOrdering N cols s
        (initialRowDegree N cols) reverseMapping 1
      invertMapping reverseMapping (List.range N) (List.replicate N 0))
      = Except.ok newNumbering := by
    unfold CuthillMckeeOrdering at h
    simp only [] at h
    by_cases hneg : startingRow < 0
    · rw [if_pos hneg] at hstart h
      rw [hstart] at h
      exact h
    · rw [if_neg hneg] at hstart h
      rw [hstart] at h
      exact h
  cases hw : writeAt (initialReverseMapping N) s 0 with
  | error e => rw [hw] at hrest; cases hrest
  | ok rm0 =>
    rw [hw] at hrest
    simp only [ok_bind] at hrest
    obtain ⟨hlt, hset⟩ := writeAt_eq_ok hw
    have hsN : s < N := by simpa [initialReverseMapping] using hlt
    have hs0 : rm0[s]? = some 0 := by
      rw [hset, List.getElem?_set, if_pos rfl, if_pos hlt]
    have hother0 : ∀ i : Nat, i ≠ s → rm0[i]? ≠ some 0 := by
      intro i hi
      rw [hset, List.getElem?_set, if_neg (fun he => hi he.symm)]
      unfold initialReverseMapping
      rw [List.getElem?_replicate]
      split
      · intro he
        injection he with he
        omega
      · intro he
        cases he
    cases hf : FollowConnectionsCuthillMckeeOrdering N cols s (initialRowDegree N cols) rm0 1 with
    | error e => rw [hf] at hrest; cases hrest
    | ok rm1 =>
      rw [hf] at hrest
      simp only [ok_bind] at hrest
      obtain ⟨hs1, hother1⟩ := FollowConnections_keeps_start cols _ s hN rm0 rm1 hs0 hother0 hf
      exact (invertMapping_first hs1 hother1 _ _ _ hrest).1 (List.mem_range.mpr hsN)


/-! ### One pass on the dense pattern -/

theorem encodeOrder_range (N : Nat) : encodeOrder N (List.range N) = List.range N := by
  unfold encodeOrder
  conv_rhs => rw [← List.map_id (List.range N)]
  apply List.map_congr_left
  intro i hi
  have hlt : i < (List.range N).length := by simpa using hi
  have hget : (List.range N)[i] = i := List.getElem_range i hlt
  have hidx := List.indexOf_getElem (List.nodup_range N) i hlt
  rw [hget] at hidx
  simp [numberOf, hi, hidx]

theorem initialReverseMapping_set_start {N s : Nat} (hs : s < N) :
    (initialReverseMapping N).set s 0 = encodeOrder N [s] := by
  have h1 := writeAt_encodeOrder (N := N) [] hs (by simp)
  rw [← initialReverseMapping_eq, writeAt_of_lt _ (by simpa [initialReverseMapping] using hs)] at h1
  injection h1

/-- On the dense pattern a single pass of the loop, started from row 0 with the
frontier `1, ..., N-1`, numbers every row: `reverseMapping` is the identity. -/
theorem followLoop_dense_one_pass {N : Nat} (hN : 1 ≤ N) (matrixIndex : Nat) :
    followLoop N (denseColumns N matrixIndex) (initialRowDegree N (denseColumns N matrixIndex))
        1 (List.range' 1 (N - 1)) ((initialReverseMapping N).set 0 0) 1
      = .ok (List.range N) := by
  rw [denseColumns_eq]
  have hrd : ∀ i, i < N → readAt (initialRowDegree N (fun _ => List.range N)) i
      = .ok (rowDegreeOf (fun _ => List.range N) i) :=
    fun i hi => readAt_initialRowDegree _ hi
  have hrange : ColumnsInRange N (fun _ => List.range N) := by
    intro r _ c hc
    exact List.mem_range.mp hc
  have hlt : ∀ x ∈ List.range' 1 (N - 1), x < N := by
    intro x hx
    rw [List.mem_range'_1] at hx
    omega
  have hall : [0] ++ List.range' 1 (N - 1) = List.range N := (range_eq_cons hN).symm
  rw [initialReverseMapping_set_start (by omega)]
  rw [followLoop]
  split
  · have ha := assignNumbers_encodeOrder (List.range' 1 (N - 1)) [0] hlt
      (by rw [hall]; exact List.nodup_range N)
    rw [hall] at ha
    simp only [List.length_singleton] at ha
    rw [ha]
    simp only [ok_bind]
    rw [expandFrontier_eq_nextFrontier hrd hrange (by simp) _ _ hlt]
    simp only [ok_bind]
    have hcount : ¬ (1 + (List.range' 1 (N - 1)).length < N) := by
      rw [List.length_range']
      omega
    rw [followLoop, if_neg (fun h => hcount h.2), encodeOrder_range]
  · rename_i hcond
    have h1 : N = 1 := by
      by_contra hne
      apply hcond
      simp only [List.length_range']
      omega
    subst h1
    rfl


/-! ### Settled properties of the ordering -/

/-- Claim C1. For every order `N >= 1`, every enumeration that is in range,
duplicate-free, structurally symmetric and connected, and every `startingRow` that
is negative or in `[0, N)`, `CuthillMckeeOrdering` returns an array `newNumbering` of
length `N` in which each index of `[0, N)` occurs exactly once. -/
theorem CuthillMckeeOrdering_is_bijection (N : Nat) (cols : Nat → ColumnArray)
    (startingRow : Int) (hN : 1 ≤ N) (hrange : ColumnsInRange N cols)
    (hdup : DuplicateFree N cols) (_hsym : StructurallySymmetric N cols)
    (hconn : Connected N cols) (hstart : startingRow < 0 ∨ (0 ≤ startingRow ∧ startingRow < N)) :
    ∃ newNumbering, CuthillMckeeOrdering N cols startingRow = .ok newNumbering ∧
      newNumbering.length = N ∧ ∀ k, k < N → newNumbering.count k = 1 := by
  have hrd : ∀ i, i < N → readAt (initialRowDegree N cols) i = .ok (rowDegreeOf cols i) :=
    fun i hi => readAt_initialRowDegree cols hi
  obtain ⟨s, hs, hsel⟩ : ∃ s, s < N ∧
      (if startingRow < 0 then chooseStartingRow N (initialRowDegree N cols)
        else pure startingRow.toNat) = .ok s := by
    rcases hstart with hneg | ⟨h0, hlt⟩
    · refine ⟨lowestDegreeRow N (rowDegreeOf cols), (lowestDegreeRow_spec _ hN).1, ?_⟩
      rw [if_pos hneg]
      exact chooseStartingRow_eq hrd hN
    · refine ⟨startingRow.toNat, by omega, ?_⟩
      rw [if_neg (by omega)]
      rfl
  have hperm := traversalFrom_perm_range hrange hdup hs (fun b hb => hconn s b hs hb)
  refine ⟨traversalFrom N cols s,
    CuthillMckeeOrdering_eq_traversalFrom hrange hdup hs hsel hperm, ?_, ?_⟩
  · simpa using hperm.length_eq
  · intro k hk
    rw [hperm.count_eq]
    exact List.count_eq_one_of_mem (List.nodup_range N) (List.mem_range.mpr hk)

/-- Witness of C1: the chain on three rows, started from its middle row. -/
theorem CuthillMckeeOrdering_is_bijection_witness :
    ColumnsInRange 3 (chainColumns 3) ∧ DuplicateFree 3 (chainColumns 3) ∧
    StructurallySymmetric 3 (chainColumns 3) ∧ Connected 3 (chainColumns 3) ∧
    ∃ newNumbering, CuthillMckeeOrdering 3 (chainColumns 3) 1 = .ok newNumbering ∧
      newNumbering.length = 3 ∧ ∀ k, k < 3 → newNumbering.count k = 1 := by
  have hsym : StructurallySymmetric 3 (chainColumns 3) := by
    intro r c hr hc
    interval_cases r <;> interval_cases c <;> decide
  have hconn : Connected 3 (chainColumns 3) := by
    have h01 : Relation.ReflTransGen (fun x y => y ∈ chainColumns 3 x) 0 1 :=
      Relation.ReflTransGen.single (by decide)
    have h12 : Relation.ReflTransGen (fun x y => y ∈ chainColumns 3 x) 1 2 :=
      Relation.ReflTransGen.single (by decide)
    have h10 : Relation.ReflTransGen (fun x y => y ∈ chainColumns 3 x) 1 0 :=
      Relation.ReflTransGen.single (by decide)
    have h21 : Relation.ReflTransGen (fun x y => y ∈ chainColumns 3 x) 2 1 :=
      Relation.ReflTransGen.single (by decide)
    intro a b ha hb
    interval_cases a <;> interval_cases b
    · exact Relation.ReflTransGen.refl
    · exact h01
    · exact h01.trans h12
    · exact h10
    · exact Relation.ReflTransGen.refl
    · exact h12
    · exact h21.trans h10
    · exact h21
    · exact Relation.ReflTransGen.refl
  exact ⟨chainColumns_inRange 3, chainColumns_duplicateFree 3, hsym, hconn,
    CuthillMckeeOrdering_is_bijection 3 (chainColumns 3) 1 (by decide) (chainColumns_inRange 3)
      (chainColumns_duplicateFree 3) hsym hconn (Or.inr ⟨by decide, by decide⟩)⟩

/-- Claim C7. For every `N >= 2`, on the chain pattern and with an auto-selected start
(`startingRow < 0`), the selected row is row 0 and `CuthillMckeeOrdering` returns
`[0, 1, ..., N-1]`; for `N = 5` the degrees are `[1, 2, 2, 2, 1]` and the result is
`[0, 1, 2, 3, 4]`. -/
theorem CuthillMckeeOrdering_chain (N : Nat) (hN : 2 ≤ N) (startingRow : Int)
    (hneg : startingRow < 0) :
    chooseStartingRow N (initialRowDegree N (chainColumns N)) = .ok 0 ∧
    CuthillMckeeOrdering N (chainColumns N) startingRow = .ok (List.range N) ∧
    initialRowDegree 5 (chainColumns 5) = [1, 2, 2, 2, 1] ∧
    CuthillMckeeOrdering 5 (chainColumns 5) startingRow = .ok [0, 1, 2, 3, 4] := by
  have hgen : ∀ M, 2 ≤ M →
      chooseStartingRow M (initialRowDegree M (chainColumns M)) = .ok 0 ∧
      CuthillMckeeOrdering M (chainColumns M) startingRow = .ok (List.range M) := by
    intro M hM
    have hrd : ∀ i, i < M → readAt (initialRowDegree M (chainColumns M)) i
        = .ok (rowDegreeOf (chainColumns M) i) := fun i hi => readAt_initialRowDegree _ hi
    have hsel : chooseStartingRow M (initialRowDegree M (chainColumns M)) = .ok 0 := by
      rw [chooseStartingRow_eq hrd (by omega),
        lowestDegreeRow_eq_zero _ (by omega) (fun j _ => rowDegreeOf_chain_zero hM j)]
    refine ⟨hsel, ?_⟩
    have htrav := traversalFrom_chain hM
    rw [← htrav]
    apply CuthillMckeeOrdering_eq_traversalFrom (chainColumns_inRange M)
      (chainColumns_duplicateFree M) (by omega)
    · rw [if_pos hneg]
      exact hsel
    · rw [htrav]
  exact ⟨(hgen N hN).1, (hgen N hN).2, by decide, (hgen 5 (by decide)).2⟩

/-- Witness of C7 at `N = 5` and `startingRow = -1`. -/
theorem CuthillMckeeOrdering_chain_witness :
    (2 ≤ 5) ∧ ((-1 : Int) < 0) ∧
    CuthillMckeeOrdering 5 (chainColumns 5) (-1) = .ok [0, 1, 2, 3, 4] :=
  ⟨by decide, by decide, (CuthillMckeeOrdering_chain 5 (by decide) (-1) (by decide)).2.1⟩

/-- Claim C8. For every `N >= 1` (an `unsigned int`), with the default enumeration of
the base class every row has degree `N - 1`, an auto-selected start
(`startingRow < 0`) is row 0, the first frontier holds all the other rows
`1, ..., N-1`, a single pass of the loop numbers them all (`reverseMapping` is then
the identity), and `CuthillMckeeOrdering` returns `[0, 1, ..., N-1]`; for `N = 4` the
result is `[0, 1, 2, 3]`. -/
theorem CuthillMckeeOrdering_dense (N : Nat) (hN : 1 ≤ N) (hword : N < 2 ^ 32)
    (matrixIndex : Nat) (startingRow : Int) (hneg : startingRow < 0) :
    (∀ i, i < N → readAt (initialRowDegree N (denseColumns N matrixIndex)) i = .ok (N - 1)) ∧
    chooseStartingRow N (initialRowDegree N (denseColumns N matrixIndex)) = .ok 0 ∧
    orderByDegree (initialRowDegree N (denseColumns N matrixIndex))
        ((denseColumns N matrixIndex 0).filter fun c => c ≠ 0)
      = .ok (List.range' 1 (N - 1)) ∧
    followLoop N (denseColumns N matrixIndex) (initialRowDegree N (denseColumns N matrixIndex))
        1 (List.range' 1 (N - 1)) ((initialReverseMapping N).set 0 0) 1
      = .ok (List.range N) ∧
    CuthillMckeeOrdering N (denseColumns N matrixIndex) startingRow = .ok (List.range N) ∧
    CuthillMckeeOrdering 4 (denseColumns 4 matrixIndex) startingRow = .ok [0, 1, 2, 3] := by
  have hgen : ∀ M, 1 ≤ M →
      chooseStartingRow M (initialRowDegree M (denseColumns M matrixIndex)) = .ok 0 ∧
      CuthillMckeeOrdering M (denseColumns M matrixIndex) startingRow
        = .ok (List.range M) := by
    intro M hM
    rw [denseColumns_eq]
    have hrd : ∀ i, i < M → readAt (initialRowDegree M (fun _ => List.range M)) i
        = .ok (rowDegreeOf (fun _ => List.range M) i) :=
      fun i hi => readAt_initialRowDegree _ hi
    have hsel : chooseStartingRow M (initialRowDegree M (fun _ => List.range M))
        = .ok 0 := by
      rw [chooseStartingRow_eq hrd hM, lowestDegreeRow_eq_zero
        (rowDegreeOf (fun _ => List.range M)) hM (fun j _ => le_of_eq rfl)]
    refine ⟨hsel, ?_⟩
    have htrav : traversalFrom M (fun _ => List.range M) 0 = List.range M := by
      rw [← denseColumns_eq M matrixIndex]
      exact traversalFrom_dense hM matrixIndex
    have hrange : ColumnsInRange M (fun _ => List.range M) := by
      intro r _ c hc
      exact List.mem_range.mp hc
    have hdup : DuplicateFree M (fun _ => List.range M) := by
      intro r _
      exact List.nodup_range M
    have hstart : (if startingRow < 0
        then chooseStartingRow M (initialRowDegree M (fun _ => List.range M))
        else pure startingRow.toNat) = .ok 0 := by
      rw [if_pos hneg]
      exact hsel
    have h := CuthillMckeeOrdering_eq_traversalFrom hrange hdup (show 0 < M by omega) hstart
      (by rw [htrav])
    rw [htrav] at h
    exact h
  have hrdN : ∀ i, i < N → readAt (initialRowDegree N (denseColumns N matrixIndex)) i
      = .ok (rowDegreeOf (denseColumns N matrixIndex) i) :=
    fun i hi => readAt_initialRowDegree _ hi
  have hdeg : ∀ i, rowDegreeOf (denseColumns N matrixIndex) i = N - 1 := by
    intro i
    rw [denseColumns_eq]
    unfold rowDegreeOf
    rw [List.length_range, decrementUnsigned_of_pos (by omega) (by omega)]
  refine ⟨?_, (hgen N hN).1, ?_, followLoop_dense_one_pass hN matrixIndex, (hgen N hN).2,
    (hgen 4 (by decide)).2⟩
  · intro i hi
    rw [hrdN i hi, hdeg i]
  · have hf : ((denseColumns N matrixIndex 0).filter fun c => c ≠ 0)
        = List.range' 1 (N - 1) := by
      rw [denseColumns_eq]
      exact dense_filter hN
    rw [hf, orderByDegree_eq_sortByDegree hrdN _ (by
      intro x hx
      rw [List.mem_range'_1] at hx
      omega)]
    rw [sortByDegree_of_sorted _ _
      (chain'_of_forall (fun a b => by rw [hdeg a, hdeg b]) _)]

/-- Witness of C8 at `N = 4`, matrix 0 and `startingRow = -1`. -/
theorem CuthillMckeeOrdering_dense_witness :
    (1 ≤ 4) ∧ (4 < 2 ^ 32) ∧ ((-1 : Int) < 0) ∧
    CuthillMckeeOrdering 4 (denseColumns 4 0) (-1) = .ok [0, 1, 2, 3] :=
  ⟨by decide, by decide, by decide,
    (CuthillMckeeOrdering_dense 4 (by decide) (by decide) 0 (-1) (by decide)).2.2.2.2.1⟩

/-- Claim C9. `ReverseCuthillMckeeOrdering` returns exactly what `CuthillMckeeOrdering`
returns for `startingRow = -1` on the same matrix, without reversing it: on the
chain of three rows it is `[0, 1, 2]`. -/
theorem ReverseCuthillMckeeOrdering_is_not_reversed (N : Nat) (cols : Nat → ColumnArray) :
    ReverseCuthillMckeeOrdering N cols = CuthillMckeeOrdering N cols (-1) ∧
    ReverseCuthillMckeeOrdering 3 (chainColumns 3) = .ok [0, 1, 2] :=
  ⟨rfl, by decide⟩


/-! ### The star pattern -/

theorem starColumns_inRange : ColumnsInRange 5 starColumns := by
  intro r hr
  interval_cases r <;> decide

theorem starColumns_duplicateFree : DuplicateFree 5 starColumns := by
  intro r hr
  interval_cases r <;> decide

theorem starColumns_symmetric : StructurallySymmetric 5 starColumns := by
  intro r c hr hc
  interval_cases r <;> interval_cases c <;> decide

theorem starColumns_connected : Connected 5 starColumns := by
  have hin : ∀ a, a < 5 → Relation.ReflTransGen (fun x y => y ∈ starColumns x) a 2 := by
    intro a ha
    apply Relation.ReflTransGen.single
    interval_cases a <;> decide
  have hout : ∀ b, b < 5 → Relation.ReflTransGen (fun x y => y ∈ starColumns x) 2 b := by
    intro b hb
    apply Relation.ReflTransGen.single
    interval_cases b <;> decide
  intro a b ha hb
  exact (hin a ha).trans (hout b hb)

/-- Claim C6. For every `N >= 1` and every enumeration, with `startingRow < 0` the
start chosen by `CuthillMckeeOrdering` is the lowest-indexed row of minimum degree:
no row of `[0, N)` has a smaller degree and every row of smaller index has a
strictly larger one.  Whenever the call completes that row is `newNumbering[0]`, and
on an in-range, duplicate-free, connected pattern the call does complete. -/
theorem CuthillMckeeOrdering_starts_at_lowest_degree (N : Nat) (hN : 1 ≤ N)
    (cols : Nat → ColumnArray) (startingRow : Int) (hneg : startingRow < 0) :
    ∃ s, chooseStartingRow N (initialRowDegree N cols) = .ok s ∧ s < N ∧
      (∀ j, j < N → readAt (initialRowDegree N cols) j = .ok (rowDegreeOf cols j)) ∧
      (∀ j, j < N → rowDegreeOf cols s ≤ rowDegreeOf cols j) ∧
      (∀ j, j < s → rowDegreeOf cols s < rowDegreeOf cols j) ∧
      (∀ newNumbering, CuthillMckeeOrdering N cols startingRow = .ok newNumbering →
        newNumbering[0]? = some s) ∧
      (ColumnsInRange N cols → DuplicateFree N cols → Connected N cols →
        ∃ newNumbering, CuthillMckeeOrdering N cols startingRow = .ok newNumbering ∧
          newNumbering[0]? = some s) := by
  have hrd : ∀ i, i < N → readAt (initialRowDegree N cols) i = .ok (rowDegreeOf cols i) :=
    fun i hi => readAt_initialRowDegree cols hi
  obtain ⟨hlt, hmin, hfirst⟩ := lowestDegreeRow_spec (rowDegreeOf cols) hN
  have hsel := chooseStartingRow_eq hrd hN
  have hstart : (if startingRow < 0 then chooseStartingRow N (initialRowDegree N cols)
      else pure startingRow.toNat) = .ok (lowestDegreeRow N (rowDegreeOf cols)) := by
    rw [if_pos hneg]
    exact hsel
  refine ⟨lowestDegreeRow N (rowDegreeOf cols), hsel, hlt, hrd, hmin, hfirst, ?_, ?_⟩
  · intro newNumbering h
    exact CuthillMckeeOrdering_first cols hN hstart h
  · intro hrange hdup hconn
    have hperm := traversalFrom_perm_range hrange hdup hlt (fun b hb => hconn _ b hlt hb)
    have hcm := CuthillMckeeOrdering_eq_traversalFrom hrange hdup hlt hstart hperm
    exact ⟨_, hcm, CuthillMckeeOrdering_first cols hN hstart hcm⟩

/-- Witness of C6: the star on five rows, whose rows 0, 1, 3 and 4 share the
minimum degree 1. -/
theorem CuthillMckeeOrdering_starts_at_lowest_degree_witness :
    (1 ≤ 5) ∧ ((-1 : Int) < 0) ∧
    ∃ s, chooseStartingRow 5 (initialRowDegree 5 starColumns) = .ok s ∧ s < 5 ∧
      (∀ j, j < 5 → readAt (initialRowDegree 5 starColumns) j = .ok (rowDegreeOf starColumns j)) ∧
      (∀ j, j < 5 → rowDegreeOf starColumns s ≤ rowDegreeOf starColumns j) ∧
      (∀ j, j < s → rowDegreeOf starColumns s < rowDegreeOf starColumns j) ∧
      (∀ newNumbering, CuthillMckeeOrdering 5 starColumns (-1) = .ok newNumbering →
        newNumbering[0]? = some s) ∧
      (ColumnsInRange 5 starColumns → DuplicateFree 5 starColumns → Connected 5 starColumns →
        ∃ newNumbering, CuthillMckeeOrdering 5 starColumns (-1) = .ok newNumbering ∧
          newNumbering[0]? = some s) :=
  ⟨by decide, by decide,
    CuthillMckeeOrdering_starts_at_lowest_degree 5 (by decide) starColumns (-1) (by decide)⟩

theorem foldl_max_le {bound : Nat} : ∀ (l : List Nat) (init : Nat), init ≤ bound →
    (∀ x ∈ l, x ≤ bound) → l.foldl max init ≤ bound := by
  intro l
  induction l with
  | nil => intro init h _; simpa using h
  | cons a l ih =>
    intro init h hl
    rw [List.foldl_cons]
    apply ih
    · exact max_le h (hl a (List.mem_cons_self _ _))
    · intro x hx
      exact hl x (List.mem_cons_of_mem _ hx)

theorem bandwidth_le_of_lt {N : Nat} {cols : Nat → ColumnArray} (hrange : ColumnsInRange N cols)
    {p : Nat → Nat} (hp : ∀ i, i < N → p i < N) : bandwidth N cols p ≤ N - 1 := by
  unfold bandwidth
  apply foldl_max_le _ _ (Nat.zero_le _)
  intro x hx
  rw [List.mem_flatMap] at hx
  obtain ⟨i, hi, hx⟩ := hx
  rw [List.mem_map] at hx
  obtain ⟨j, hj, hx⟩ := hx
  have hiN := List.mem_range.mp hi
  have h1 := hp i hiN
  have h2 := hp j (hrange i hiN j hj)
  rw [← hx]
  unfold Nat.dist
  omega

/-- Counterexample to C10 as stated: on the star with five rows, which is in range,
duplicate-free, structurally symmetric and connected, the bandwidth is 2 under the
original numbering and 3 under the numbering that `CuthillMckeeOrdering` returns. -/
theorem CuthillMckeeOrdering_can_widen_the_band :
    ColumnsInRange 5 starColumns ∧ DuplicateFree 5 starColumns ∧
    StructurallySymmetric 5 starColumns ∧ Connected 5 starColumns ∧
    CuthillMckeeOrdering 5 starColumns (-1) = .ok [0, 2, 1, 3, 4] ∧
    bandwidth 5 starColumns (fun i => i) = 2 ∧
    bandwidth 5 starColumns (fun i => [0, 2, 1, 3, 4].indexOf i) = 3 ∧
    ¬ (bandwidth 5 starColumns (fun i => [0, 2, 1, 3, 4].indexOf i)
        ≤ bandwidth 5 starColumns (fun i => i)) :=
  ⟨starColumns_inRange, starColumns_duplicateFree, starColumns_symmetric,
    starColumns_connected, by decide, by decide, by decide, by decide⟩

/-- Claim C10, amended. For every in-range, duplicate-free, structurally symmetric and
connected pattern of order `N >= 1` and every `startingRow` that is negative or in
`[0, N)`, `CuthillMckeeOrdering` returns a permutation of the rows, and the bandwidth
of the pattern under the old-to-new mapping of that numbering is at most `N - 1`. -/
theorem CuthillMckeeOrdering_bandwidth_bound (N : Nat) (cols : Nat → ColumnArray)
    (startingRow : Int) (hN : 1 ≤ N) (hrange : ColumnsInRange N cols)
    (hdup : DuplicateFree N cols) (_hsym : StructurallySymmetric N cols)
    (hconn : Connected N cols) (hstart : startingRow < 0 ∨ (0 ≤ startingRow ∧ startingRow < N)) :
    ∃ newNumbering, CuthillMckeeOrdering N cols startingRow = .ok newNumbering ∧
      newNumbering.Perm (List.range N) ∧
      bandwidth N cols (fun i => newNumbering.indexOf i) ≤ N - 1 := by
  have hrd : ∀ i, i < N → readAt (initialRowDegree N cols) i = .ok (rowDegreeOf cols i) :=
    fun i hi => readAt_initialRowDegree cols hi
  obtain ⟨s, hs, hsel⟩ : ∃ s, s < N ∧
      (if startingRow < 0 then chooseStartingRow N (initialRowDegree N cols)
        else pure startingRow.toNat) = .ok s := by
    rcases hstart with hneg | ⟨h0, hlt⟩
    · refine ⟨lowestDegreeRow N (rowDegreeOf cols), (lowestDegreeRow_spec _ hN).1, ?_⟩
      rw [if_pos hneg]
      exact chooseStartingRow_eq hrd hN
    · refine ⟨startingRow.toNat, by omega, ?_⟩
      rw [if_neg (by omega)]
      rfl
  have hperm := traversalFrom_perm_range hrange hdup hs (fun b hb => hconn s b hs hb)
  refine ⟨traversalFrom N cols s,
    CuthillMckeeOrdering_eq_traversalFrom hrange hdup hs hsel hperm, hperm, ?_⟩
  apply bandwidth_le_of_lt hrange
  intro i hi
  have hmem : i ∈ traversalFrom N cols s := hperm.mem_iff.mpr (List.mem_range.mpr hi)
  have hlen : (traversalFrom N cols s).length = N := by simpa using hperm.length_eq
  exact lt_of_lt_of_eq (List.indexOf_lt_length.mpr hmem) hlen


/-- Witness of the amended C10: the star on five rows, started from its centre. -/
theorem CuthillMckeeOrdering_bandwidth_bound_witness :
    (1 ≤ 5) ∧ ColumnsInRange 5 starColumns ∧ DuplicateFree 5 starColumns ∧
    StructurallySymmetric 5 starColumns ∧ Connected 5 starColumns ∧
    ∃ newNumbering, CuthillMckeeOrdering 5 starColumns 2 = .ok newNumbering ∧
      newNumbering.Perm (List.range 5) ∧
      bandwidth 5 starColumns (fun i => newNumbering.indexOf i) ≤ 5 - 1 :=
  ⟨by decide, starColumns_inRange, starColumns_duplicateFree, starColumns_symmetric,
    starColumns_connected,
    CuthillMckeeOrdering_bandwidth_bound 5 starColumns 2 (by decide) starColumns_inRange
      starColumns_duplicateFree starColumns_symmetric starColumns_connected
      (Or.inr ⟨by decide, by decide⟩)⟩

/-! ### The budget of passes is never exhausted -/

theorem withinBudget_ok {α : Type} (a : α) : WithinBudget (Except.ok a : Except Fault α) := by
  intro h
  cases h

theorem withinBudget_outOfRange {α : Type} :
    WithinBudget (Except.error Fault.outOfRange : Except Fault α) := by
  intro h
  cases h

theorem withinBudget_bind {α β : Type} {x : Except Fault α} {f : α → Except Fault β}
    (hx : WithinBudget x) (hf : ∀ a, x = .ok a → WithinBudget (f a)) :
    WithinBudget (x >>= f) := by
  cases x with
  | error e =>
    rw [error_bind]
    intro h
    injection h with h
    exact hx (by rw [h])
  | ok a => rw [ok_bind]; exact hf a rfl

theorem readAt_withinBudget (a : ColumnArray) (i : Nat) : WithinBudget (readAt a i) := by
  unfold readAt
  split
  · exact withinBudget_ok _
  · exact withinBudget_outOfRange

theorem writeAt_withinBudget (a : ColumnArray) (i v : Nat) : WithinBudget (writeAt a i v) := by
  unfold writeAt
  split
  · exact withinBudget_ok _
  · exact withinBudget_outOfRange

theorem bubbleInner_withinBudget (rd : ColumnArray) : ∀ (n : Nat) (xs : List Nat),
    WithinBudget (bubbleInner rd n xs) := by
  intro n
  induction n with
  | zero => intro xs; rw [bubbleInner]; exact withinBudget_ok _
  | succ n ih =>
    intro xs
    match xs with
    | [] => simp only [bubbleInner]; exact withinBudget_outOfRange
    | [a] => simp only [bubbleInner]; exact withinBudget_outOfRange
    | a :: b :: rest =>
      rw [bubbleInner]
      apply withinBudget_bind (readAt_withinBudget _ _)
      intro db _
      apply withinBudget_bind (readAt_withinBudget _ _)
      intro da _
      split
      · exact withinBudget_bind (ih _) (fun _ _ => withinBudget_ok _)
      · exact withinBudget_bind (ih _) (fun _ _ => withinBudget_ok _)

theorem bubblePasses_withinBudget (rd : ColumnArray) : ∀ (p : Nat) (xs : List Nat),
    WithinBudget (bubblePasses rd p xs) := by
  intro p
  induction p with
  | zero => intro xs; rw [bubblePasses]; exact withinBudget_ok _
  | succ p ih =>
    intro xs
    rw [bubblePasses]
    exact withinBudget_bind (bubbleInner_withinBudget _ _ _) (fun ys _ => ih ys)

theorem orderByDegree_withinBudget (rd : ColumnArray) (xs : List Nat) :
    WithinBudget (orderByDegree rd xs) := by
  unfold orderByDegree
  split
  · exact bubblePasses_withinBudget _ _ _
  · exact withinBudget_ok _

theorem assignNumbers_withinBudget : ∀ (frontier rm : List Nat) (n : Nat),
    WithinBudget (assignNumbers frontier rm n) := by
  intro frontier
  induction frontier with
  | nil => intro rm n; rw [assignNumbers]; exact withinBudget_ok _
  | cons r frontier ih =>
    intro rm n
    rw [assignNumbers]
    exact withinBudget_bind (writeAt_withinBudget _ _ _) (fun rm1 _ => ih rm1 _)

theorem removeNumbered_withinBudget (N : Nat) (rm : ColumnArray) : ∀ (cs : List Nat),
    WithinBudget (removeNumbered N rm cs) := by
  intro cs
  induction cs with
  | nil => rw [removeNumbered]; exact withinBudget_ok _
  | cons c cs ih =>
    rw [removeNumbered]
    apply withinBudget_bind (readAt_withinBudget _ _)
    intro v _
    apply withinBudget_bind ih
    intro rest _
    split <;> exact withinBudget_ok _

theorem expandFrontier_withinBudget (N : Nat) (cols : Nat → ColumnArray)
    (rd rm : ColumnArray) : ∀ (frontier bufferArray : List Nat),
    WithinBudget (expandFrontier N cols rd rm frontier bufferArray) := by
  intro frontier
  induction frontier with
  | nil => intro bufferArray; rw [expandFrontier]; exact withinBudget_ok _
  | cons r frontier ih =>
    intro bufferArray
    rw [expandFrontier]
    apply withinBudget_bind (removeNumbered_withinBudget _ _ _)
    intro rowBuffer _
    apply withinBudget_bind (orderByDegree_withinBudget _ _)
    intro sorted _
    exact ih _

/-- With a budget of at least `N - nextRowNumber` passes the loop never stops for
lack of passes, whatever the enumeration. -/
theorem followLoop_withinBudget (N : Nat) (cols : Nat → ColumnArray) (rd : ColumnArray) :
    ∀ (fuel : Nat) (frontier rm : List Nat) (n : Nat), N - n ≤ fuel →
      WithinBudget (followLoop N cols rd fuel frontier rm n) := by
  intro fuel
  induction fuel with
  | zero =>
    intro frontier rm n hfuel
    rw [followLoop, if_neg (by omega)]
    exact withinBudget_ok _
  | succ fuel ih =>
    intro frontier rm n hfuel
    rw [followLoop]
    split
    · rename_i hcond
      apply withinBudget_bind (assignNumbers_withinBudget _ _ _)
      intro pair hpair
      obtain ⟨rm1, n1⟩ := pair
      have hn1 := assignNumbers_counter _ _ _ _ _ hpair
      apply withinBudget_bind (expandFrontier_withinBudget _ _ _ _ _ _)
      intro bufferArray _
      apply ih
      have : frontier.length ≠ 0 := hcond.1
      omega
    · exact withinBudget_ok _

theorem FollowConnections_withinBudget (N : Nat) (cols : Nat → ColumnArray) (rowNumber : Nat)
    (rd rm : ColumnArray) (n : Nat) :
    WithinBudget (FollowConnectionsCuthillMckeeOrdering N cols rowNumber rd rm n) := by
  unfold FollowConnectionsCuthillMckeeOrdering
  apply withinBudget_bind (readAt_withinBudget _ _)
  intro v _
  split
  · exact withinBudget_ok _
  · apply withinBudget_bind (orderByDegree_withinBudget _ _)
    intro nextRows _
    exact followLoop_withinBudget N cols rd N nextRows rm n (by omega)

theorem invertMapping_withinBudget (rm : ColumnArray) : ∀ (rows newNumbering : List Nat),
    WithinBudget (invertMapping rm rows newNumbering) := by
  intro rows
  induction rows with
  | nil => intro newNumbering; rw [invertMapping]; exact withinBudget_ok _
  | cons i rows ih =>
    intro newNumbering
    rw [invertMapping]
    apply withinBudget_bind (readAt_withinBudget _ _)
    intro v _
    exact withinBudget_bind (writeAt_withinBudget _ _ _) (fun nn _ => ih nn)

theorem scanLowestDegree_withinBudget (rd : ColumnArray) : ∀ (rows : List Nat) (s low : Nat),
    WithinBudget (scanLowestDegree rd rows s low) := by
  intro rows
  induction rows with
  | nil => intro s low; rw [scanLowestDegree]; exact withinBudget_ok _
  | cons i rows ih =>
    intro s low
    rw [scanLowestDegree]
    apply withinBudget_bind (readAt_withinBudget _ _)
    intro d _
    split
    · exact ih _ _
    · exact ih _ _

/-- `CuthillMckeeOrdering` completes or meets an out-of-range index: the budget of
passes given to the loop is enough for every order and every enumeration. -/
theorem CuthillMckeeOrdering_withinBudget (N : Nat) (cols : Nat → ColumnArray)
    (startingRow : Int) : WithinBudget (CuthillMckeeOrdering N cols startingRow) := by
  have hrest : ∀ s, WithinBudget (do
      let reverseMapping ← writeAt (initialReverseMapping N) s 0
      let reverseMapping ← FollowConnectionsCuthillMckeeOrdering N cols s
        (initialRowDegree N cols) reverseMapping 1
      invertMapping reverseMapping (List.range N) (List.replicate N 0)) := by
    intro s
    apply withinBudget_bind (writeAt_withinBudget _ _ _)
    intro rm0 _
    apply withinBudget_bind (FollowConnections_withinBudget _ _ _ _ _ _)
    intro rm1 _
    exact invertMapping_withinBudget _ _ _
  unfold CuthillMckeeOrdering
  simp only []
  split
  · apply withinBudget_bind
    · unfold chooseStartingRow
      apply withinBudget_bind (readAt_withinBudget _ _)
      intro d _
      exact scanLowestDegree_withinBudget _ _ _ _
    · intro s _
      exact hrest s
  · exact hrest _


end CuthillMckeeProofs

/-! ## Proofs: accumulation, scaling of vectors, dense storage, special matrices -/

section AccumulationProofs

variable {σ F : Type}

/-- Claim C11. On a backend obeying the get/set laws, `AddMatrixValue`,
`AddVectorValue` and `AddSolutionValue` each leave the addressed element equal to
`value` plus its previous value, and leave alone every other element of that slot,
every other slot of that kind and every slot of the two other kinds. -/
theorem AddValue_accumulates_in_place [Zero F] [Add F] (B : LinearSystemBackend σ F)
    (h : GetSetLaws B) (s : σ) (i j index : Nat) (value : F) :
    (B.GetMatrixValue (AddMatrixValue B i j value index s) i j index
        = value + B.GetMatrixValue s i j index ∧
      (∀ i2 j2 m2, (i2, j2, m2) ≠ (i, j, index) →
        B.GetMatrixValue (AddMatrixValue B i j value index s) i2 j2 m2
          = B.GetMatrixValue s i2 j2 m2) ∧
      (∀ i2 k2, B.GetVectorValue (AddMatrixValue B i j value index s) i2 k2
        = B.GetVectorValue s i2 k2) ∧
      (∀ i2 k2, B.GetSolutionValue (AddMatrixValue B i j value index s) i2 k2
        = B.GetSolutionValue s i2 k2)) ∧
    (B.GetVectorValue (AddVectorValue B i value index s) i index
        = value + B.GetVectorValue s i index ∧
      (∀ i2 k2, (i2, k2) ≠ (i, index) →
        B.GetVectorValue (AddVectorValue B i value index s) i2 k2
          = B.GetVectorValue s i2 k2) ∧
      (∀ i2 j2 m2, B.GetMatrixValue (AddVectorValue B i value index s) i2 j2 m2
        = B.GetMatrixValue s i2 j2 m2) ∧
      (∀ i2 k2, B.GetSolutionValue (AddVectorValue B i value index s) i2 k2
        = B.GetSolutionValue s i2 k2)) ∧
    (B.GetSolutionValue (AddSolutionValue B i value index s) i index
        = value + B.GetSolutionValue s i index ∧
      (∀ i2 k2, (i2, k2) ≠ (i, index) →
        B.GetSolutionValue (AddSolutionValue B i value index s) i2 k2
          = B.GetSolutionValue s i2 k2) ∧
      (∀ i2 j2 m2, B.GetMatrixValue (AddSolutionValue B i value index s) i2 j2 m2
        = B.GetMatrixValue s i2 j2 m2) ∧
      (∀ i2 k2, B.GetVectorValue (AddSolutionValue B i value index s) i2 k2
        = B.GetVectorValue s i2 k2)) := by
  unfold AddMatrixValue AddVectorValue AddSolutionValue
  refine ⟨⟨?_, ?_, ?_, ?_⟩, ⟨?_, ?_, ?_, ?_⟩, ⟨?_, ?_, ?_, ?_⟩⟩
  · exact h.matrix_read_written _ _ _ _ _
  · intro i2 j2 m2 hne
    exact h.matrix_read_other _ _ _ _ _ _ _ _ hne
  · intro i2 k2
    exact h.matrix_write_vector _ _ _ _ _ _ _
  · intro i2 k2
    exact h.matrix_write_solution _ _ _ _ _ _ _
  · exact h.vector_read_written _ _ _ _
  · intro i2 k2 hne
    exact h.vector_read_other _ _ _ _ _ _ hne
  · intro i2 j2 m2
    exact h.vector_write_matrix _ _ _ _ _ _ _
  · intro i2 k2
    exact h.vector_write_solution _ _ _ _ _ _
  · exact h.solution_read_written _ _ _ _
  · intro i2 k2 hne
    exact h.solution_read_other _ _ _ _ _ _ hne
  · intro i2 j2 m2
    exact h.solution_write_matrix _ _ _ _ _ _ _
  · intro i2 k2
    exact h.solution_write_vector _ _ _ _ _ _

/-- Witness of C11 on the reference backend over the integers: 5 is added at
position `(1, 2)` of matrix 0, which holds `i + j` at `(i, j)`, and at index 1 of
vector 0 and of solution 0, which hold 7 and 9 everywhere. -/
theorem AddValue_accumulates_in_place_witness :
    GetSetLaws (storeBackend ℤ) ∧
    (storeBackend ℤ).GetMatrixValue
        (AddMatrixValue (storeBackend ℤ) 1 2 5 0
          ⟨fun _ i j => i + j, fun _ _ => [], fun _ _ => 7, fun _ _ => 9⟩) 1 2 0 = 5 + (1 + 2) ∧
    (storeBackend ℤ).GetVectorValue
        (AddVectorValue (storeBackend ℤ) 1 5 0
          ⟨fun _ i j => i + j, fun _ _ => [], fun _ _ => 7, fun _ _ => 9⟩) 1 0 = 5 + 7 ∧
    (storeBackend ℤ).GetSolutionValue
        (AddSolutionValue (storeBackend ℤ) 1 5 0
          ⟨fun _ i j => i + j, fun _ _ => [], fun _ _ => 7, fun _ _ => 9⟩) 1 0 = 5 + 9 :=
  ⟨storeBackend_getSetLaws ℤ,
    (AddValue_accumulates_in_place (storeBackend ℤ) (storeBackend_getSetLaws ℤ)
      ⟨fun _ i j => i + j, fun _ _ => [], fun _ _ => 7, fun _ _ => 9⟩ 1 2 0 5).1.1,
    (AddValue_accumulates_in_place (storeBackend ℤ) (storeBackend_getSetLaws ℤ)
      ⟨fun _ i j => i + j, fun _ _ => [], fun _ _ => 7, fun _ _ => 9⟩ 1 2 0 5).2.1.1,
    (AddValue_accumulates_in_place (storeBackend ℤ) (storeBackend_getSetLaws ℤ)
      ⟨fun _ i j => i + j, fun _ _ => [], fun _ _ => 7, fun _ _ => 9⟩ 1 2 0 5).2.2.1⟩

/-- Rewriting the indices of a duplicate-free list of a vector slot as `scale * old`
scales exactly those indices. -/
theorem scale_vector_indices [Zero F] [Mul F] (B : LinearSystemBackend σ F) (h : GetSetLaws B)
    (scale : F) (k : Nat) :
    ∀ (rows : List Nat) (s : σ), rows.Nodup → ∀ i,
      B.GetVectorValue
          (rows.foldl (fun s i => B.SetVectorValue s i (scale * B.GetVectorValue s i k) k) s) i k
        = if i ∈ rows then scale * B.GetVectorValue s i k else B.GetVectorValue s i k := by
  intro rows
  induction rows with
  | nil => intro s _ i; simp
  | cons r rows ih =>
    intro s hnd i
    obtain ⟨hr, hnd⟩ := List.nodup_cons.mp hnd
    rw [List.foldl_cons, ih _ hnd]
    by_cases hmem : i ∈ rows
    · have hne : (i, k) ≠ (r, k) := by
        intro he
        simp only [Prod.mk.injEq] at he
        exact hr (he.1 ▸ hmem)
      simp [hmem, h.vector_read_other _ _ _ _ _ _ hne]
    · by_cases hir : i = r
      · subst hir
        simp [hmem, h.vector_read_written]
      · have hne : (i, k) ≠ (r, k) := by
          intro he
          simp only [Prod.mk.injEq] at he
          exact hir he.1
        simp [hmem, hir, h.vector_read_other _ _ _ _ _ _ hne]

/-- Rewriting the indices of a duplicate-free list of a solution slot as
`scale * old` scales exactly those indices. -/
theorem scale_solution_indices [Zero F] [Mul F] (B : LinearSystemBackend σ F)
    (h : GetSetLaws B) (scale : F) (k : Nat) :
    ∀ (rows : List Nat) (s : σ), rows.Nodup → ∀ i,
      B.GetSolutionValue
          (rows.foldl (fun s i =>
            B.SetSolutionValue s i (scale * B.GetSolutionValue s i k) k) s) i k
        = if i ∈ rows then scale * B.GetSolutionValue s i k else B.GetSolutionValue s i k := by
  intro rows
  induction rows with
  | nil => intro s _ i; simp
  | cons r rows ih =>
    intro s hnd i
    obtain ⟨hr, hnd⟩ := List.nodup_cons.mp hnd
    rw [List.foldl_cons, ih _ hnd]
    by_cases hmem : i ∈ rows
    · have hne : (i, k) ≠ (r, k) := by
        intro he
        simp only [Prod.mk.injEq] at he
        exact hr (he.1 ▸ hmem)
      simp [hmem, h.solution_read_other _ _ _ _ _ _ hne]
    · by_cases hir : i = r
      · subst hir
        simp [hmem, h.solution_read_written]
      · have hne : (i, k) ≠ (r, k) := by
          intro he
          simp only [Prod.mk.injEq] at he
          exact hir he.1
        simp [hmem, hir, h.solution_read_other _ _ _ _ _ _ hne]

/-- Claim C12. For every scale different from 1, on a backend obeying the get/set
laws, after `ScaleVector` every index `i` of `[0, N)` of the vector slot holds
`scale` times the value it held before, and after `ScaleSolution` every index `i`
of `[0, N)` of the solution slot does. -/
theorem ScaleVector_ScaleSolution_scale_each_index [Zero F] [Mul F] [One F] [DecidableEq F]
    (B : LinearSystemBackend σ F) (h : GetSetLaws B) (N : Nat) (scale : F) (hs : scale ≠ 1)
    (index : Nat) (s : σ) :
    (∀ i, i < N → B.GetVectorValue (ScaleVector B N scale index s) i index
      = scale * B.GetVectorValue s i index) ∧
    (∀ i, i < N → B.GetSolutionValue (ScaleSolution B N scale index s) i index
      = scale * B.GetSolutionValue s i index) := by
  unfold ScaleVector ScaleSolution
  rw [if_neg hs, if_neg hs]
  constructor
  · intro i hi
    rw [scale_vector_indices B h scale index _ s (List.nodup_range N),
      if_pos (List.mem_range.mpr hi)]
  · intro i hi
    rw [scale_solution_indices B h scale index _ s (List.nodup_range N),
      if_pos (List.mem_range.mpr hi)]

/-- Witness of C12 on the reference backend over the integers, with scale 3 and
`N = 2`: vector 0 holds `i + 4` and solution 0 holds `i + 6` at index `i`. -/
theorem ScaleVector_ScaleSolution_scale_each_index_witness :
    GetSetLaws (storeBackend ℤ) ∧ (3 : ℤ) ≠ 1 ∧
    (∀ i, i < 2 → (storeBackend ℤ).GetVectorValue
        (ScaleVector (storeBackend ℤ) 2 3 0
          ⟨0, fun _ _ => [], fun _ i => i + 4, fun _ i => i + 6⟩) i 0 = 3 * (i + 4)) ∧
    (∀ i, i < 2 → (storeBackend ℤ).GetSolutionValue
        (ScaleSolution (storeBackend ℤ) 2 3 0
          ⟨0, fun _ _ => [], fun _ i => i + 4, fun _ i => i + 6⟩) i 0 = 3 * (i + 6)) :=
  ⟨storeBackend_getSetLaws ℤ, by decide,
    ScaleVector_ScaleSolution_scale_each_index (storeBackend ℤ) (storeBackend_getSetLaws ℤ) 2 3
      (by decide) 0 ⟨0, fun _ _ => [], fun _ i => i + 4, fun _ i => i + 6⟩⟩

end AccumulationProofs


section DenseStorageProofs

variable {σ F : Type}

/-- Claim C13. The default `GetColumnsOfNonZeroMatrixElementsInRow` returns
`[0, 1, ..., N-1]` for every row and every matrix index: the array has length `N`,
holds every column of `[0, N)` exactly once, is in strictly ascending order, and is
the same for any other row and matrix index (the function reads no stored value). -/
theorem GetColumnsOfNonZeroMatrixElementsInRow_default_is_dense (N row matrixIndex : Nat) :
    GetColumnsOfNonZeroMatrixElementsInRow N row matrixIndex = List.range N ∧
    (GetColumnsOfNonZeroMatrixElementsInRow N row matrixIndex).length = N ∧
    (∀ c, c < N → (GetColumnsOfNonZeroMatrixElementsInRow N row matrixIndex).count c = 1) ∧
    (∀ c, c ∈ GetColumnsOfNonZeroMatrixElementsInRow N row matrixIndex → c < N) ∧
    (GetColumnsOfNonZeroMatrixElementsInRow N row matrixIndex).Sorted (fun a b => a < b) ∧
    (∀ row2 matrixIndex2, GetColumnsOfNonZeroMatrixElementsInRow N row2 matrixIndex2
      = GetColumnsOfNonZeroMatrixElementsInRow N row matrixIndex) := by
  have heq := GetColumnsOfNonZeroMatrixElementsInRow_eq_range N row matrixIndex
  refine ⟨heq, ?_, ?_, ?_, ?_, ?_⟩
  · rw [heq, List.length_range]
  · intro c hc
    rw [heq]
    exact List.count_eq_one_of_mem (List.nodup_range N) (List.mem_range.mpr hc)
  · intro c hc
    rw [heq] at hc
    exact List.mem_range.mp hc
  · rw [heq]
    exact List.sorted_lt_range N
  · intro row2 matrixIndex2
    rw [heq, GetColumnsOfNonZeroMatrixElementsInRow_eq_range]

/-- The value that `OptimizeMatrixStorage` leaves at a position of slot `m`: the
original value where the position is enumerated, that of a freshly initialised
slot elsewhere. -/
theorem OptimizeMatrixStorage_value [Zero F] (B : LinearSystemBackend σ F)
    (hg : GetSetLaws B) (hs : StorageLaws B) (N m t : Nat) (hne : m ≠ t) (s : σ) (i j : Nat) :
    B.GetMatrixValue (OptimizeMatrixStorage B N m t s) i j m
      = if i ∈ List.range N ∧ j ∈ B.GetColumnsOfNonZeroMatrixElementsInRow s i m
        then B.GetMatrixValue s i j m
        else B.GetMatrixValue (B.InitializeMatrix (B.SwapMatrices s m t) m) i j m := by
  unfold OptimizeMatrixStorage
  obtain ⟨_, _, hM⟩ := copy_rows B hg hs m t hne (List.range N)
    (B.InitializeMatrix (B.SwapMatrices s m t) m)
  rw [hs.destroy_other _ _ _ _ _ hne, hM,
    hs.fresh_matrix_other_columns _ _ _ _ (Ne.symm hne), hs.swap_second_columns,
    hs.fresh_matrix_other _ _ _ _ _ (Ne.symm hne), hs.swap_second]

/-- Claim C14. With the default (dense) enumeration for the rows of `matrixIndex`
and distinct `matrixIndex` and `tempMatrixIndex`, on a backend obeying the get/set
and storage laws, `OptimizeMatrixStorage` leaves the matrix unchanged: every
position of `[0, N) x [0, N)` of `matrixIndex` holds after the call the value it
held before. -/
theorem OptimizeMatrixStorage_dense_unchanged [Zero F] (B : LinearSystemBackend σ F)
    (hg : GetSetLaws B) (hs : StorageLaws B) (N matrixIndex tempMatrixIndex : Nat)
    (hne : matrixIndex ≠ tempMatrixIndex) (s : σ)
    (hdense : ∀ row, row < N → B.GetColumnsOfNonZeroMatrixElementsInRow s row matrixIndex
      = GetColumnsOfNonZeroMatrixElementsInRow N row matrixIndex)
    (i j : Nat) (hi : i < N) (hj : j < N) :
    B.GetMatrixValue (OptimizeMatrixStorage B N matrixIndex tempMatrixIndex s) i j matrixIndex
      = B.GetMatrixValue s i j matrixIndex := by
  rw [OptimizeMatrixStorage_value B hg hs N matrixIndex tempMatrixIndex hne s i j, if_pos]
  refine ⟨List.mem_range.mpr hi, ?_⟩
  rw [hdense i hi, GetColumnsOfNonZeroMatrixElementsInRow_eq_range]
  exact List.mem_range.mpr hj

/-- Witness of C14 on the reference backend over the integers: every slot keeps the
default enumeration for `N = 2`, and slot 0 holds `2 i + j + 1` at `(i, j)`. -/
theorem OptimizeMatrixStorage_dense_unchanged_witness :
    GetSetLaws (storeBackend ℤ) ∧ StorageLaws (storeBackend ℤ) ∧ (0 : Nat) ≠ 1 ∧
    (∀ row, row < 2 → (storeBackend ℤ).GetColumnsOfNonZeroMatrixElementsInRow
        ⟨fun _ i j => 2 * i + j + 1,
          fun m row => GetColumnsOfNonZeroMatrixElementsInRow 2 row m, 0, 0⟩ row 0
      = GetColumnsOfNonZeroMatrixElementsInRow 2 row 0) ∧
    (storeBackend ℤ).GetMatrixValue
        (OptimizeMatrixStorage (storeBackend ℤ) 2 0 1
          ⟨fun _ i j => 2 * i + j + 1,
            fun m row => GetColumnsOfNonZeroMatrixElementsInRow 2 row m, 0, 0⟩) 1 0 0
      = 2 * 1 + 0 + 1 :=
  ⟨storeBackend_getSetLaws ℤ, storeBackend_storageLaws ℤ, by decide, fun _ _ => rfl,
    OptimizeMatrixStorage_dense_unchanged (storeBackend ℤ) (storeBackend_getSetLaws ℤ)
      (storeBackend_storageLaws ℤ) 2 0 1 (by decide)
      ⟨fun _ i j => 2 * i + j + 1,
        fun m row => GetColumnsOfNonZeroMatrixElementsInRow 2 row m, 0, 0⟩
      (fun _ _ => rfl) 1 0 (by decide) (by decide)⟩

end DenseStorageProofs

section SpecialMatrixProofs

variable {σ F : Type}

/-- Claim C15. For every `N`, on a backend obeying the get/set laws with scalars
in a semiring, when the matrix slot holds the identity matrix (1 on the diagonal,
0 elsewhere) `MultiplyMatrixVector` into a result slot distinct from the input slot
yields `result[i] = v[i]` for every `i` of `[0, N)`, `v` being the input vector. -/
theorem MultiplyMatrixVector_identity [Semiring F] (B : LinearSystemBackend σ F)
    (h : GetSetLaws B) (N resultVector matrixIndex vectorIndex : Nat)
    (hne : resultVector ≠ vectorIndex) (s : σ)
    (hid : ∀ i j, i < N → j < N →
      B.GetMatrixValue s i j matrixIndex = if i = j then 1 else 0)
    (i : Nat) (hi : i < N) :
    B.GetVectorValue (MultiplyMatrixVector B N resultVector matrixIndex vectorIndex s) i
        resultVector
      = B.GetVectorValue s i vectorIndex := by
  rw [MultiplyMatrixVector_accumulates B h N resultVector matrixIndex vectorIndex hne s i hi,
    foldl_accumulate_eq_sum]
  rw [Finset.sum_congr rfl (fun j hj => by rw [hid i j hi (Finset.mem_range.mp hj)])]
  simp only [ite_mul, one_mul, zero_mul]
  rw [Finset.sum_ite_eq, if_pos (Finset.mem_range.mpr hi)]

/-- Witness of C15 on the reference backend over the integers, with `N = 3`, the
identity in matrix 0, the vector `(4, 5, 6)` in slot 0 and the result in slot 1. -/
theorem MultiplyMatrixVector_identity_witness :
    GetSetLaws (storeBackend ℤ) ∧ (1 : Nat) ≠ 0 ∧
    (∀ i j, i < 3 → j < 3 → (storeBackend ℤ).GetMatrixValue
        ⟨fun _ i j => if i = j then 1 else 0, fun _ _ => [], fun _ i => i + 4, 0⟩ i j 0
      = if i = j then 1 else 0) ∧
    (storeBackend ℤ).GetVectorValue
        (MultiplyMatrixVector (storeBackend ℤ) 3 1 0 0
          ⟨fun _ i j => if i = j then 1 else 0, fun _ _ => [], fun _ i => i + 4, 0⟩) 2 1
      = 2 + 4 :=
  ⟨storeBackend_getSetLaws ℤ, by decide, fun _ _ _ _ => rfl,
    MultiplyMatrixVector_identity (storeBackend ℤ) (storeBackend_getSetLaws ℤ) 3 1 0 0
      (by decide) ⟨fun _ i j => if i = j then 1 else 0, fun _ _ => [], fun _ i => i + 4, 0⟩
      (fun _ _ _ _ => rfl) 2 (by decide)⟩

/-- While the matrix slot is zero on `[0, N) x [0, N)` and the result slot is zero,
the accumulation steps of `MultiplyMatrixVector` keep both so, whether or not the
result slot is the input slot. -/
theorem multiply_zero_steps [Semiring F] (B : LinearSystemBackend σ F) (h : GetSetLaws B)
    (N r m v : Nat) :
    ∀ (ps : List (Nat × Nat)) (s : σ), (∀ p ∈ ps, p.1 < N ∧ p.2 < N) →
      (∀ i j, i < N → j < N → B.GetMatrixValue s i j m = 0) →
      (∀ i, B.GetVectorValue s i r = 0) →
      ∀ i, B.GetVectorValue (ps.foldl (fun s p => AddVectorValue B p.1
        (B.GetMatrixValue s p.1 p.2 m * B.GetVectorValue s p.2 v) r s) s) i r = 0 := by
  intro ps
  induction ps with
  | nil => intro s _ _ hz i; exact hz i
  | cons p ps ih =>
    intro s hp hm hz i
    rw [List.foldl_cons]
    obtain ⟨hp1, hp2⟩ := hp p (List.mem_cons_self _ _)
    apply ih _ (fun q hq => hp q (List.mem_cons_of_mem _ hq))
    · intro i2 j2 hi2 hj2
      unfold AddVectorValue
      rw [h.vector_write_matrix]
      exact hm i2 j2 hi2 hj2
    · intro i2
      unfold AddVectorValue
      by_cases hpos : (i2, r) = (p.1, r)
      · simp only [Prod.mk.injEq, and_true] at hpos
        subst hpos
        rw [h.vector_read_written, hm _ _ hp1 hp2, hz, zero_mul, add_zero]
      · rw [h.vector_read_other _ _ _ _ _ _ hpos]
        exact hz i2

/-- Claim C16. For every `N` and every input vector, on a backend obeying the
get/set laws with scalars in a semiring, when the matrix slot is zero on
`[0, N) x [0, N)` `MultiplyMatrixVector` yields `result[i] = 0` for every `i` of
`[0, N)`, whichever result slot is used. -/
theorem MultiplyMatrixVector_zero_matrix [Semiring F] (B : LinearSystemBackend σ F)
    (h : GetSetLaws B) (N resultVector matrixIndex vectorIndex : Nat) (s : σ)
    (hzero : ∀ i j, i < N → j < N → B.GetMatrixValue s i j matrixIndex = 0)
    (i : Nat) (_hi : i < N) :
    B.GetVectorValue (MultiplyMatrixVector B N resultVector matrixIndex vectorIndex s) i
        resultVector = 0 := by
  unfold MultiplyMatrixVector
  rw [foldl_nested_eq_foldl_product (fun s i j => AddVectorValue B i
    (B.GetMatrixValue s i j matrixIndex * B.GetVectorValue s j vectorIndex) resultVector s)]
  apply multiply_zero_steps B h N resultVector matrixIndex vectorIndex
  · intro p hp
    rw [List.mem_product] at hp
    exact ⟨List.mem_range.mp hp.1, List.mem_range.mp hp.2⟩
  · intro i2 j2 hi2 hj2
    rw [h.fresh_vector_matrix]
    exact hzero i2 j2 hi2 hj2
  · intro i2
    exact h.fresh_vector_zero _ _ _

/-- Witness of C16 on the reference backend over the integers, with `N = 2`, matrix 0
zero, the input vector `(4, 5)` in slot 0 and the result written to slot 1, which
held 9 everywhere. -/
theorem MultiplyMatrixVector_zero_matrix_witness :
    GetSetLaws (storeBackend ℤ) ∧
    (∀ i j, i < 2 → j < 2 → (storeBackend ℤ).GetMatrixValue
        ⟨0, fun _ _ => [], fun k i => if k = 0 then i + 4 else 9, 0⟩ i j 0 = 0) ∧
    (storeBackend ℤ).GetVectorValue
        (MultiplyMatrixVector (storeBackend ℤ) 2 1 0 0
          ⟨0, fun _ _ => [], fun k i => if k = 0 then i + 4 else 9, 0⟩) 1 1 = 0 :=
  ⟨storeBackend_getSetLaws ℤ, fun _ _ _ _ => rfl,
    MultiplyMatrixVector_zero_matrix (storeBackend ℤ) (storeBackend_getSetLaws ℤ) 2 1 0 0
      ⟨0, fun _ _ => [], fun k i => if k = 0 then i + 4 else 9, 0⟩
      (fun _ _ _ _ => rfl) 1 (by decide)⟩

end SpecialMatrixProofs


/-! ## Proofs: the order by degree is a stable sort -/

section StableSortProofs

/-- An inner loop of the sort exchanges only neighbours of different degrees, so
the rows of any one degree keep their order. -/
theorem sortInner_filter (deg : Nat → Nat) (d : Nat) : ∀ (n : Nat) (xs : List Nat),
    (sortInner deg n xs).filter (fun x => deg x = d) = xs.filter (fun x => deg x = d) := by
  intro n
  induction n with
  | zero => intro xs; simp [sortInner]
  | succ n ih =>
    intro xs
    match xs with
    | [] => simp [sortInner]
    | [a] => simp [sortInner]
    | a :: b :: rest =>
      simp only [sortInner]
      split
      · rename_i hlt
        have hne : deg a ≠ deg b := by omega
        rw [List.filter_cons, ih (a :: rest)]
        by_cases ha : deg a = d
        · have hb : ¬ deg b = d := fun hb => hne (ha.trans hb.symm)
          simp [List.filter_cons, ha, hb]
        · simp [List.filter_cons, ha]
      · rw [List.filter_cons, ih (b :: rest)]
        conv_rhs => rw [List.filter_cons]

theorem sortPasses_filter (deg : Nat → Nat) (d : Nat) : ∀ (p : Nat) (xs : List Nat),
    (sortPasses deg p xs).filter (fun x => deg x = d) = xs.filter (fun x => deg x = d) := by
  intro p
  induction p with
  | zero => intro xs; simp [sortPasses]
  | succ p ih =>
    intro xs
    simp only [sortPasses]
    rw [ih, sortInner_filter]

theorem sortByDegree_filter (deg : Nat → Nat) (d : Nat) (xs : List Nat) :
    (sortByDegree deg xs).filter (fun x => deg x = d) = xs.filter (fun x => deg x = d) := by
  unfold sortByDegree
  split
  · exact sortPasses_filter deg d _ xs
  · rfl

/-- An inner loop of `n` comparisons carries a row of highest degree among the first
`n + 1` to position `n` and leaves the rows after that position where they are. -/
theorem sortInner_bubbles (deg : Nat → Nat) : ∀ (n a : Nat) (rest : List Nat),
    n ≤ rest.length →
    ∃ init m, sortInner deg n (a :: rest) = init ++ m :: rest.drop n ∧
      (init ++ [m]).Perm (a :: rest.take n) ∧ ∀ x ∈ init, deg x ≤ deg m := by
  intro n
  induction n with
  | zero =>
    intro a rest _
    exact ⟨[], a, by simp [sortInner], by simp, by simp⟩
  | succ n ih =>
    intro a rest hn
    match rest with
    | [] => simp at hn
    | b :: rest2 =>
      have hn2 : n ≤ rest2.length := by simpa using hn
      simp only [sortInner]
      split
      · rename_i hlt
        obtain ⟨init, m, heq, hperm, hle⟩ := ih a rest2 hn2
        refine ⟨b :: init, m, ?_, ?_, ?_⟩
        · rw [heq]
          simp
        · simp only [List.cons_append, List.take_succ_cons]
          exact (hperm.cons b).trans (List.Perm.swap a b _)
        · intro x hx
          have ham : deg a ≤ deg m := by
            have hmem : a ∈ init ++ [m] := hperm.mem_iff.mpr (List.mem_cons_self _ _)
            rcases List.mem_append.mp hmem with h1 | h1
            · exact hle a h1
            · rw [List.mem_singleton.mp h1]
          rcases List.mem_cons.mp hx with h1 | h1
          · rw [h1]; omega
          · exact hle x h1
      · rename_i hge
        obtain ⟨init, m, heq, hperm, hle⟩ := ih b rest2 hn2
        refine ⟨a :: init, m, ?_, ?_, ?_⟩
        · rw [heq]
          simp
        · simp only [List.cons_append, List.take_succ_cons]
          exact hperm.cons a
        · intro x hx
          have hbm : deg b ≤ deg m := by
            have hmem : b ∈ init ++ [m] := hperm.mem_iff.mpr (List.mem_cons_self _ _)
            rcases List.mem_append.mp hmem with h1 | h1
            · exact hle b h1
            · rw [List.mem_singleton.mp h1]
          rcases List.mem_cons.mp hx with h1 | h1
          · rw [h1]; omega
          · exact hle x h1

/-- The passes of the sort, started with `c` comparisons on a list whose rows after
position `c` are in order and of degree at least that of every earlier row, end
with the whole list in order. -/
theorem sortPasses_sorted (deg : Nat → Nat) : ∀ (c : Nat) (xs : List Nat),
    c + 1 ≤ xs.length →
    (xs.drop (c + 1)).Sorted (fun a b => deg a ≤ deg b) →
    (∀ x ∈ xs.take (c + 1), ∀ y ∈ xs.drop (c + 1), deg x ≤ deg y) →
    (sortPasses deg c xs).Sorted (fun a b => deg a ≤ deg b) := by
  intro c
  induction c with
  | zero =>
    intro xs hlen hs hle
    match xs with
    | [] => simp at hlen
    | a :: t =>
      simp only [sortPasses]
      rw [List.sorted_cons]
      exact ⟨fun y hy => hle a (by simp) y (by simpa using hy), by simpa using hs⟩
  | succ c ih =>
    intro xs hlen hs hle
    match xs with
    | [] => simp at hlen
    | a :: rest =>
      have hc : c + 1 ≤ rest.length := by simpa using hlen
      obtain ⟨init, m, heq, hperm, hinit⟩ := sortInner_bubbles deg (c + 1) a rest hc
      have hil : init.length = c + 1 := by
        have := hperm.length_eq
        rw [List.length_append, List.length_cons, List.length_cons, List.length_nil,
          List.length_take, Nat.min_eq_left hc] at this
        omega
      have hmem_take : ∀ x ∈ init ++ [m], x ∈ (a :: rest).take (c + 1 + 1) := by
        intro x hx
        rw [List.take_succ_cons]
        exact hperm.mem_iff.mp hx
      have hdrop : (a :: rest).drop (c + 1 + 1) = rest.drop (c + 1) := by
        rw [List.drop_succ_cons]
      rw [hdrop] at hs hle
      simp only [sortPasses]
      rw [heq]
      apply ih
      · simp only [List.length_append, List.length_cons, hil]
        omega
      · rw [List.drop_left' hil, List.sorted_cons]
        exact ⟨fun y hy => hle m (hmem_take m (by simp)) y hy, hs⟩
      · rw [List.take_left' hil, List.drop_left' hil]
        intro x hx y hy
        rcases List.mem_cons.mp hy with h1 | h1
        · rw [h1]
          exact hinit x hx
        · exact hle x (hmem_take x (List.mem_append_left _ hx)) y h1

theorem sortByDegree_sorted (deg : Nat → Nat) (xs : List Nat) :
    (sortByDegree deg xs).Sorted (fun a b => deg a ≤ deg b) := by
  unfold sortByDegree
  split
  · rename_i hlen
    apply sortPasses_sorted
    · omega
    · rw [show xs.length - 1 + 1 = xs.length by omega, List.drop_length]
      exact List.sorted_nil
    · rw [show xs.length - 1 + 1 = xs.length by omega, List.drop_length]
      intro x _ y hy
      simp at hy
  · match xs with
    | [] => exact List.sorted_nil
    | [a] => exact List.sorted_singleton a
    | a :: b :: rest => rename_i hlen; simp at hlen

end StableSortProofs


/-! ## Proofs: order by degree, degrees, explicit start -/

section SortDegreeClaims

theorem readAt_getD {rowDegree : ColumnArray} {i : Nat} (hi : i < rowDegree.length) :
    readAt rowDegree i = .ok (rowDegree.getD i 0) := by
  apply readAt_of_getElem?
  rw [List.getD_eq_getElem?_getD, List.getElem?_eq_getElem hi]
  rfl

/-- Claim C17. The block `order by degree`, applied to a list of rows of the matrix,
is a stable ascending sort by degree: it completes, its output is a permutation of
its input, the degrees never decrease along the output, and for every degree `d`
the rows of degree `d` come in the output in the order they had in the input. -/
theorem orderByDegree_is_stable_sort (rowDegree : ColumnArray) (xs : ColumnArray)
    (hx : ∀ x ∈ xs, x < rowDegree.length) :
    ∃ ys, orderByDegree rowDegree xs = .ok ys ∧ ys.Perm xs ∧
      ys.Sorted (fun a b => rowDegree.getD a 0 ≤ rowDegree.getD b 0) ∧
      ∀ d, ys.filter (fun x => rowDegree.getD x 0 = d)
        = xs.filter (fun x => rowDegree.getD x 0 = d) := by
  have hrd : ∀ i, i < rowDegree.length → readAt rowDegree i = .ok (rowDegree.getD i 0) :=
    fun i hi => readAt_getD hi
  exact ⟨sortByDegree (fun i => rowDegree.getD i 0) xs,
    orderByDegree_eq_sortByDegree hrd xs hx,
    sortByDegree_perm _ xs, sortByDegree_sorted _ xs, fun d => sortByDegree_filter _ d xs⟩

/-- Witness of C17: the rows `0, 1, 2, 3` with degrees `2, 1, 1, 0`. -/
theorem orderByDegree_is_stable_sort_witness :
    (∀ x ∈ [0, 1, 2, 3], x < [2, 1, 1, 0].length) ∧
    orderByDegree [2, 1, 1, 0] [0, 1, 2, 3] = .ok [3, 1, 2, 0] ∧
    ∃ ys, orderByDegree [2, 1, 1, 0] [0, 1, 2, 3] = .ok ys ∧ ys.Perm [0, 1, 2, 3] ∧
      ys.Sorted (fun a b => [2, 1, 1, 0].getD a 0 ≤ [2, 1, 1, 0].getD b 0) ∧
      ∀ d, ys.filter (fun x => [2, 1, 1, 0].getD x 0 = d)
        = [0, 1, 2, 3].filter (fun x => [2, 1, 1, 0].getD x 0 = d) :=
  ⟨by decide, by decide, orderByDegree_is_stable_sort [2, 1, 1, 0] [0, 1, 2, 3] (by decide)⟩

/-- Claim C18. For every row of `[0, N)` whose enumeration returns `k >= 1` columns,
`k` being at most `2 ^ 32`, the degree that `CuthillMckeeOrdering` stores for that
row is `k - 1`. -/
theorem rowDegree_is_count_minus_one (N : Nat) (cols : Nat → ColumnArray) (i : Nat)
    (hi : i < N) (hk : 1 ≤ (cols i).length) (hword : (cols i).length ≤ 2 ^ 32) :
    readAt (initialRowDegree N cols) i = .ok ((cols i).length - 1) := by
  rw [readAt_initialRowDegree cols hi]
  unfold rowDegreeOf
  rw [decrementUnsigned_of_pos hk hword]

/-- Witness of C18: the middle row of the chain on three rows enumerates three
columns and has degree 2. -/
theorem rowDegree_is_count_minus_one_witness :
    (1 < 3) ∧ (1 ≤ (chainColumns 3 1).length) ∧ ((chainColumns 3 1).length ≤ 2 ^ 32) ∧
    readAt (initialRowDegree 3 (chainColumns 3)) 1 = .ok 2 :=
  ⟨by decide, by decide, by decide,
    rowDegree_is_count_minus_one 3 (chainColumns 3) 1 (by decide) (by decide) (by decide)⟩

/-- Claim C19. For every in-range, duplicate-free, structurally symmetric and
connected pattern and every explicit `startingRow` with `0 <= startingRow < N`,
`CuthillMckeeOrdering` returns an array whose entry 0 is the starting row. -/
theorem CuthillMckeeOrdering_explicit_start_is_first (N : Nat) (cols : Nat → ColumnArray)
    (startingRow : Int) (hrange : ColumnsInRange N cols) (hdup : DuplicateFree N cols)
    (_hsym : StructurallySymmetric N cols) (hconn : Connected N cols)
    (h0 : 0 ≤ startingRow) (hlt : startingRow < N) :
    ∃ newNumbering, CuthillMckeeOrdering N cols startingRow = .ok newNumbering ∧
      newNumbering[0]? = some startingRow.toNat := by
  have hs : startingRow.toNat < N := by omega
  have hstart : (if startingRow < 0 then chooseStartingRow N (initialRowDegree N cols)
      else pure startingRow.toNat) = .ok startingRow.toNat := by
    rw [if_neg (by omega)]
    rfl
  have hperm := traversalFrom_perm_range hrange hdup hs (fun b hb => hconn _ b hs hb)
  have hcm := CuthillMckeeOrdering_eq_traversalFrom hrange hdup hs hstart hperm
  exact ⟨_, hcm, CuthillMckeeOrdering_first cols (by omega) hstart hcm⟩

/-- Witness of C19: the star on five rows started from row 3. -/
theorem CuthillMckeeOrdering_explicit_start_is_first_witness :
    ColumnsInRange 5 starColumns ∧ DuplicateFree 5 starColumns ∧
    StructurallySymmetric 5 starColumns ∧ Connected 5 starColumns ∧
    ((0 : Int) ≤ 3) ∧ ((3 : Int) < (5 : Nat)) ∧
    CuthillMckeeOrdering 5 starColumns 3 = .ok [3, 2, 0, 1, 4] ∧
    ∃ newNumbering, CuthillMckeeOrdering 5 starColumns 3 = .ok newNumbering ∧
      newNumbering[0]? = some (3 : Int).toNat :=
  ⟨starColumns_inRange, starColumns_duplicateFree, starColumns_symmetric,
    starColumns_connected, by decide, by decide, by decide,
    CuthillMckeeOrdering_explicit_start_is_first 5 starColumns 3 starColumns_inRange
      starColumns_duplicateFree starColumns_symmetric starColumns_connected
      (by decide) (by decide)⟩

end SortDegreeClaims


/-! ## Proofs: errors of the linear system -/

section ErrorProofs

theorem digitChar_ne_nul (k : Nat) (hk : k < 10) : Nat.digitChar k ≠ nul := by
  interval_cases k <;> decide

theorem toDigitsCore_ne_nul : ∀ (fuel n : Nat) (ds : List Char), (∀ c ∈ ds, c ≠ nul) →
    ∀ c ∈ Nat.toDigitsCore 10 fuel n ds, c ≠ nul := by
  intro fuel
  induction fuel with
  | zero => intro n ds h; simpa [Nat.toDigitsCore] using h
  | succ fuel ih =>
    intro n ds h
    have hds : ∀ c ∈ Nat.digitChar (n % 10) :: ds, c ≠ nul := by
      intro c hc
      rcases List.mem_cons.mp hc with h1 | h1
      · rw [h1]
        exact digitChar_ne_nul _ (Nat.mod_lt _ (by decide))
      · exact h c h1
    rw [Nat.toDigitsCore]
    split
    · exact hds
    · exact ih _ _ hds

/-- The decimal text of a number holds no `\0`. -/
theorem toString_ne_nul (n : Nat) : ∀ c ∈ (toString n).data, c ≠ nul := by
  show ∀ c ∈ (Nat.repr n).data, c ≠ nul
  unfold Nat.repr Nat.toDigits
  exact toDigitsCore_ne_nul _ _ _ (by simp)

theorem takeWhile_before_nul : ∀ (l rest : List Char), (∀ c ∈ l, c ≠ nul) →
    (l ++ nul :: rest).takeWhile (fun c => c ≠ nul) = l := by
  intro l
  induction l with
  | nil => intro rest _; simp [List.takeWhile]
  | cons a l ih =>
    intro rest h
    have ha : a ≠ nul := h a (List.mem_cons_self _ _)
    rw [List.cons_append, List.takeWhile_cons]
    simp only [ha, ne_eq, not_false_eq_true, decide_True, if_true]
    rw [ih rest (fun c hc => h c (List.mem_cons_of_mem _ hc))]

/-- A text without `\0`, ended by `\0` and read back as a `char*`, is that text. -/
theorem cString_terminated (s : String) (h : ∀ c ∈ s.data, c ≠ nul) :
    cString (s ++ String.singleton nul) = s := by
  unfold cString
  apply String.ext
  simp only [String.data_append]
  exact takeWhile_before_nul s.data [] h

/-- Counterexample to C20 as stated: for the field description made of `m`, `\0`
and `x`, and the index 3, the description of the error is `Index of m`, which is
not the text that the claim gives and does not hold the index. -/
theorem FEMExceptionLinearSystemBounds_description_stops_at_nul :
    (FEMExceptionLinearSystemBounds.oneIndex "Unknown" "itkFEMLinearSystemWrapperVNL.h" 10
        "SetMatrixValue()" (String.mk ['m', nul, 'x']) 3).description = "Index of m" ∧
    (FEMExceptionLinearSystemBounds.oneIndex "Unknown" "itkFEMLinearSystemWrapperVNL.h" 10
        "SetMatrixValue()" (String.mk ['m', nul, 'x']) 3).description
      ≠ "Index of " ++ String.mk ['m', nul, 'x'] ++ " out of bounds (" ++ toString 3 ++ ")" := by
  constructor <;> decide

/-- Claim C20, amended. For every field description `d` that holds no `\0` and every
index `n`, the description of the one-index `LinearSystemBounds` error is exactly
`"Index of " + d + " out of bounds (" + decimal(n) + ")"`, whatever the file, the
line and the location. -/
theorem FEMExceptionLinearSystemBounds_description (defaultLocation file : String)
    (lineNumber : Nat) (location d : String) (n : Nat) (hd : ∀ c ∈ d.data, c ≠ nul) :
    (FEMExceptionLinearSystemBounds.oneIndex defaultLocation file lineNumber location d
        n).description
      = "Index of " ++ d ++ " out of bounds (" ++ toString n ++ ")" := by
  unfold FEMExceptionLinearSystemBounds.oneIndex ExceptionObject.SetDescription
  simp only []
  apply cString_terminated
  intro c hc
  simp only [String.data_append, List.mem_append] at hc
  rcases hc with (((hc | hc) | hc) | hc) | hc
  · revert c
    decide
  · exact hd c hc
  · revert c
    decide
  · exact toString_ne_nul n c hc
  · revert c
    decide

/-- Witness of the amended C20: the field description `matrix` and the index 4, the
order of a system whose valid indices are `0, ..., 3`. -/
theorem FEMExceptionLinearSystemBounds_description_witness :
    (∀ c ∈ "matrix".data, c ≠ nul) ∧
    (FEMExceptionLinearSystemBounds.oneIndex "Unknown" "itkFEMLinearSystemWrapperVNL.h" 10
        "SetMatrixValue()" "matrix" 4).description = "Index of matrix out of bounds (4)" :=
  ⟨by decide,
    FEMExceptionLinearSystemBounds_description "Unknown" "itkFEMLinearSystemWrapperVNL.h" 10
      "SetMatrixValue()" "matrix" 4 (by decide)⟩

end ErrorProofs


/-! ## Proofs: descriptions and locations of the errors -/

section ErrorProofs2

/-- The decimal text of an `int` holds no `\0`. -/
theorem toString_int_ne_nul (g : Int) : ∀ c ∈ (toString g).data, c ≠ nul := by
  cases g with
  | ofNat m =>
    show ∀ c ∈ (toString m).data, c ≠ nul
    exact toString_ne_nul m
  | negSucc m =>
    show ∀ c ∈ ("-" ++ toString (m + 1)).data, c ≠ nul
    intro c hc
    simp only [String.data_append, List.mem_append] at hc
    rcases hc with hc | hc
    · revert c
      decide
    · exact toString_ne_nul (m + 1) c hc

/-- Claim C21. For every field description `d` and all indices `a`, `b` the
description of the two-index `LinearSystemBounds` error is exactly
`"Index out of bounds (" + decimal(a) + "," + decimal(b) + ")"`: it names both
indices, and the field description does not enter it.  For the field description
`matrix` and the indices 4 and 5 the description is `Index out of bounds (4,5)`,
which holds the texts `4` and `5` and does not hold the text `matrix`. -/
theorem FEMExceptionLinearSystemBounds_two_indices_omits_field :
    (∀ (defaultLocation file : String) (lineNumber : Nat) (location d : String) (a b : Nat),
      (FEMExceptionLinearSystemBounds.twoIndices defaultLocation file lineNumber location d
          a b).description
        = "Index out of bounds (" ++ toString a ++ "," ++ toString b ++ ")") ∧
    (FEMExceptionLinearSystemBounds.twoIndices "Unknown" "itkFEMLinearSystemWrapperVNL.h" 10
        "SetMatrixValue()" "matrix" 4 5).description = "Index out of bounds (4,5)" ∧
    (toString 4).data <:+:
      (FEMExceptionLinearSystemBounds.twoIndices "Unknown" "itkFEMLinearSystemWrapperVNL.h" 10
        "SetMatrixValue()" "matrix" 4 5).description.data ∧
    (toString 5).data <:+:
      (FEMExceptionLinearSystemBounds.twoIndices "Unknown" "itkFEMLinearSystemWrapperVNL.h" 10
        "SetMatrixValue()" "matrix" 4 5).description.data ∧
    ¬ "matrix".data <:+:
      (FEMExceptionLinearSystemBounds.twoIndices "Unknown" "itkFEMLinearSystemWrapperVNL.h" 10
        "SetMatrixValue()" "matrix" 4 5).description.data := by
  refine ⟨?_, by decide, by decide, by decide, by decide⟩
  intro defaultLocation file lineNumber location d a b
  unfold FEMExceptionLinearSystemBounds.twoIndices ExceptionObject.SetDescription
  simp only []
  apply cString_terminated
  intro c hc
  simp only [String.data_append, List.mem_append] at hc
  rcases hc with (((hc | hc) | hc) | hc) | hc
  · revert c
    decide
  · exact toString_ne_nul a c hc
  · revert c
    decide
  · exact toString_ne_nul b c hc
  · revert c
    decide

/-- Counterexample to C22 as stated: for the base-class name made of `N`, `\0` and
`x`, and the generation number 7, the description of the error is
`Object not found (N`, which is not the text that the claim gives and does not hold
the generation number. -/
theorem FEMExceptionObjectNotFound_description_stops_at_nul :
    (FEMExceptionObjectNotFound "itkFEMLoadNode.cxx" 10 "Read()" (String.mk ['N', nul, 'x'])
        7).description = "Object not found (N" ∧
    (FEMExceptionObjectNotFound "itkFEMLoadNode.cxx" 10 "Read()" (String.mk ['N', nul, 'x'])
        7).description
      ≠ "Object not found (" ++ String.mk ['N', nul, 'x'] ++ ", GN=" ++ toString (7 : Int)
          ++ ")!" := by
  constructor <;> decide

/-- Claim C22, amended. For every base-class name `c` that holds no `\0` and every
generation number `g`, the `ObjectNotFound` error stores `c` and `g` in its members
and its description is exactly `"Object not found (" + c + ", GN=" + decimal(g) + ")!"`,
whatever the file, the line and the location. -/
theorem FEMExceptionObjectNotFound_description (file : String) (lineNumber : Nat)
    (location c : String) (g : Int) (hc : ∀ x ∈ c.data, x ≠ nul) :
    (FEMExceptionObjectNotFound file lineNumber location c g).m_baseClassName = c ∧
    (FEMExceptionObjectNotFound file lineNumber location c g).m_GN = g ∧
    (FEMExceptionObjectNotFound file lineNumber location c g).description
      = "Object not found (" ++ c ++ ", GN=" ++ toString g ++ ")!" := by
  refine ⟨rfl, rfl, ?_⟩
  unfold FEMExceptionObjectNotFound ExceptionObject.SetDescription
  simp only []
  apply cString_terminated
  intro x hx
  simp only [String.data_append, List.mem_append] at hx
  rcases hx with (((hx | hx) | hx) | hx) | hx
  · revert x
    decide
  · exact hc x hx
  · revert x
    decide
  · exact toString_int_ne_nul g x hx
  · revert x
    decide

/-- Witness of the amended C22: the base-class name `Node` and the generation
numbers 7 and -1. -/
theorem FEMExceptionObjectNotFound_description_witness :
    (∀ x ∈ "Node".data, x ≠ nul) ∧
    ((FEMExceptionObjectNotFound "itkFEMLoadNode.cxx" 10 "Read()" "Node" 7).m_baseClassName
        = "Node" ∧
      (FEMExceptionObjectNotFound "itkFEMLoadNode.cxx" 10 "Read()" "Node" 7).m_GN = 7 ∧
      (FEMExceptionObjectNotFound "itkFEMLoadNode.cxx" 10 "Read()" "Node" 7).description
        = "Object not found (Node, GN=7)!") ∧
    (FEMExceptionObjectNotFound "itkFEMLoadNode.cxx" 10 "Read()" "Node" (-1)).description
        = "Object not found (Node, GN=-1)!" :=
  ⟨by decide,
    FEMExceptionObjectNotFound_description "itkFEMLoadNode.cxx" 10 "Read()" "Node" 7
      (by decide),
    (FEMExceptionObjectNotFound_description "itkFEMLoadNode.cxx" 10 "Read()" "Node" (-1)
      (by decide)).2.2⟩

/-- Claim C23. The base, IO, WrongClass, ObjectNotFound, Solution and generic
LinearSystem constructors store the location passed to them.  Both
`LinearSystemBounds` constructors do not: the error they build carries the default
location of `FEMException`, whatever location is passed; with the default `Unknown`
and the location `SetMatrixValue()` the stored location is `Unknown`. -/
theorem FEMExceptionLinearSystemBounds_drops_location :
    (∀ (defaultLocation file : String) (lineNumber : Nat) (location d c : String) (g : Int),
      (FEMException file lineNumber location).location = location ∧
      ( FEMExceptionIO defaultLocation file lineNumber location d).location = location ∧
      (FEMExceptionWrongClass file lineNumber location).location = location ∧
      (FEMExceptionObjectNotFound file lineNumber location c g).location = location ∧
      (FEMExceptionSolution defaultLocation file lineNumber location d).location = location ∧
      (FEMExceptionLinearSystem defaultLocation file lineNumber location d).location
        = location) ∧
    (∀ (defaultLocation file : String) (lineNumber : Nat) (location d : String) (a b : Nat),
      (FEMExceptionLinearSystemBounds.oneIndex defaultLocation file lineNumber location d
          a).location = defaultLocation ∧
      (FEMExceptionLinearSystemBounds.twoIndices defaultLocation file lineNumber location d
          a b).location = defaultLocation) ∧
    (FEMExceptionLinearSystemBounds.oneIndex "Unknown" "itkFEMLinearSystemWrapperVNL.h" 10
        "SetVectorValue()" "vector" 4).location ≠ "SetVectorValue()" ∧
    (FEMExceptionLinearSystemBounds.twoIndices "Unknown" "itkFEMLinearSystemWrapperVNL.h" 10
        "SetMatrixValue()" "matrix" 4 5).location ≠ "SetMatrixValue()" := by
  refine ⟨?_, ?_, by decide, by decide⟩
  · intro defaultLocation file lineNumber location d c g
    exact ⟨rfl, rfl, rfl, rfl, rfl, rfl⟩
  · intro defaultLocation file lineNumber location d a b
    exact ⟨rfl, rfl⟩

end ErrorProofs2

/-! ## Proofs: levels of the traversal, reachability -/

section LevelProofs

theorem withinDistance_succ {cols : Nat → ColumnArray} {s k x : Nat}
    (h : WithinDistance cols s k x) : WithinDistance cols s (k + 1) x :=
  Or.inl h

theorem withinDistance_mono {cols : Nat → ColumnArray} {s x : Nat} :
    ∀ {j k : Nat}, j ≤ k → WithinDistance cols s j x → WithinDistance cols s k x := by
  intro j k hjk
  induction hjk with
  | refl => exact id
  | step _ ih => exact fun h => withinDistance_succ (ih h)

/-- Once a level adds no row, no later level does. -/
theorem withinDistance_stable {cols : Nat → ColumnArray} {s j : Nat}
    (hstab : ∀ x, WithinDistance cols s (j + 1) x → WithinDistance cols s j x) :
    ∀ (k x : Nat), WithinDistance cols s k x → WithinDistance cols s j x := by
  intro k
  induction k with
  | zero => intro x h; exact withinDistance_mono (Nat.zero_le j) h
  | succ k ih =>
    intro x h
    rcases h with h | ⟨y, hy, hxy⟩
    · exact ih x h
    · exact hstab x (Or.inr ⟨y, ih y hy, hxy⟩)

theorem reachable_of_withinDistance {cols : Nat → ColumnArray} {s : Nat} :
    ∀ (k x : Nat), WithinDistance cols s k x → Reachable cols s x := by
  intro k
  induction k with
  | zero => intro x h; rw [show x = s from h]; exact Relation.ReflTransGen.refl
  | succ k ih =>
    intro x h
    rcases h with h | ⟨y, hy, hxy⟩
    · exact ih x h
    · exact Relation.ReflTransGen.tail (ih y hy) hxy

theorem withinDistance_of_reachable {cols : Nat → ColumnArray} {s x : Nat}
    (h : Reachable cols s x) : ∃ k, WithinDistance cols s k x := by
  induction h with
  | refl => exact ⟨0, rfl⟩
  | tail _ hyz ih =>
    obtain ⟨k, hk⟩ := ih
    exact ⟨k + 1, Or.inr ⟨_, hk, hyz⟩⟩

/-- The traversal numbers the rows level by level: when the numbered rows are those
within distance `j` of `s` and, with the frontier, those within distance `j + 1`, the
final list of numbered rows is the set of rows within some distance of `s`, and for
every `k` the rows within distance `k` form a prefix of it. -/
theorem levelTraversal_levels {N : Nat} {cols : Nat → ColumnArray} (deg : Nat → Nat)
    (hrange : ColumnsInRange N cols) {s : Nat} :
    ∀ (fuel : Nat) (order frontier : List Nat) (j : Nat), (order ++ frontier).Nodup →
      (∀ x ∈ order ++ frontier, x < N) → N - order.length ≤ fuel →
      (∀ x, x ∈ order ↔ WithinDistance cols s j x) →
      (∀ x, x ∈ order ++ frontier ↔ WithinDistance cols s (j + 1) x) →
      (∀ k, k ≤ j → ∃ P, P <+: order ∧ ∀ x, x ∈ P ↔ WithinDistance cols s k x) →
      (∃ m, ∀ x, x ∈ levelTraversal N cols deg fuel order frontier
        ↔ WithinDistance cols s m x) ∧
      ∀ k, ∃ P, P <+: levelTraversal N cols deg fuel order frontier ∧
        ∀ x, x ∈ P ↔ WithinDistance cols s k x := by
  intro fuel
  induction fuel with
  | zero =>
    intro order frontier j hnd hlt hfuel hord hall hpre
    have hlen : (order ++ frontier).length ≤ N := length_le_of_nodup_of_lt hnd hlt
    rw [List.length_append] at hlen
    have hfr : frontier = [] := by
      apply List.eq_nil_of_length_eq_zero
      omega
    subst hfr
    rw [levelTraversal_done N cols deg 0 order [] (by simp)]
    have hstab : ∀ x, WithinDistance cols s (j + 1) x → WithinDistance cols s j x := by
      intro x hx
      have := (hall x).mpr hx
      rw [List.append_nil] at this
      exact (hord x).mp this
    refine ⟨⟨j, hord⟩, fun k => ?_⟩
    by_cases hk : k ≤ j
    · exact hpre k hk
    · exact ⟨order, List.prefix_refl _, fun x => ⟨fun hx =>
        withinDistance_mono (by omega) ((hord x).mp hx),
        fun hx => (hord x).mpr (withinDistance_stable hstab k x hx)⟩⟩
  | succ fuel ih =>
    intro order frontier j hnd hlt hfuel hord hall hpre
    have hlen : (order ++ frontier).length ≤ N := length_le_of_nodup_of_lt hnd hlt
    rw [List.length_append] at hlen
    by_cases hcond : frontier.length ≠ 0 ∧ order.length < N
    · rw [levelTraversal, if_pos hcond]
      obtain ⟨hnd2, hlt2⟩ := traversal_step_invariant deg hrange hnd hlt
      apply ih (order ++ frontier) _ (j + 1) hnd2 hlt2
      · rw [List.length_append]
        omega
      · exact hall
      · intro x
        rw [List.mem_append, mem_nextFrontier]
        constructor
        · rintro (hx | hx | ⟨r, hr, hxr, _⟩)
          · exact Or.inl ((hall x).mp hx)
          · exact absurd hx (List.not_mem_nil x)
          · exact Or.inr ⟨r, (hall r).mp (List.mem_append_right _ hr), hxr⟩
        · rintro (hx | ⟨y, hy, hxy⟩)
          · exact Or.inl ((hall x).mpr hx)
          · by_cases hx : x ∈ order ++ frontier
            · exact Or.inl hx
            · rcases List.mem_append.mp ((hall y).mpr hy) with hyo | hyf
              · exact absurd ((hall x).mpr (Or.inr ⟨y, (hord y).mp hyo, hxy⟩)) hx
              · exact Or.inr (Or.inr ⟨y, hyf, hxy, hx⟩)
      · intro k hk
        by_cases hkj : k ≤ j
        · obtain ⟨P, hP, hmem⟩ := hpre k hkj
          exact ⟨P, hP.trans (List.prefix_append _ _), hmem⟩
        · have hk1 : k = j + 1 := by omega
          subst hk1
          exact ⟨order ++ frontier, List.prefix_refl _, hall⟩
    · have hfr : frontier = [] := by
        apply List.eq_nil_of_length_eq_zero
        by_contra hne
        exact hcond ⟨hne, by
          have : 0 < frontier.length := Nat.pos_of_ne_zero hne
          omega⟩
      subst hfr
      rw [levelTraversal_done N cols deg _ order [] (by simp)]
      have hstab : ∀ x, WithinDistance cols s (j + 1) x → WithinDistance cols s j x := by
        intro x hx
        have := (hall x).mpr hx
        rw [List.append_nil] at this
        exact (hord x).mp this
      refine ⟨⟨j, hord⟩, fun k => ?_⟩
      by_cases hk : k ≤ j
      · exact hpre k hk
      · exact ⟨order, List.prefix_refl _, fun x => ⟨fun hx =>
          withinDistance_mono (by omega) ((hord x).mp hx),
          fun hx => (hord x).mpr (withinDistance_stable hstab k x hx)⟩⟩

end LevelProofs

section LevelClaims

theorem levelTraversal_nodup {N : Nat} {cols : Nat → ColumnArray} (deg : Nat → Nat)
    (hrange : ColumnsInRange N cols) :
    ∀ (fuel : Nat) (order frontier : List Nat), (order ++ frontier).Nodup →
      (∀ x ∈ order ++ frontier, x < N) →
      (levelTraversal N cols deg fuel order frontier).Nodup ∧
      ∀ x ∈ levelTraversal N cols deg fuel order frontier, x < N := by
  intro fuel
  induction fuel with
  | zero =>
    intro order frontier hnd hlt
    have hres : levelTraversal N cols deg 0 order frontier = order := by
      rw [levelTraversal]
      split <;> rfl
    rw [hres]
    exact ⟨(List.nodup_append.mp hnd).1, fun x hx => hlt x (List.mem_append_left _ hx)⟩
  | succ fuel ih =>
    intro order frontier hnd hlt
    by_cases hcond : frontier.length ≠ 0 ∧ order.length < N
    · rw [levelTraversal, if_pos hcond]
      obtain ⟨hnd2, hlt2⟩ := traversal_step_invariant deg hrange hnd hlt
      exact ih _ _ hnd2 hlt2
    · rw [levelTraversal_done N cols deg _ order frontier hcond]
      exact ⟨(List.nodup_append.mp hnd).1, fun x hx => hlt x (List.mem_append_left _ hx)⟩

theorem traversalFrom_start_state {N : Nat} {cols : Nat → ColumnArray}
    (hrange : ColumnsInRange N cols) (hdup : DuplicateFree N cols) {s : Nat} (hs : s < N) :
    ([s] ++ sortByDegree (rowDegreeOf cols) ((cols s).filter fun c => c ≠ s)).Nodup ∧
    (∀ x ∈ [s] ++ sortByDegree (rowDegreeOf cols) ((cols s).filter fun c => c ≠ s), x < N) := by
  have hin : ∀ x ∈ (cols s).filter (fun c => c ≠ s), x < N :=
    fun x hx => hrange s hs x (List.mem_filter.mp hx).1
  have hperm := sortByDegree_perm (rowDegreeOf cols) ((cols s).filter fun c => c ≠ s)
  constructor
  · rw [List.singleton_append, List.nodup_cons]
    constructor
    · intro hmem
      have := (List.mem_filter.mp (hperm.mem_iff.mp hmem)).2
      simp at this
    · exact hperm.nodup_iff.mpr ((hdup s hs).filter _)
  · intro x hx
    rcases List.mem_append.mp hx with hx | hx
    · rw [List.mem_singleton.mp hx]; exact hs
    · exact hin x (hperm.mem_iff.mp hx)

theorem traversalFrom_nodup {N : Nat} {cols : Nat → ColumnArray}
    (hrange : ColumnsInRange N cols) (hdup : DuplicateFree N cols) {s : Nat} (hs : s < N) :
    (traversalFrom N cols s).Nodup ∧ ∀ x ∈ traversalFrom N cols s, x < N := by
  obtain ⟨hnd, hlt⟩ := traversalFrom_start_state hrange hdup hs
  exact levelTraversal_nodup _ hrange N [s] _ hnd hlt

/-- The list of rows in the order of their numbering holds the rows within some
distance of the start row, and for every `k` those within distance `k` come first. -/
theorem traversalFrom_levels {N : Nat} {cols : Nat → ColumnArray}
    (hrange : ColumnsInRange N cols) (hdup : DuplicateFree N cols) {s : Nat} (hs : s < N) :
    (∃ m, ∀ x, x ∈ traversalFrom N cols s ↔ WithinDistance cols s m x) ∧
    ∀ k, ∃ P, P <+: traversalFrom N cols s ∧ ∀ x, x ∈ P ↔ WithinDistance cols s k x := by
  obtain ⟨hnd, hlt⟩ := traversalFrom_start_state hrange hdup hs
  have hperm := sortByDegree_perm (rowDegreeOf cols) ((cols s).filter fun c => c ≠ s)
  unfold traversalFrom
  apply levelTraversal_levels _ hrange N [s] _ 0 hnd hlt
  · simp
  · intro x
    rw [List.mem_singleton]
    rfl
  · intro x
    rw [List.mem_append, List.mem_singleton, hperm.mem_iff, List.mem_filter]
    constructor
    · rintro (hx | ⟨hx, _⟩)
      · exact Or.inl hx
      · exact Or.inr ⟨s, rfl, hx⟩
    · rintro (hx | ⟨y, hy, hxy⟩)
      · exact Or.inl hx
      · rw [show y = s from hy] at hxy
        by_cases hxs : x = s
        · exact Or.inl hxs
        · exact Or.inr ⟨hxy, by simpa using hxs⟩
  · intro k hk
    rw [Nat.le_zero.mp hk]
    exact ⟨[s], List.prefix_refl _, fun x => by rw [List.mem_singleton]; rfl⟩

/-- In a list without repetition, a row of a prefix stands before every row outside
the prefix. -/
theorem position_lt_of_prefix {l P : List Nat} (hnd : l.Nodup) (hP : P <+: l) {a b i j : Nat}
    (ha : a ∈ P) (hb : b ∉ P) (hi : l[i]? = some a) (hj : l[j]? = some b) : i < j := by
  obtain ⟨Q, rfl⟩ := hP
  have hi1 : i < P.length := by
    by_contra hge
    rw [List.getElem?_append_right (by omega)] at hi
    have haQ : a ∈ Q := List.getElem?_mem hi
    exact (List.disjoint_of_nodup_append hnd) ha haQ
  have hj1 : ¬ j < P.length := by
    intro hlt
    rw [List.getElem?_append_left hlt] at hj
    exact hb (List.getElem?_mem hj)
  omega

/-- Claim C24. For every in-range, duplicate-free, structurally symmetric and
connected pattern and every start row (given, or selected when `startingRow < 0`),
`CuthillMckeeOrdering` returns an array `newNumbering` that holds every row, begins
with the start row `s`, and lists the rows level by level: a row within distance
`k` of `s` stands before every row that is not within distance `k` (the closer row
has the smaller new number), and along the array the distance from `s` never
decreases. -/
theorem CuthillMckeeOrdering_numbers_level_by_level (N : Nat) (cols : Nat → ColumnArray)
    (startingRow : Int) (hN : 1 ≤ N) (hrange : ColumnsInRange N cols)
    (hdup : DuplicateFree N cols) (_hsym : StructurallySymmetric N cols)
    (hconn : Connected N cols)
    (hstart : startingRow < 0 ∨ (0 ≤ startingRow ∧ startingRow < N)) :
    ∃ newNumbering s, CuthillMckeeOrdering N cols startingRow = .ok newNumbering ∧
      newNumbering[0]? = some s ∧ (∀ a, a < N → a ∈ newNumbering) ∧
      (∀ (a b k i j : Nat), newNumbering[i]? = some a → newNumbering[j]? = some b →
        WithinDistance cols s k a → ¬ WithinDistance cols s k b → i < j) ∧
      (∀ (a b k i j : Nat), newNumbering[i]? = some a → newNumbering[j]? = some b → i ≤ j →
        WithinDistance cols s k b → WithinDistance cols s k a) := by
  have hrd : ∀ i, i < N → readAt (initialRowDegree N cols) i = .ok (rowDegreeOf cols i) :=
    fun i hi => readAt_initialRowDegree cols hi
  obtain ⟨s, hs, hsel⟩ : ∃ s, s < N ∧
      (if startingRow < 0 then chooseStartingRow N (initialRowDegree N cols)
        else pure startingRow.toNat) = .ok s := by
    rcases hstart with hneg | ⟨h0, hlt⟩
    · refine ⟨lowestDegreeRow N (rowDegreeOf cols), (lowestDegreeRow_spec _ hN).1, ?_⟩
      rw [if_pos hneg]
      exact chooseStartingRow_eq hrd hN
    · refine ⟨startingRow.toNat, by omega, ?_⟩
      rw [if_neg (by omega)]
      rfl
  have hperm := traversalFrom_perm_range hrange hdup hs (fun b hb => hconn s b hs hb)
  have hcm := CuthillMckeeOrdering_eq_traversalFrom hrange hdup hs hsel hperm
  have hnd := (traversalFrom_nodup hrange hdup hs).1
  have hlev := (traversalFrom_levels hrange hdup hs).2
  have hlt : ∀ (a b k i j : Nat), (traversalFrom N cols s)[i]? = some a →
      (traversalFrom N cols s)[j]? = some b →
      WithinDistance cols s k a → ¬ WithinDistance cols s k b → i < j := by
    intro a b k i j hi hj ha hb
    obtain ⟨P, hP, hmem⟩ := hlev k
    exact position_lt_of_prefix hnd hP ((hmem a).mpr ha) (fun h => hb ((hmem b).mp h)) hi hj
  refine ⟨traversalFrom N cols s, s, hcm, CuthillMckeeOrdering_first cols hN hsel hcm,
    fun a ha => hperm.mem_iff.mpr (List.mem_range.mpr ha), hlt, ?_⟩
  intro a b k i j hi hj hij hb
  by_contra ha
  have := hlt b a k j i hj hi hb ha
  omega

/-- Witness of C24: the star on five rows started from row 0, whose centre, row 2,
is at distance 1 and comes second, before the rows 1, 3 and 4 at distance 2. -/
theorem CuthillMckeeOrdering_numbers_level_by_level_witness :
    (1 ≤ 5) ∧ ColumnsInRange 5 starColumns ∧ DuplicateFree 5 starColumns ∧
    StructurallySymmetric 5 starColumns ∧ Connected 5 starColumns ∧
    ((0 : Int) ≤ 0 ∧ (0 : Int) < (5 : Nat)) ∧
    CuthillMckeeOrdering 5 starColumns 0 = .ok [0, 2, 1, 3, 4] ∧
    ∃ newNumbering s, CuthillMckeeOrdering 5 starColumns 0 = .ok newNumbering ∧
      newNumbering[0]? = some s ∧ (∀ a, a < 5 → a ∈ newNumbering) ∧
      (∀ (a b k i j : Nat), newNumbering[i]? = some a → newNumbering[j]? = some b →
        WithinDistance starColumns s k a → ¬ WithinDistance starColumns s k b → i < j) ∧
      (∀ (a b k i j : Nat), newNumbering[i]? = some a → newNumbering[j]? = some b → i ≤ j →
        WithinDistance starColumns s k b → WithinDistance starColumns s k a) :=
  ⟨by decide, starColumns_inRange, starColumns_duplicateFree, starColumns_symmetric,
    starColumns_connected, ⟨by decide, by decide⟩, by decide,
    CuthillMckeeOrdering_numbers_level_by_level 5 starColumns 0 (by decide)
      starColumns_inRange starColumns_duplicateFree starColumns_symmetric
      starColumns_connected (Or.inr ⟨by decide, by decide⟩)⟩

end LevelClaims

/-! ## Proofs: disconnected patterns -/

section DisconnectedProofs

/-- A row that is not reached from the start row keeps its entry of `reverseMapping`
through the loop, whatever the enumeration. -/
theorem followLoop_unreached {N : Nat} (cols : Nat → ColumnArray) (rd : ColumnArray)
    {s u : Nat} (hun : ¬ Reachable cols s u) (w : Nat) :
    ∀ (fuel : Nat) (frontier rm : List Nat) (n : Nat) (result : List Nat),
      (∀ r ∈ frontier, Reachable cols s r) → rm[u]? = some w →
      followLoop N cols rd fuel frontier rm n = .ok result → result[u]? = some w := by
  intro fuel
  induction fuel with
  | zero =>
    intro frontier rm n result _ hu h
    rw [followLoop] at h
    split at h
    · cases h
    · injection h with h
      subst h
      exact hu
  | succ fuel ih =>
    intro frontier rm n result hfront hu h
    rw [followLoop] at h
    split at h
    · simp only [] at h
      cases ha : assignNumbers frontier rm n with
      | error e => rw [ha] at h; cases h
      | ok pair =>
        obtain ⟨rm1, n1⟩ := pair
        rw [ha] at h
        simp only [ok_bind] at h
        obtain ⟨hframe, _⟩ := assignNumbers_frame _ _ _ _ _ ha
        have hu1 : rm1[u]? = some w := by
          rw [hframe u (fun hmem => hun (hfront u hmem)), hu]
        cases he : expandFrontier N cols rd rm1 frontier [] with
        | error e => rw [he] at h; cases h
        | ok bufferArray =>
          rw [he] at h
          simp only [ok_bind] at h
          apply ih bufferArray rm1 n1 result _ hu1 h
          intro x hx
          rcases expandFrontier_mem N cols rd rm1 _ _ _ he x hx with hnil | ⟨⟨r, hr, hxr⟩, _⟩
          · simp at hnil
          · exact Relation.ReflTransGen.tail (hfront r hr) hxr
    · injection h with h
      subst h
      exact hu

theorem FollowConnections_unreached {N : Nat} (cols : Nat → ColumnArray) (rd : ColumnArray)
    {s u : Nat} (hun : ¬ Reachable cols s u) (w : Nat) (rm result : List Nat) (n : Nat)
    (hu : rm[u]? = some w)
    (h : FollowConnectionsCuthillMckeeOrdering N cols s rd rm n = .ok result) :
    result[u]? = some w := by
  unfold FollowConnectionsCuthillMckeeOrdering at h
  cases hr : readAt rm s with
  | error e => rw [hr] at h; cases h
  | ok v =>
    rw [hr] at h
    simp only [ok_bind] at h
    split at h
    · injection h with h
      subst h
      exact hu
    · cases ho : orderByDegree rd ((cols s).filter fun c => c ≠ s) with
      | error e => rw [ho] at h; cases h
      | ok nextRows =>
        rw [ho] at h
        simp only [ok_bind] at h
        apply followLoop_unreached cols rd hun w N nextRows rm n result _ hu h
        intro r hr
        have hmem := (List.mem_filter.mp ((orderByDegree_perm rd _ _ ho).mem_iff.mp hr)).1
        exact Relation.ReflTransGen.single hmem

/-- A completed inversion has read, for every row, a number below the size of
`newNumbering`. -/
theorem invertMapping_reads_below (rm : ColumnArray) :
    ∀ (rows newNumbering result : List Nat),
      invertMapping rm rows newNumbering = .ok result →
      ∀ i ∈ rows, ∃ v, rm[i]? = some v ∧ v < newNumbering.length := by
  intro rows
  induction rows with
  | nil => intro _ _ _ i hi; simp at hi
  | cons r rows ih =>
    intro newNumbering result h i hi
    rw [invertMapping] at h
    cases hr : readAt rm r with
    | error e => rw [hr] at h; cases h
    | ok v =>
      rw [hr] at h
      simp only [ok_bind] at h
      cases hw : writeAt newNumbering v r with
      | error e => rw [hw] at h; cases h
      | ok nn1 =>
        rw [hw] at h
        simp only [ok_bind] at h
        obtain ⟨hlt, hset⟩ := writeAt_eq_ok hw
        rcases List.mem_cons.mp hi with h1 | h1
        · rw [h1]
          exact ⟨v, readAt_eq_ok hr, hlt⟩
        · obtain ⟨v2, hv2, hlt2⟩ := ih _ _ h i h1
          rw [hset, List.length_set] at hlt2
          exact ⟨v2, hv2, hlt2⟩

/-- The inversion fails with an out-of-range index as soon as a row still holds the
impossible value `N`. -/
theorem invertMapping_sentinel {N : Nat} (rm : ColumnArray) {u : Nat} (hu : u < N)
    (hsent : rm[u]? = some N) :
    invertMapping rm (List.range N) (List.replicate N 0) = .error .outOfRange := by
  cases h : invertMapping rm (List.range N) (List.replicate N 0) with
  | ok result =>
    obtain ⟨v, hv, hlt⟩ := invertMapping_reads_below rm _ _ _ h u (List.mem_range.mpr hu)
    rw [hsent] at hv
    injection hv with hv
    rw [List.length_replicate] at hlt
    omega
  | error e =>
    cases e with
    | outOfRange => rfl
    | outOfFuel => exact absurd h (invertMapping_withinBudget rm _ _)

theorem diagonalColumns_unreachable {a b : Nat} (hab : a ≠ b) :
    ¬ Reachable diagonalColumns a b := by
  intro h
  have : b ∈ [a] := by
    apply mem_of_reachable (List.mem_singleton.mpr rfl) _ h
    intro x hx y hy
    rw [List.mem_singleton.mp hx] at hy
    exact hy
  exact hab (List.mem_singleton.mp this).symm

/-- Claim C25. For every pattern and every start row `s` (given, or selected when
`startingRow < 0`) from which some row `u` of `[0, N)` is not reached, which for a
start row of `[0, N)` needs `N >= 2`, `CuthillMckeeOrdering` fails with an
out-of-range index; and whenever the
traversal completes, row `u` still holds the impossible value `N` in
`reverseMapping`, so that the final inversion, which writes `newNumbering[N]` in an
array of size `N`, is what fails. -/
theorem CuthillMckeeOrdering_disconnected_is_out_of_range (N : Nat)
    (cols : Nat → ColumnArray) (startingRow : Int) (s u : Nat)
    (hstart : (startingRow < 0 ∧ chooseStartingRow N (initialRowDegree N cols) = .ok s) ∨
      (0 ≤ startingRow ∧ startingRow.toNat = s))
    (hu : u < N) (hun : ¬ Reachable cols s u) :
    CuthillMckeeOrdering N cols startingRow = .error .outOfRange ∧
    ∀ reverseMapping0 reverseMapping : ColumnArray,
      writeAt (initialReverseMapping N) s 0 = .ok reverseMapping0 →
      FollowConnectionsCuthillMckeeOrdering N cols s (initialRowDegree N cols)
        reverseMapping0 1 = .ok reverseMapping →
      reverseMapping[u]? = some N ∧
      invertMapping reverseMapping (List.range N) (List.replicate N 0)
        = .error .outOfRange := by
  have hus : u ≠ s := fun h => hun (h ▸ Relation.ReflTransGen.refl)
  have hloc : ∀ rm0 rm : ColumnArray, writeAt (initialReverseMapping N) s 0 = .ok rm0 →
      FollowConnectionsCuthillMckeeOrdering N cols s (initialRowDegree N cols) rm0 1 = .ok rm →
      rm[u]? = some N ∧
      invertMapping rm (List.range N) (List.replicate N 0) = .error .outOfRange := by
    intro rm0 rm hw hf
    obtain ⟨hlt, hset⟩ := writeAt_eq_ok hw
    have hu0 : rm0[u]? = some N := by
      rw [hset, List.getElem?_set, if_neg (fun he => hus he.symm)]
      unfold initialReverseMapping
      rw [List.getElem?_replicate, if_pos hu]
    have hu1 := FollowConnections_unreached cols _ hun N rm0 rm 1 hu0 hf
    exact ⟨hu1, invertMapping_sentinel rm hu hu1⟩
  have hsel : (if startingRow < 0 then chooseStartingRow N (initialRowDegree N cols)
      else pure startingRow.toNat) = .ok s := by
    rcases hstart with ⟨hneg, hc⟩ | ⟨h0, hc⟩
    · rw [if_pos hneg, hc]
    · rw [if_neg (by omega), ← hc]
      rfl
  have hcall : CuthillMckeeOrdering N cols startingRow = (do
      let reverseMapping ← writeAt (initialReverseMapping N) s 0
      let reverseMapping ← FollowConnectionsCuthillMckeeOrdering N cols s
        (initialRowDegree N cols) reverseMapping 1
      invertMapping reverseMapping (List.range N) (List.replicate N 0)) := by
    unfold CuthillMckeeOrdering
    simp only []
    by_cases hneg : startingRow < 0
    · rw [if_pos hneg] at hsel
      rw [if_pos hneg, hsel]
      rfl
    · rw [if_neg hneg] at hsel
      rw [if_neg hneg, hsel]
      rfl
  refine ⟨?_, hloc⟩
  · have hwb := CuthillMckeeOrdering_withinBudget N cols startingRow
    cases hc : CuthillMckeeOrdering N cols startingRow with
    | error e =>
      cases e with
      | outOfRange => rfl
      | outOfFuel => exact absurd hc hwb
    | ok result =>
      rw [hcall] at hc
      cases hw : writeAt (initialReverseMapping N) s 0 with
      | error e => rw [hw] at hc; cases hc
      | ok rm0 =>
        rw [hw] at hc
        simp only [ok_bind] at hc
        cases hf : FollowConnectionsCuthillMckeeOrdering N cols s (initialRowDegree N cols)
            rm0 1 with
        | error e => rw [hf] at hc; cases hc
        | ok rm =>
          rw [hf] at hc
          simp only [ok_bind] at hc
          rw [(hloc rm0 rm hw hf).2] at hc
          cases hc

/-- Witness of C25: the diagonal pattern on two rows with an auto-selected start,
which is row 0 and from which row 1 is not reached. -/
theorem CuthillMckeeOrdering_disconnected_is_out_of_range_witness :
    (((-1 : Int) < 0 ∧ chooseStartingRow 2 (initialRowDegree 2 diagonalColumns) = .ok 0) ∨
      (0 ≤ (-1 : Int) ∧ (-1 : Int).toNat = 0)) ∧
    1 < 2 ∧ ¬ Reachable diagonalColumns 0 1 ∧
    CuthillMckeeOrdering 2 diagonalColumns (-1) = .error .outOfRange :=
  ⟨Or.inl ⟨by decide, by decide⟩, by decide, diagonalColumns_unreachable (by decide),
    (CuthillMckeeOrdering_disconnected_is_out_of_range 2 diagonalColumns (-1) 0 1
      (Or.inl ⟨by decide, by decide⟩) (by decide)
      (diagonalColumns_unreachable (by decide))).1⟩

end DisconnectedProofs

section UnvisitedClaims

theorem mem_traversalFrom_iff {N : Nat} {cols : Nat → ColumnArray}
    (hrange : ColumnsInRange N cols) (hdup : DuplicateFree N cols) {s : Nat} (hs : s < N)
    (i : Nat) : i ∈ traversalFrom N cols s ↔ Reachable cols s i := by
  obtain ⟨⟨m, hm⟩, hlev⟩ := traversalFrom_levels hrange hdup hs
  constructor
  · intro hi
    exact reachable_of_withinDistance m i ((hm i).mp hi)
  · intro hi
    obtain ⟨k, hk⟩ := withinDistance_of_reachable hi
    obtain ⟨P, hP, hmem⟩ := hlev k
    exact hP.subset ((hmem i).mpr hk)

theorem twoBlockColumns_inRange : ColumnsInRange 4 twoBlockColumns := by
  intro r hr c hc
  interval_cases r <;> revert c <;> decide

theorem twoBlockColumns_duplicateFree : DuplicateFree 4 twoBlockColumns := by
  intro r hr
  interval_cases r <;> decide

/-- Claim C26. For every in-range, duplicate-free pattern, connected or not, and
every start row `s` of `[0, N)`, the call of `FollowConnectionsCuthillMckeeOrdering`
made by `CuthillMckeeOrdering` completes, and afterwards every row that is reached
from `s` along the pattern holds a number below `N` in `reverseMapping`, while
every row that is not reached from `s` still holds the impossible value `N`. -/
theorem FollowConnections_leaves_unreachable_rows (N : Nat) (cols : Nat → ColumnArray)
    (s : Nat) (hrange : ColumnsInRange N cols) (hdup : DuplicateFree N cols) (hs : s < N) :
    ∃ reverseMapping0 reverseMapping : ColumnArray,
      writeAt (initialReverseMapping N) s 0 = .ok reverseMapping0 ∧
      FollowConnectionsCuthillMckeeOrdering N cols s (initialRowDegree N cols)
        reverseMapping0 1 = .ok reverseMapping ∧
      reverseMapping.length = N ∧
      ∀ i, i < N →
        (Reachable cols s i → ∃ v, reverseMapping[i]? = some v ∧ v < N) ∧
        (¬ Reachable cols s i → reverseMapping[i]? = some N) := by
  obtain ⟨hnd, hlt⟩ := traversalFrom_nodup hrange hdup hs
  have hlen : (traversalFrom N cols s).length ≤ N := length_le_of_nodup_of_lt hnd hlt
  refine ⟨encodeOrder N [s], encodeOrder N (traversalFrom N cols s), ?_,
    FollowConnections_eq_traversalFrom hrange hdup hs, encodeOrder_length _ _, ?_⟩
  · have := writeAt_encodeOrder (List.nil : List Nat) hs (by simp)
    rw [initialReverseMapping_eq]
    simpa using this
  · intro i hi
    rw [getElem?_encodeOrder _ hi]
    constructor
    · intro hreach
      exact ⟨_, rfl, (numberOf_lt_iff hlen i).mpr
        ((mem_traversalFrom_iff hrange hdup hs i).mpr hreach)⟩
    · intro hun
      have hnot : i ∉ traversalFrom N cols s :=
        fun hmem => hun ((mem_traversalFrom_iff hrange hdup hs i).mp hmem)
      rw [numberOf, if_neg hnot]

/-- Witness of C26: two uncoupled blocks on four rows, started from row 0; rows 0
and 1 are numbered 0 and 1, rows 2 and 3 keep the value 4. -/
theorem FollowConnections_leaves_unreachable_rows_witness :
    ColumnsInRange 4 twoBlockColumns ∧ DuplicateFree 4 twoBlockColumns ∧ 0 < 4 ∧
    FollowConnectionsCuthillMckeeOrdering 4 twoBlockColumns 0
      (initialRowDegree 4 twoBlockColumns) [0, 4, 4, 4] 1 = .ok [0, 1, 4, 4] ∧
    ∃ reverseMapping0 reverseMapping : ColumnArray,
      writeAt (initialReverseMapping 4) 0 0 = .ok reverseMapping0 ∧
      FollowConnectionsCuthillMckeeOrdering 4 twoBlockColumns 0
        (initialRowDegree 4 twoBlockColumns) reverseMapping0 1 = .ok reverseMapping ∧
      reverseMapping.length = 4 ∧
      ∀ i, i < 4 →
        (Reachable twoBlockColumns 0 i → ∃ v, reverseMapping[i]? = some v ∧ v < 4) ∧
        (¬ Reachable twoBlockColumns 0 i → reverseMapping[i]? = some 4) :=
  ⟨twoBlockColumns_inRange, twoBlockColumns_duplicateFree, by decide, by decide,
    FollowConnections_leaves_unreachable_rows 4 twoBlockColumns 0 twoBlockColumns_inRange
      twoBlockColumns_duplicateFree (by decide)⟩

end UnvisitedClaims

/-! ## Proofs: the next frontier -/

section FrontierProofs

theorem mem_firstOccurrences {x : Nat} : ∀ (l : List Nat), x ∈ firstOccurrences l ↔ x ∈ l := by
  intro l
  induction l with
  | nil => simp [firstOccurrences]
  | cons a l ih =>
    rw [firstOccurrences, List.mem_cons, List.mem_cons, List.mem_filter, ih]
    by_cases hxa : x = a
    · simp [hxa]
    · simp [hxa]

theorem nodup_firstOccurrences : ∀ (l : List Nat), (firstOccurrences l).Nodup := by
  intro l
  induction l with
  | nil => simp [firstOccurrences]
  | cons a l ih =>
    rw [firstOccurrences, List.nodup_cons]
    refine ⟨?_, ih.filter _⟩
    intro hmem
    have := (List.mem_filter.mp hmem).2
    simp at this

theorem firstOccurrences_of_nodup : ∀ (l : List Nat), l.Nodup → firstOccurrences l = l := by
  intro l
  induction l with
  | nil => intro _; rfl
  | cons a l ih =>
    intro h
    rw [List.nodup_cons] at h
    rw [firstOccurrences, ih h.2, List.filter_eq_self.mpr]
    intro x hx
    have : x ≠ a := fun he => h.1 (he ▸ hx)
    simpa using this

theorem addNoRepeats_eq : ∀ (rowBuffer bufferArray : List Nat),
    addNoRepeats bufferArray rowBuffer
      = bufferArray ++ (firstOccurrences rowBuffer).filter fun y => y ∉ bufferArray := by
  intro rowBuffer
  induction rowBuffer with
  | nil => intro bufferArray; simp [addNoRepeats, firstOccurrences]
  | cons r rowBuffer ih =>
    intro bufferArray
    rw [addNoRepeats, firstOccurrences]
    by_cases hr : r ∈ bufferArray
    · rw [if_pos hr, ih, List.filter_cons, if_neg (by simpa using hr), List.filter_filter]
      congr 1
      apply List.filter_congr
      intro x _
      by_cases hx : x ∈ bufferArray
      · simp [hx]
      · have : x ≠ r := fun he => hx (he ▸ hr)
        simp [hx, this]
    · rw [if_neg hr, ih, List.filter_cons, if_pos (by simpa using hr), List.filter_filter,
        List.append_assoc, List.singleton_append]
      congr 2
      apply List.filter_congr
      intro x _
      by_cases hx : x ∈ bufferArray
      · simp [hx]
      · by_cases hxr : x = r
        · simp [hxr]
        · simp [hx, hxr]

theorem firstOccurrences_append : ∀ (A B : List Nat),
    firstOccurrences (A ++ B)
      = firstOccurrences A ++ (firstOccurrences B).filter fun y => y ∉ A := by
  intro A
  induction A with
  | nil => intro B; simp [firstOccurrences]
  | cons a A ih =>
    intro B
    rw [List.cons_append, firstOccurrences, ih, firstOccurrences, List.filter_append,
      List.filter_filter, List.cons_append]
    congr 2
    apply List.filter_congr
    intro x _
    by_cases hx : x ∈ A
    · simp [hx]
    · by_cases hxa : x = a
      · simp [hxa]
      · simp [hx, hxa]

theorem addNoRepeats_firstOccurrences (A B : List Nat) :
    addNoRepeats (firstOccurrences A) B = firstOccurrences (A ++ B) := by
  rw [addNoRepeats_eq, firstOccurrences_append]
  congr 1
  apply List.filter_congr
  intro x _
  simp [mem_firstOccurrences]

/-- First-occurrence deduplication lists the rows in the order of their first
positions in the list. -/
theorem firstOccurrences_pairwise : ∀ (l : List Nat),
    (firstOccurrences l).Pairwise (fun x y => l.indexOf x < l.indexOf y) := by
  intro l
  induction l with
  | nil => simp [firstOccurrences]
  | cons a l ih =>
    rw [firstOccurrences, List.pairwise_cons]
    constructor
    · intro y hy
      have hya : y ≠ a := by simpa using (List.mem_filter.mp hy).2
      rw [List.indexOf_cons_self, List.indexOf_cons_ne _ (fun h => hya h.symm)]
      omega
    · apply (ih.filter _).imp_of_mem
      intro x y hx hy hxy
      have hxa : x ≠ a := by simpa using (List.mem_filter.mp hx).2
      have hya : y ≠ a := by simpa using (List.mem_filter.mp hy).2
      rw [List.indexOf_cons_ne _ (fun h => hxa h.symm),
        List.indexOf_cons_ne _ (fun h => hya h.symm)]
      omega

theorem removeNumbered_eq_filter (N : Nat) (rm : ColumnArray) : ∀ (cs : List Nat),
    (∀ c ∈ cs, c < rm.length) →
    removeNumbered N rm cs = .ok (cs.filter fun c => ¬ rm.getD c 0 < N) := by
  intro cs
  induction cs with
  | nil => intro _; rfl
  | cons c cs ih =>
    intro h
    rw [removeNumbered, readAt_getD (h c (List.mem_cons_self _ _)),
      ih (fun x hx => h x (List.mem_cons_of_mem _ hx))]
    simp only [ok_bind]
    by_cases hv : rm.getD c 0 < N
    · rw [if_pos hv, List.filter_cons, if_neg (by simpa using hv)]
      rfl
    · rw [if_neg hv, List.filter_cons, if_pos (by simpa using hv)]
      rfl

theorem expandFrontier_eq_firstOccurrences {N : Nat} {cols : Nat → ColumnArray}
    {rd rm : ColumnArray} (hrange : ColumnsInRange N cols) (hrd : rd.length = N)
    (hrm : rm.length = N) :
    ∀ (frontier A : List Nat), (∀ r ∈ frontier, r < N) →
      expandFrontier N cols rd rm frontier (firstOccurrences A)
        = .ok (firstOccurrences (A ++ frontier.flatMap fun r =>
            sortByDegree (fun i => rd.getD i 0)
              ((cols r).filter fun c => ¬ rm.getD c 0 < N))) := by
  have hdeg : ∀ i, i < N → readAt rd i = .ok (rd.getD i 0) :=
    fun i hi => readAt_getD (by omega)
  intro frontier
  induction frontier with
  | nil => intro A _; simp [expandFrontier]
  | cons r frontier ih =>
    intro A h
    have hr : r < N := h r (List.mem_cons_self _ _)
    rw [expandFrontier, removeNumbered_eq_filter N rm _
      (fun c hc => by rw [hrm]; exact hrange r hr c hc)]
    simp only [ok_bind]
    rw [orderByDegree_eq_sortByDegree hdeg _
      (fun x hx => hrange r hr x (List.mem_filter.mp hx).1)]
    simp only [ok_bind]
    rw [addNoRepeats_firstOccurrences, ih _ (fun x hx => h x (List.mem_cons_of_mem _ hx)),
      List.flatMap_cons, List.append_assoc]

end FrontierProofs

section FrontierClaims

theorem forkColumns_inRange : ColumnsInRange 6 forkColumns := by
  intro r hr c hc
  interval_cases r <;> revert c <;> decide

/-- Claim C27. For every in-range enumeration, arrays `rowDegree` and `reverseMapping`
of size `N` and every frontier of rows of `[0, N)`, the loop that builds the next
frontier returns the first-occurrence deduplication of the concatenation, in
frontier order, of the degree-sorted lists of the still-unnumbered neighbours of
the frontier rows: it holds no row twice, it holds exactly the unnumbered rows
enumerated by a frontier row, and its rows come in the order of their first
positions in that concatenation.  It is not sorted by degree as a whole: in
`forkColumns`, once rows 0, 1 and 2 are numbered, the frontier `[1, 2]` yields
`[3, 4]`, of degrees 3 and 2. -/
theorem expandFrontier_is_first_occurrence_deduplication (N : Nat)
    (cols : Nat → ColumnArray) (rowDegree reverseMapping : ColumnArray) (frontier : List Nat)
    (hrange : ColumnsInRange N cols) (hrd : rowDegree.length = N)
    (hrm : reverseMapping.length = N) (hfront : ∀ r ∈ frontier, r < N) :
    expandFrontier N cols rowDegree reverseMapping frontier []
      = .ok (nextFrontierOfSpec N cols rowDegree reverseMapping frontier) ∧
    (nextFrontierOfSpec N cols rowDegree reverseMapping frontier).Nodup ∧
    (∀ x, x ∈ nextFrontierOfSpec N cols rowDegree reverseMapping frontier
      ↔ ∃ r ∈ frontier, x ∈ cols r ∧ ¬ reverseMapping.getD x 0 < N) ∧
    (nextFrontierOfSpec N cols rowDegree reverseMapping frontier).Pairwise (fun x y =>
      (frontier.flatMap fun r => sortByDegree (fun i => rowDegree.getD i 0)
          ((cols r).filter fun c => ¬ reverseMapping.getD c 0 < N)).indexOf x
        < (frontier.flatMap fun r => sortByDegree (fun i => rowDegree.getD i 0)
          ((cols r).filter fun c => ¬ reverseMapping.getD c 0 < N)).indexOf y) ∧
    (expandFrontier 6 forkColumns (initialRowDegree 6 forkColumns) [0, 1, 2, 6, 6, 6] [1, 2] []
        = .ok [3, 4] ∧
      initialRowDegree 6 forkColumns = [2, 2, 2, 3, 2, 1]) := by
  refine ⟨?_, nodup_firstOccurrences _, ?_, firstOccurrences_pairwise _, by decide, by decide⟩
  · have h := expandFrontier_eq_firstOccurrences hrange hrd hrm frontier [] hfront
    rw [List.nil_append] at h
    exact h
  · intro x
    unfold nextFrontierOfSpec
    rw [mem_firstOccurrences, List.mem_flatMap]
    constructor
    · rintro ⟨r, hr, hx⟩
      rw [mem_sortByDegree, List.mem_filter] at hx
      exact ⟨r, hr, hx.1, by simpa using hx.2⟩
    · rintro ⟨r, hr, hx, hnot⟩
      exact ⟨r, hr, mem_sortByDegree.mpr (List.mem_filter.mpr ⟨hx, by simpa using hnot⟩)⟩

/-- Witness of C27: in `forkColumns` with rows 0, 1 and 2 numbered, the frontier
`[1, 2]` yields the next frontier `[3, 4]`. -/
theorem expandFrontier_is_first_occurrence_deduplication_witness :
    ColumnsInRange 6 forkColumns ∧ (initialRowDegree 6 forkColumns).length = 6 ∧
    [0, 1, 2, 6, 6, 6].length = 6 ∧ (∀ r ∈ [1, 2], r < 6) ∧
    nextFrontierOfSpec 6 forkColumns (initialRowDegree 6 forkColumns) [0, 1, 2, 6, 6, 6] [1, 2]
      = [3, 4] ∧
    expandFrontier 6 forkColumns (initialRowDegree 6 forkColumns) [0, 1, 2, 6, 6, 6] [1, 2] []
      = .ok (nextFrontierOfSpec 6 forkColumns (initialRowDegree 6 forkColumns)
          [0, 1, 2, 6, 6, 6] [1, 2]) :=
  ⟨forkColumns_inRange, by decide, by decide, by decide, by decide,
    (expandFrontier_is_first_occurrence_deduplication 6 forkColumns
      (initialRowDegree 6 forkColumns) [0, 1, 2, 6, 6, 6] [1, 2] forkColumns_inRange
      (by decide) (by decide) (by decide)).1⟩

end FrontierClaims

/-! ## Proofs: termination of the traversal -/

section TerminationProofs

theorem assignNumbers_completes : ∀ (frontier rm : List Nat) (n : Nat),
    (∀ r ∈ frontier, r < rm.length) →
    ∃ rm1, assignNumbers frontier rm n = .ok (rm1, n + frontier.length) ∧
      rm1.length = rm.length := by
  intro frontier
  induction frontier with
  | nil => intro rm n _; exact ⟨rm, rfl, rfl⟩
  | cons r frontier ih =>
    intro rm n h
    rw [assignNumbers, writeAt_of_lt n (h r (List.mem_cons_self _ _))]
    simp only [ok_bind]
    obtain ⟨rm1, h1, hlen⟩ := ih (rm.set r n) (n + 1) (fun x hx => by
      rw [List.length_set]
      exact h x (List.mem_cons_of_mem _ hx))
    refine ⟨rm1, ?_, by rw [hlen, List.length_set]⟩
    rw [h1, List.length_cons]
    congr 2
    omega

/-- The loop stops without a pass once the frontier is empty or the counter has
reached `N`. -/
theorem followLoop_stops (N : Nat) (cols : Nat → ColumnArray) (rd : ColumnArray)
    (fuel : Nat) (frontier rm : List Nat) (n : Nat) (h : frontier.length = 0 ∨ N ≤ n) :
    followLoop N cols rd fuel frontier rm n = .ok rm := by
  have hcond : ¬ (frontier.length ≠ 0 ∧ n < N) := by omega
  cases fuel <;> rw [followLoop, if_neg hcond]

/-- With in-range columns, a budget of `N - nextRowNumber` passes is enough for the
loop to complete. -/
theorem followLoop_completes {N : Nat} {cols : Nat → ColumnArray} {rd : ColumnArray}
    (hrange : ColumnsInRange N cols) (hrd : rd.length = N) :
    ∀ (fuel : Nat) (frontier rm : List Nat) (n : Nat), rm.length = N →
      (∀ r ∈ frontier, r < N) → N - n ≤ fuel →
      ∃ result, followLoop N cols rd fuel frontier rm n = .ok result := by
  intro fuel
  induction fuel with
  | zero =>
    intro frontier rm n _ _ hfuel
    exact ⟨rm, followLoop_stops N cols rd 0 frontier rm n (Or.inr (by omega))⟩
  | succ fuel ih =>
    intro frontier rm n hrm hfront hfuel
    by_cases hcond : frontier.length ≠ 0 ∧ n < N
    · obtain ⟨rm1, ha, hlen1⟩ := assignNumbers_completes frontier rm n
        (fun r hr => by rw [hrm]; exact hfront r hr)
      have he := expandFrontier_eq_firstOccurrences hrange hrd (hlen1.trans hrm) frontier []
        hfront
      rw [show firstOccurrences [] = [] from rfl] at he
      rw [followLoop, if_pos hcond]
      simp only []
      rw [ha]
      simp only [ok_bind]
      rw [he]
      simp only [ok_bind]
      apply ih _ _ _ (hlen1.trans hrm)
      · intro x hx
        rw [mem_firstOccurrences, List.nil_append, List.mem_flatMap] at hx
        obtain ⟨r, hr, hx⟩ := hx
        rw [mem_sortByDegree] at hx
        exact hrange r (hfront r hr) x (List.mem_filter.mp hx).1
      · omega
    · exact ⟨rm, by rw [followLoop, if_neg hcond]⟩

/-- A larger budget of passes does not change the result of a completed loop. -/
theorem followLoop_more_fuel (N : Nat) (cols : Nat → ColumnArray) (rd : ColumnArray)
    (k : Nat) :
    ∀ (fuel : Nat) (frontier rm : List Nat) (n : Nat) (result : List Nat),
      followLoop N cols rd fuel frontier rm n = .ok result →
      followLoop N cols rd (fuel + k) frontier rm n = .ok result := by
  intro fuel
  induction fuel with
  | zero =>
    intro frontier rm n result h
    rw [followLoop] at h
    split at h
    · cases h
    · rename_i hcond
      injection h with h
      subst h
      exact followLoop_stops N cols rd _ frontier rm n (by omega)
  | succ fuel ih =>
    intro frontier rm n result h
    rw [followLoop] at h
    rw [show fuel + 1 + k = (fuel + k) + 1 by omega, followLoop]
    split at h
    · rename_i hcond
      rw [if_pos hcond]
      simp only [] at h ⊢
      cases ha : assignNumbers frontier rm n with
      | error e => rw [ha] at h; cases h
      | ok pair =>
        obtain ⟨rm1, n1⟩ := pair
        rw [ha] at h
        simp only [ok_bind] at h ⊢
        cases he : expandFrontier N cols rd rm1 frontier [] with
        | error e => rw [he] at h; cases h
        | ok bufferArray =>
          rw [he] at h
          simp only [ok_bind] at h ⊢
          exact ih _ _ _ _ h
    · rename_i hcond
      rw [if_neg hcond]
      exact h

/-- Claim C28. For every order `N`, every enumeration of in-range columns, with or
without symmetry, connectivity or duplicates, and arrays of size `N`,
`FollowConnectionsCuthillMckeeOrdering` returns; every pass of its loop over a
non-empty frontier strictly increases `nextRowNumber`; the loop makes no pass once
the frontier is empty or `nextRowNumber` has reached `N`; and a loop entered with
`nextRowNumber >= 1`, as `CuthillMckeeOrdering` enters it, completes, with one and
the same result, under every budget of at least `N - 1` passes. -/
theorem FollowConnections_terminates (N : Nat) (cols : Nat → ColumnArray)
    (rowNumber : Nat) (rowDegree reverseMapping : ColumnArray) (nextRowNumber : Nat)
    (hrange : ColumnsInRange N cols) (hrd : rowDegree.length = N)
    (hrm : reverseMapping.length = N) (hrow : rowNumber < N) :
    (∃ result, FollowConnectionsCuthillMckeeOrdering N cols rowNumber rowDegree
      reverseMapping nextRowNumber = .ok result) ∧
    (∀ (nextRows rm rm1 : ColumnArray) (n n1 : Nat), nextRows.length ≠ 0 →
      assignNumbers nextRows rm n = .ok (rm1, n1) → n < n1) ∧
    (∀ (fuel : Nat) (nextRows rm : ColumnArray) (n : Nat), nextRows.length = 0 ∨ N ≤ n →
      followLoop N cols rowDegree fuel nextRows rm n = .ok rm) ∧
    (∀ (nextRows rm : ColumnArray) (n : Nat), rm.length = N → (∀ r ∈ nextRows, r < N) →
      1 ≤ n → ∃ result, ∀ fuel, N - 1 ≤ fuel →
        followLoop N cols rowDegree fuel nextRows rm n = .ok result) := by
  have hdeg : ∀ i, i < N → readAt rowDegree i = .ok (rowDegree.getD i 0) :=
    fun i hi => readAt_getD (by omega)
  refine ⟨?_, ?_, fun fuel nextRows rm n h => followLoop_stops N cols rowDegree fuel nextRows rm n h,
    ?_⟩
  · unfold FollowConnectionsCuthillMckeeOrdering
    rw [readAt_getD (by omega)]
    simp only [ok_bind]
    split
    · exact ⟨reverseMapping, rfl⟩
    · have hin : ∀ x ∈ (cols rowNumber).filter (fun c => c ≠ rowNumber), x < N :=
        fun x hx => hrange rowNumber hrow x (List.mem_filter.mp hx).1
      rw [orderByDegree_eq_sortByDegree hdeg _ hin]
      simp only [ok_bind]
      exact followLoop_completes hrange hrd N _ _ _ hrm
        (fun r hr => hin r (mem_sortByDegree.mp hr)) (by omega)
  · intro nextRows rm rm1 n n1 hne ha
    have := assignNumbers_counter _ _ _ _ _ ha
    have hpos : 0 < nextRows.length := Nat.pos_of_ne_zero hne
    omega
  · intro nextRows rm n hlen hfront hn
    obtain ⟨result, hres⟩ := followLoop_completes hrange hrd (N - n) nextRows rm n hlen hfront
      (le_refl _)
    refine ⟨result, fun fuel hfuel => ?_⟩
    have := followLoop_more_fuel N cols rowDegree (fuel - (N - n)) _ _ _ _ _ hres
    rw [show N - n + (fuel - (N - n)) = fuel by omega] at this
    exact this

/-- Witness of C28: a pattern on three rows that is neither symmetric nor
duplicate-free, `[0, 1, 1]`, `[1]`, `[2, 0]`, started from row 0. -/
theorem FollowConnections_terminates_witness :
    ColumnsInRange 3 (fun r => [[0, 1, 1], [1], [2, 0]].getD r []) ∧
    (initialRowDegree 3 (fun r => [[0, 1, 1], [1], [2, 0]].getD r [])).length = 3 ∧
    [0, 3, 3].length = 3 ∧ 0 < 3 ∧
    FollowConnectionsCuthillMckeeOrdering 3 (fun r => [[0, 1, 1], [1], [2, 0]].getD r []) 0
      (initialRowDegree 3 (fun r => [[0, 1, 1], [1], [2, 0]].getD r [])) [0, 3, 3] 1
      = .ok [0, 2, 3] ∧
    ∃ result, FollowConnectionsCuthillMckeeOrdering 3
      (fun r => [[0, 1, 1], [1], [2, 0]].getD r []) 0
      (initialRowDegree 3 (fun r => [[0, 1, 1], [1], [2, 0]].getD r [])) [0, 3, 3] 1
      = .ok result :=
  have hrange : ColumnsInRange 3 (fun r => [[0, 1, 1], [1], [2, 0]].getD r []) := by
    intro r hr c hc
    interval_cases r <;> revert c <;> decide
  ⟨hrange, by decide, by decide, by decide, by decide,
    (FollowConnections_terminates 3 (fun r => [[0, 1, 1], [1], [2, 0]].getD r []) 0
      (initialRowDegree 3 (fun r => [[0, 1, 1], [1], [2, 0]].getD r [])) [0, 3, 3] 1
      hrange (by decide) (by decide) (by decide)).1⟩

end TerminationProofs

/-! ## Proofs: the invariant of the traversal loop -/

section InvariantProofs

/-- At the head of the loop the array `reverseMapping` encodes a list of numbered
rows that, followed by the frontier, has no repetition and holds rows of `[0, N)`
only; the counter is the length of that list. -/
theorem loopHead_encoded {N : Nat} {cols : Nat → ColumnArray} (hrange : ColumnsInRange N cols)
    (hdup : DuplicateFree N cols) {s : Nat} (hs : s < N) {frontier rm : ColumnArray} {n : Nat}
    (h : LoopHead N cols s frontier rm n) :
    ∃ order : List Nat, rm = encodeOrder N order ∧ n = order.length ∧
      (order ++ frontier).Nodup ∧ ∀ x ∈ order ++ frontier, x < N := by
  have hrd : ∀ i, i < N → readAt (initialRowDegree N cols) i = .ok (rowDegreeOf cols i) :=
    fun i hi => readAt_initialRowDegree cols hi
  induction h with
  | entry hw ho =>
    obtain ⟨hnd, hlt⟩ := traversalFrom_start_state hrange hdup hs
    have hw2 := writeAt_encodeOrder (List.nil : List Nat) hs (by simp)
    rw [← initialReverseMapping_eq, List.length_nil, hw, List.nil_append] at hw2
    injection hw2 with hw2
    rw [orderByDegree_eq_sortByDegree hrd _
      (fun x hx => hrange s hs x (List.mem_filter.mp hx).1)] at ho
    injection ho with ho
    subst ho
    exact ⟨[s], hw2, rfl, hnd, hlt⟩
  | @pass nextRows rm0 bufferArray rm1 n0 n1 _ hcond ha he ih =>
    obtain ⟨order, hrm, hn, hnd, hlt⟩ := ih
    subst hrm hn
    have hfront : ∀ x ∈ nextRows, x < N := fun x hx => hlt x (List.mem_append_right _ hx)
    have hlen : (order ++ nextRows).length ≤ N := length_le_of_nodup_of_lt hnd hlt
    rw [assignNumbers_encodeOrder nextRows order hfront hnd] at ha
    injection ha with ha
    injection ha with ha1 ha2
    subst ha1 ha2
    rw [expandFrontier_eq_nextFrontier hrd hrange hlen nextRows [] hfront] at he
    injection he with he
    subst he
    obtain ⟨hnd2, hlt2⟩ := traversal_step_invariant (rowDegreeOf cols) hrange hnd hlt
    exact ⟨order ++ nextRows, rfl, (List.length_append _ _).symm, hnd2, hlt2⟩

/-- A pass as `LoopHead` describes it is one turn of the loop `followLoop`. -/
theorem followLoop_pass (N : Nat) (cols : Nat → ColumnArray) (rd : ColumnArray) (fuel : Nat)
    {nextRows rm bufferArray rm1 : ColumnArray} {n n1 : Nat}
    (hcond : nextRows.length ≠ 0 ∧ n < N) (ha : assignNumbers nextRows rm n = .ok (rm1, n1))
    (he : expandFrontier N cols rd rm1 nextRows [] = .ok bufferArray) :
    followLoop N cols rd (fuel + 1) nextRows rm n = followLoop N cols rd fuel bufferArray rm1 n1 := by
  rw [followLoop, if_pos hcond]
  simp only []
  rw [ha]
  simp only [ok_bind]
  rw [he]
  simp only [ok_bind]

/-- Claim C29. For every in-range, duplicate-free pattern and start row `s` of
`[0, N)`, in every state in which the loop of the traversal stands at its head:
`reverseMapping` has size `N`; the numbers below `N` that it holds are pairwise
distinct and are exactly `0, ..., nextRowNumber - 1`; every row of the frontier is a
row of `[0, N)` that still holds the impossible value `N`; the frontier has no
duplicates; and `nextRowNumber` plus the size of the frontier is at most `N`.  Hence
the next pass gives the `k`-th row of the frontier the number `nextRowNumber + k`,
which is below `N` and not in use, and changes no other row. -/
theorem traversal_loop_invariant (N : Nat) (cols : Nat → ColumnArray) (s : Nat)
    (nextRows reverseMapping : ColumnArray) (nextRowNumber : Nat)
    (hrange : ColumnsInRange N cols) (hdup : DuplicateFree N cols) (hs : s < N)
    (h : LoopHead N cols s nextRows reverseMapping nextRowNumber) :
    reverseMapping.length = N ∧
    (∀ (i j v : Nat), v < N → reverseMapping[i]? = some v → reverseMapping[j]? = some v →
      i = j) ∧
    (∀ v, v < nextRowNumber ↔ v < N ∧ ∃ i : Nat, reverseMapping[i]? = some v) ∧
    (∀ r ∈ nextRows, r < N ∧ reverseMapping[r]? = some N) ∧
    nextRows.Nodup ∧
    nextRowNumber + nextRows.length ≤ N ∧
    ∃ reverseMapping1 : ColumnArray,
      assignNumbers nextRows reverseMapping nextRowNumber
        = .ok (reverseMapping1, nextRowNumber + nextRows.length) ∧
      (∀ (k : Nat) (hk : k < nextRows.length),
        reverseMapping1[nextRows[k]]? = some (nextRowNumber + k)) ∧
      ∀ i : Nat, i ∉ nextRows → reverseMapping1[i]? = reverseMapping[i]? := by
  obtain ⟨order, hrm, hn, hnd, hlt⟩ := loopHead_encoded hrange hdup hs h
  subst hrm hn
  have hlen : (order ++ nextRows).length ≤ N := length_le_of_nodup_of_lt hnd hlt
  have hlen0 : order.length ≤ N := by
    rw [List.length_append] at hlen
    omega
  have hndo : order.Nodup := (List.nodup_append.mp hnd).1
  have hget : ∀ (i v : Nat), (encodeOrder N order)[i]? = some v →
      i < N ∧ v = numberOf N order i := by
    intro i v hv
    have hi : i < N := by
      have := (List.getElem?_eq_some_iff.mp hv).1
      rwa [encodeOrder_length] at this
    rw [getElem?_encodeOrder _ hi] at hv
    injection hv with hv
    exact ⟨hi, hv.symm⟩
  have hmem : ∀ (i v : Nat), v < N → (encodeOrder N order)[i]? = some v →
      i ∈ order ∧ v = order.indexOf i := by
    intro i v hv hiv
    obtain ⟨_, hnum⟩ := hget i v hiv
    have hin : i ∈ order := (numberOf_lt_iff hlen0 i).mp (hnum ▸ hv)
    rw [numberOf, if_pos hin] at hnum
    exact ⟨hin, hnum⟩
  have hfront : ∀ x ∈ nextRows, x < N := fun x hx => hlt x (List.mem_append_right _ hx)
  have ha := assignNumbers_encodeOrder nextRows order hfront hnd
  refine ⟨encodeOrder_length _ _, ?_, ?_, ?_, (List.nodup_append.mp hnd).2.1, ?_,
    encodeOrder N (order ++ nextRows), ha, ?_, ?_⟩
  · intro i j v hv hi hj
    obtain ⟨hio, hiv⟩ := hmem i v hv hi
    obtain ⟨hjo, hjv⟩ := hmem j v hv hj
    exact (List.indexOf_inj hio hjo).mp (hiv.symm.trans hjv)
  · intro v
    constructor
    · intro hv
      have hvN : v < N := by omega
      have hrow : order[v] < N := hlt _ (List.mem_append_left _ (List.getElem_mem hv))
      refine ⟨hvN, order[v], ?_⟩
      rw [getElem?_encodeOrder _ hrow, numberOf_getElem hndo hv]
    · rintro ⟨hv, i, hi⟩
      obtain ⟨hio, hiv⟩ := hmem i v hv hi
      rw [hiv]
      exact List.indexOf_lt_length.mpr hio
  · intro r hr
    have hnot : r ∉ order := fun hmem => (List.disjoint_of_nodup_append hnd) hmem hr
    refine ⟨hfront r hr, ?_⟩
    rw [getElem?_encodeOrder _ (hfront r hr), numberOf, if_neg hnot]
  · rw [List.length_append] at hlen
    exact hlen
  · intro k hk
    have hk2 : order.length + k < (order ++ nextRows).length := by
      rw [List.length_append]
      omega
    have helem : (order ++ nextRows)[order.length + k] = nextRows[k] := by
      rw [List.getElem_append_right (by omega)]
      simp
    rw [getElem?_encodeOrder _ (hfront _ (List.getElem_mem hk)), ← helem,
      numberOf_getElem hnd hk2]
  · intro i hi
    exact (assignNumbers_frame _ _ _ _ _ ha).1 i hi

/-- Witness of C29: the star on five rows started from row 0, at the head of the loop
after its first pass: rows 0 and 2 are numbered, the frontier is `[1, 3, 4]`. -/
theorem traversal_loop_invariant_witness :
    ColumnsInRange 5 starColumns ∧ DuplicateFree 5 starColumns ∧ 0 < 5 ∧
    LoopHead 5 starColumns 0 [1, 3, 4] [0, 5, 1, 5, 5] 2 ∧
    [0, 5, 1, 5, 5].length = 5 ∧ [1, 3, 4].Nodup ∧ 2 + [1, 3, 4].length ≤ 5 :=
  have hentry : LoopHead 5 starColumns 0 [2] [0, 5, 5, 5, 5] 1 :=
    LoopHead.entry (by decide) (by decide)
  have hpass : LoopHead 5 starColumns 0 [1, 3, 4] [0, 5, 1, 5, 5] 2 :=
    LoopHead.pass hentry ⟨by decide, by decide⟩ (by decide) (by decide)
  have hinv := traversal_loop_invariant 5 starColumns 0 [1, 3, 4] [0, 5, 1, 5, 5] 2
    starColumns_inRange starColumns_duplicateFree (by decide) hpass
  ⟨starColumns_inRange, starColumns_duplicateFree, by decide, hpass, hinv.1, hinv.2.2.2.2.1,
    hinv.2.2.2.2.2.1⟩

end InvariantProofs

/-! ## Proofs: aliased slots -/

section AliasProofs

variable {σ F : Type}

/-- While the slot that is both read and written holds zero everywhere, the
accumulation steps of `MultiplyMatrixVector` keep it so, whatever the matrix. -/
theorem multiply_aliased_steps [Semiring F] (B : LinearSystemBackend σ F) (h : GetSetLaws B)
    (m v : Nat) :
    ∀ (ps : List (Nat × Nat)) (s : σ), (∀ i, B.GetVectorValue s i v = 0) →
      ∀ i, B.GetVectorValue (ps.foldl (fun s p => AddVectorValue B p.1
        (B.GetMatrixValue s p.1 p.2 m * B.GetVectorValue s p.2 v) v s) s) i v = 0 := by
  intro ps
  induction ps with
  | nil => intro s hz i; exact hz i
  | cons p ps ih =>
    intro s hz i
    rw [List.foldl_cons]
    apply ih
    intro i2
    unfold AddVectorValue
    by_cases hpos : (i2, v) = (p.1, v)
    · simp only [Prod.mk.injEq, and_true] at hpos
      subst hpos
      rw [h.vector_read_written, hz, hz, mul_zero, add_zero]
    · rw [h.vector_read_other _ _ _ _ _ _ hpos]
      exact hz i2

/-- Claim C30. On a backend obeying the get/set laws with scalars in a semiring, when
the result slot is the input slot `MultiplyMatrixVector` yields the zero vector for
every matrix and every original vector: the slot is zeroed by `InitializeVector`
before it is read. -/
theorem MultiplyMatrixVector_aliased_is_zero [Semiring F] (B : LinearSystemBackend σ F)
    (h : GetSetLaws B) (N matrixIndex vectorIndex : Nat) (s : σ) (i : Nat) :
    B.GetVectorValue (MultiplyMatrixVector B N vectorIndex matrixIndex vectorIndex s) i
        vectorIndex = 0 := by
  unfold MultiplyMatrixVector
  rw [foldl_nested_eq_foldl_product (fun s i j => AddVectorValue B i
    (B.GetMatrixValue s i j matrixIndex * B.GetVectorValue s j vectorIndex) vectorIndex s)]
  apply multiply_aliased_steps B h matrixIndex vectorIndex
  intro i2
  exact h.fresh_vector_zero _ _ _

/-- Witness of C30 on the reference backend over the integers, with `N = 3`, the
identity in matrix 0 and the vector `(4, 5, 6)` in slot 0, which is also the result
slot: the product would be `(4, 5, 6)`, the result is zero. -/
theorem MultiplyMatrixVector_aliased_is_zero_witness :
    GetSetLaws (storeBackend ℤ) ∧
    (storeBackend ℤ).GetVectorValue
        ⟨fun _ i j => if i = j then 1 else 0, fun _ _ => [], fun _ i => i + 4, 0⟩ 2 0 = 6 ∧
    (storeBackend ℤ).GetVectorValue
        (MultiplyMatrixVector (storeBackend ℤ) 3 0 0 0
          ⟨fun _ i j => if i = j then 1 else 0, fun _ _ => [], fun _ i => i + 4, 0⟩) 2 0
      = 0 :=
  ⟨storeBackend_getSetLaws ℤ, by decide,
    MultiplyMatrixVector_aliased_is_zero (storeBackend ℤ) (storeBackend_getSetLaws ℤ) 3 0 0
      ⟨fun _ i j => if i = j then 1 else 0, fun _ _ => [], fun _ i => i + 4, 0⟩ 2⟩

end AliasProofs

/-! ## Proofs: isolated start row, dense pattern with a given start, empty rows -/

section StartRowProofs

theorem range_split (s m : Nat) :
    List.range (m + 1 + s) = List.range s ++ s :: List.range' (s + 1) m := by
  rw [List.range_eq_range', List.range_eq_range', ← List.range'_succ]
  have := List.range'_append 0 s (m + 1) 1
  simp only [Nat.one_mul, Nat.zero_add] at this
  rw [this]

theorem range_filter_ne {N s : Nat} (hs : s < N) :
    ((List.range N).filter fun c => c ≠ s)
      = List.range s ++ List.range' (s + 1) (N - 1 - s) := by
  have hsplit : List.range N = List.range s ++ s :: List.range' (s + 1) (N - 1 - s) := by
    have := range_split s (N - 1 - s)
    rw [show N - 1 - s + 1 + s = N by omega] at this
    exact this
  rw [hsplit, List.filter_append, List.filter_cons]
  simp only [ne_eq, not_true_eq_false, decide_False, Bool.false_eq_true, if_false]
  congr 1
  · apply List.filter_eq_self.mpr
    intro a ha
    rw [List.mem_range] at ha
    simp only [decide_eq_true_eq]
    omega
  · apply List.filter_eq_self.mpr
    intro a ha
    rw [List.mem_range'_1] at ha
    simp only [decide_eq_true_eq]
    omega

/-- Claim C33. When the start row `s` enumerates its diagonal only, its degree is 0 and
the traversal forms no frontier: `FollowConnectionsCuthillMckeeOrdering` returns
`reverseMapping` as it received it, with the number 0 for row `s` and the impossible
value `N` for every other row; and for `N = 1`, with the start selected or given as
row 0, `CuthillMckeeOrdering` returns `[0]`. -/
theorem isolated_start_forms_no_frontier (N : Nat) (cols : Nat → ColumnArray) (s : Nat)
    (rowDegree : ColumnArray) (hs : s < N) (hdiag : cols s = [s]) :
    rowDegreeOf cols s = 0 ∧
    writeAt (initialReverseMapping N) s 0 = .ok ((initialReverseMapping N).set s 0) ∧
    FollowConnectionsCuthillMckeeOrdering N cols s rowDegree
        ((initialReverseMapping N).set s 0) 1
      = .ok ((initialReverseMapping N).set s 0) ∧
    ((initialReverseMapping N).set s 0)[s]? = some 0 ∧
    (∀ i, i < N → i ≠ s → ((initialReverseMapping N).set s 0)[i]? = some N) ∧
    (N = 1 → ∀ startingRow : Int, startingRow ≤ 0 →
      CuthillMckeeOrdering N cols startingRow = .ok [0]) := by
  have hlen : s < (initialReverseMapping N).length := by
    simpa [initialReverseMapping] using hs
  have hs0 : ((initialReverseMapping N).set s 0)[s]? = some 0 := by
    rw [List.getElem?_set, if_pos rfl, if_pos hlen]
  refine ⟨?_, writeAt_of_lt 0 hlen, ?_, hs0, ?_, ?_⟩
  · unfold rowDegreeOf
    rw [hdiag]
    show decrementUnsigned 1 = 0
    decide
  · unfold FollowConnectionsCuthillMckeeOrdering
    rw [readAt_of_getElem? hs0]
    simp only [ok_bind]
    rw [if_neg (Nat.not_lt_zero _), hdiag]
    have hf : (List.filter (fun c => decide (c ≠ s)) [s]) = [] := by simp
    rw [hf]
    have ho : orderByDegree rowDegree [] = .ok [] := rfl
    rw [ho]
    simp only [ok_bind]
    exact followLoop_stops N cols rowDegree N [] _ 1 (Or.inl rfl)
  · intro i hi his
    rw [List.getElem?_set, if_neg (fun he => his he.symm)]
    unfold initialReverseMapping
    rw [List.getElem?_replicate, if_pos hi]
  · intro hN startingRow hstart
    subst hN
    have hs1 : s = 0 := by omega
    subst hs1
    have hrange : ColumnsInRange 1 cols := by
      intro r hr c hc
      rw [show r = 0 by omega, hdiag, List.mem_singleton] at hc
      omega
    have hdup : DuplicateFree 1 cols := by
      intro r hr
      rw [show r = 0 by omega, hdiag]
      exact List.nodup_singleton 0
    have hrd : ∀ i, i < 1 → readAt (initialRowDegree 1 cols) i = .ok (rowDegreeOf cols i) :=
      fun i hi => readAt_initialRowDegree cols hi
    have hsel : (if startingRow < 0 then chooseStartingRow 1 (initialRowDegree 1 cols)
        else pure startingRow.toNat) = .ok 0 := by
      by_cases hneg : startingRow < 0
      · rw [if_pos hneg, chooseStartingRow_eq hrd (le_refl 1)]
        rfl
      · rw [if_neg hneg, show startingRow = 0 by omega]
        rfl
    have hperm := traversalFrom_perm_range hrange hdup hs (fun b hb => by
      rw [show b = 0 by omega])
    rw [CuthillMckeeOrdering_eq_traversalFrom hrange hdup hs hsel hperm]
    rw [show List.range 1 = [0] from rfl] at hperm
    rw [List.perm_singleton.mp hperm]

/-- Witness of C33: the diagonal pattern on three rows started from row 1, and on one
row. -/
theorem isolated_start_forms_no_frontier_witness :
    1 < 3 ∧ diagonalColumns 1 = [1] ∧
    FollowConnectionsCuthillMckeeOrdering 3 diagonalColumns 1
        (initialRowDegree 3 diagonalColumns) ((initialReverseMapping 3).set 1 0) 1
      = .ok ((initialReverseMapping 3).set 1 0) ∧
    (initialReverseMapping 3).set 1 0 = [3, 0, 3] ∧
    CuthillMckeeOrdering 1 diagonalColumns (-1) = .ok [0] :=
  ⟨by decide, rfl,
    (isolated_start_forms_no_frontier 3 diagonalColumns 1 (initialRowDegree 3 diagonalColumns)
      (by decide) rfl).2.2.1,
    by decide,
    (isolated_start_forms_no_frontier 1 diagonalColumns 0 (initialRowDegree 1 diagonalColumns)
      (by decide) rfl).2.2.2.2.2 rfl (-1) (by decide)⟩

/-- The traversal of the dense pattern from row `s` numbers `s`, then all other rows
in ascending order. -/
theorem traversalFrom_dense_from {N s : Nat} (hs : s < N) :
    traversalFrom N (fun _ => List.range N) s
      = s :: (List.range N).filter fun c => c ≠ s := by
  unfold traversalFrom
  have hdeg : ∀ a b, rowDegreeOf (fun _ => List.range N) a
      ≤ rowDegreeOf (fun _ => List.range N) b := fun a b => le_of_eq rfl
  rw [sortByDegree_of_sorted _ _ (chain'_of_forall hdeg _)]
  by_cases hcond : ((List.range N).filter fun c => c ≠ s).length ≠ 0 ∧ [s].length < N
  · obtain ⟨fuel, hfuel⟩ : ∃ fuel, N = fuel + 1 := ⟨N - 1, by omega⟩
    rw [show levelTraversal N (fun _ => List.range N) (rowDegreeOf fun _ => List.range N) N [s]
          ((List.range N).filter fun c => c ≠ s)
        = levelTraversal N (fun _ => List.range N) (rowDegreeOf fun _ => List.range N)
          (fuel + 1) [s] ((List.range N).filter fun c => c ≠ s) by rw [← hfuel]]
    rw [levelTraversal, if_pos hcond]
    simp only [List.singleton_append]
    apply levelTraversal_done
    intro hnext
    apply hnext.1
    rw [List.length_eq_zero, List.eq_nil_iff_forall_not_mem]
    intro x hx
    rcases (mem_nextFrontier _ _).mp hx with hnil | ⟨r, _, hxr, hnot⟩
    · exact absurd hnil (List.not_mem_nil x)
    · apply hnot
      by_cases hxs : x = s
      · rw [hxs]
        exact List.mem_cons_self _ _
      · exact List.mem_cons_of_mem _ (List.mem_filter.mpr ⟨hxr, by simpa using hxs⟩)
  · rw [levelTraversal_done _ _ _ _ _ _ hcond]
    have hnil : ((List.range N).filter fun c => c ≠ s) = [] := by
      by_cases hN : N ≤ 1
      · have hN1 : N = 1 := by omega
        subst hN1
        rw [show s = 0 by omega]
        rfl
      · apply List.eq_nil_of_length_eq_zero
        by_contra hne
        exact hcond ⟨hne, by simp only [List.length_singleton]; omega⟩
    rw [hnil]

/-- Claim C34. With the default enumeration, for every `N` and every explicit
`startingRow` `s` of `[0, N)`, which needs `N >= 1`, `CuthillMckeeOrdering` returns
`[s, 0, 1, ..., s-1, s+1, ..., N-1]`. -/
theorem CuthillMckeeOrdering_dense_explicit_start (N : Nat) (matrixIndex : Nat)
    (startingRow : Int) (h0 : 0 ≤ startingRow) (hlt : startingRow < N) :
    CuthillMckeeOrdering N (denseColumns N matrixIndex) startingRow
      = .ok (startingRow.toNat ::
          (List.range startingRow.toNat
            ++ List.range' (startingRow.toNat + 1) (N - 1 - startingRow.toNat))) := by
  have hs : startingRow.toNat < N := by omega
  rw [denseColumns_eq]
  have hrange : ColumnsInRange N (fun _ => List.range N) :=
    fun _ _ c hc => List.mem_range.mp hc
  have hdup : DuplicateFree N (fun _ => List.range N) := fun _ _ => List.nodup_range N
  have hstart : (if startingRow < 0
      then chooseStartingRow N (initialRowDegree N (fun _ => List.range N))
      else pure startingRow.toNat) = .ok startingRow.toNat := by
    rw [if_neg (by omega)]
    rfl
  have hperm := traversalFrom_perm_range hrange hdup hs
    (fun b hb => Relation.ReflTransGen.single (List.mem_range.mpr hb))
  rw [CuthillMckeeOrdering_eq_traversalFrom hrange hdup hs hstart hperm,
    traversalFrom_dense_from hs, range_filter_ne hs]

/-- Witness of C34: five rows started from row 2. -/
theorem CuthillMckeeOrdering_dense_explicit_start_witness :
    ((0 : Int) ≤ 2) ∧ ((2 : Int) < (5 : Nat)) ∧
    CuthillMckeeOrdering 5 (denseColumns 5 0) 2 = .ok [2, 0, 1, 3, 4] :=
  ⟨by decide, by decide,
    CuthillMckeeOrdering_dense_explicit_start 5 0 2 (by decide) (by decide)⟩

/-- Claim C35. The degree is computed on `unsigned int`: a row with an empty
enumeration has the stored degree `4294967295`, and whenever some row of `[0, N)`
has a non-empty enumeration, of a size below `2 ^ 32`, the row selected as the start
for `startingRow < 0` has a non-empty enumeration. -/
theorem empty_row_is_not_selected (N : Nat) (cols : Nat → ColumnArray) (j : Nat)
    (hj : j < N) (hpos : 0 < (cols j).length) (hfit : (cols j).length < 2 ^ 32) :
    (∀ i, i < N → cols i = [] →
      readAt (initialRowDegree N cols) i = .ok 4294967295) ∧
    ∃ r, chooseStartingRow N (initialRowDegree N cols) = .ok r ∧ r < N ∧ cols r ≠ [] := by
  have hrd : ∀ i, i < N → readAt (initialRowDegree N cols) i = .ok (rowDegreeOf cols i) :=
    fun i hi => readAt_initialRowDegree cols hi
  have hempty : ∀ i, cols i = [] → rowDegreeOf cols i = 4294967295 := by
    intro i hi
    unfold rowDegreeOf
    rw [hi]
    decide
  have hN : 1 ≤ N := by omega
  obtain ⟨hlt, hmin, _⟩ := lowestDegreeRow_spec (rowDegreeOf cols) hN
  refine ⟨fun i hi he => by rw [hrd i hi, hempty i he], lowestDegreeRow N (rowDegreeOf cols),
    chooseStartingRow_eq hrd hN, hlt, ?_⟩
  intro he
  have h1 := hmin j hj
  rw [hempty _ he] at h1
  have h2 : rowDegreeOf cols j = (cols j).length - 1 :=
    decrementUnsigned_of_pos hpos (Nat.le_of_lt hfit)
  rw [h2] at h1
  have h3 : (2 : Nat) ^ 32 = 4294967296 := by decide
  omega

/-- Witness of C35: two rows, the first with an empty enumeration and the second
with its diagonal only; row 1 is selected, row 0 has the degree `4294967295`. -/
theorem empty_row_is_not_selected_witness :
    1 < 2 ∧ 0 < ((fun r => [[], [1]].getD r []) 1 : ColumnArray).length ∧
    ((fun r => [[], [1]].getD r []) 1 : ColumnArray).length < 2 ^ 32 ∧
    initialRowDegree 2 (fun r => [[], [1]].getD r []) = [4294967295, 0] ∧
    chooseStartingRow 2 (initialRowDegree 2 (fun r => [[], [1]].getD r [])) = .ok 1 ∧
    ∃ r, chooseStartingRow 2 (initialRowDegree 2 (fun r => [[], [1]].getD r [])) = .ok r ∧
      r < 2 ∧ (fun r => [[], [1]].getD r []) r ≠ ([] : ColumnArray) :=
  ⟨by decide, by decide, by decide, by decide, by decide,
    (empty_row_is_not_selected 2 (fun r => [[], [1]].getD r []) 1 (by decide) (by decide)
      (by decide)).2⟩

end StartRowProofs

/-! ## Proofs: frame of the multiplication and of the scalings -/

section FrameProofs

variable {σ F : Type}

/-- A property kept by every step of a loop holds after the loop. -/
theorem foldl_invariant {α : Type} (P : σ → Prop) (f : σ → α → σ)
    (hf : ∀ s a, P s → P (f s a)) : ∀ (l : List α) (s : σ), P s → P (l.foldl f s) := by
  intro l
  induction l with
  | nil => intro s hs; exact hs
  | cons a l ih => intro s hs; exact ih _ (hf s a hs)

/-- Claim C36. On a backend obeying the get/set laws, for a result slot distinct from
`vectorIndex`, `MultiplyMatrixVector` leaves every value of every matrix slot, of
the input vector slot, of every vector slot other than the result slot and of every
solution slot as it was before the call. -/
theorem MultiplyMatrixVector_changes_result_only [Zero F] [Add F] [Mul F]
    (B : LinearSystemBackend σ F) (h : GetSetLaws B)
    (N resultVector matrixIndex vectorIndex : Nat) (hne : resultVector ≠ vectorIndex)
    (s : σ) :
    (∀ i j m, B.GetMatrixValue
        (MultiplyMatrixVector B N resultVector matrixIndex vectorIndex s) i j m
      = B.GetMatrixValue s i j m) ∧
    (∀ i, B.GetVectorValue
        (MultiplyMatrixVector B N resultVector matrixIndex vectorIndex s) i vectorIndex
      = B.GetVectorValue s i vectorIndex) ∧
    (∀ i k, k ≠ resultVector → B.GetVectorValue
        (MultiplyMatrixVector B N resultVector matrixIndex vectorIndex s) i k
      = B.GetVectorValue s i k) ∧
    (∀ i k, B.GetSolutionValue
        (MultiplyMatrixVector B N resultVector matrixIndex vectorIndex s) i k
      = B.GetSolutionValue s i k) := by
  have hstep : ∀ (t : σ) (i : Nat) (v : F),
      (∀ i2 j2 m, B.GetMatrixValue (AddVectorValue B i v resultVector t) i2 j2 m
        = B.GetMatrixValue t i2 j2 m) ∧
      (∀ i2 k, k ≠ resultVector → B.GetVectorValue (AddVectorValue B i v resultVector t) i2 k
        = B.GetVectorValue t i2 k) ∧
      (∀ i2 k, B.GetSolutionValue (AddVectorValue B i v resultVector t) i2 k
        = B.GetSolutionValue t i2 k) := by
    intro t i v
    unfold AddVectorValue
    refine ⟨fun i2 j2 m => h.vector_write_matrix _ _ _ _ _ _ _, ?_,
      fun i2 k => h.vector_write_solution _ _ _ _ _ _⟩
    intro i2 k hk
    apply h.vector_read_other
    intro he
    simp only [Prod.mk.injEq] at he
    exact hk he.2
  have hall : (∀ i j m, B.GetMatrixValue
        (MultiplyMatrixVector B N resultVector matrixIndex vectorIndex s) i j m
        = B.GetMatrixValue s i j m) ∧
      (∀ i k, k ≠ resultVector → B.GetVectorValue
        (MultiplyMatrixVector B N resultVector matrixIndex vectorIndex s) i k
        = B.GetVectorValue s i k) ∧
      (∀ i k, B.GetSolutionValue
        (MultiplyMatrixVector B N resultVector matrixIndex vectorIndex s) i k
        = B.GetSolutionValue s i k) := by
    unfold MultiplyMatrixVector
    apply foldl_invariant (fun t => (∀ i j m, B.GetMatrixValue t i j m = B.GetMatrixValue s i j m) ∧
      (∀ i k, k ≠ resultVector → B.GetVectorValue t i k = B.GetVectorValue s i k) ∧
      (∀ i k, B.GetSolutionValue t i k = B.GetSolutionValue s i k))
    · intro t i ht
      apply foldl_invariant (fun t => (∀ i j m, B.GetMatrixValue t i j m = B.GetMatrixValue s i j m) ∧
        (∀ i k, k ≠ resultVector → B.GetVectorValue t i k = B.GetVectorValue s i k) ∧
        (∀ i k, B.GetSolutionValue t i k = B.GetSolutionValue s i k)) _ _ _ t ht
      intro u j hu
      obtain ⟨h1, h2, h3⟩ := hstep u i
        (B.GetMatrixValue u i j matrixIndex * B.GetVectorValue u j vectorIndex)
      exact ⟨fun i2 j2 m => (h1 i2 j2 m).trans (hu.1 i2 j2 m),
        fun i2 k hk => (h2 i2 k hk).trans (hu.2.1 i2 k hk),
        fun i2 k => (h3 i2 k).trans (hu.2.2 i2 k)⟩
    · exact ⟨fun i j m => h.fresh_vector_matrix _ _ _ _ _,
        fun i k hk => h.fresh_vector_other _ _ _ _ hk,
        fun i k => h.fresh_vector_solution _ _ _ _⟩
  exact ⟨hall.1, fun i => hall.2.1 i vectorIndex (Ne.symm hne), hall.2.1, hall.2.2⟩

/-- Witness of C36 on the reference backend over the integers, with `N = 2`, the
matrix of slot 0, the input vector `(4, 5)` in slot 0 and the result in slot 1. -/
theorem MultiplyMatrixVector_changes_result_only_witness :
    GetSetLaws (storeBackend ℤ) ∧ (1 : Nat) ≠ 0 ∧
    (storeBackend ℤ).GetVectorValue
        (MultiplyMatrixVector (storeBackend ℤ) 2 1 0 0
          ⟨fun _ i j => i + j, fun _ _ => [], fun _ i => i + 4, fun _ _ => 3⟩) 1 0 = 5 ∧
    (storeBackend ℤ).GetVectorValue
        (MultiplyMatrixVector (storeBackend ℤ) 2 1 0 0
          ⟨fun _ i j => i + j, fun _ _ => [], fun _ i => i + 4, fun _ _ => 3⟩) 1 1 = 14 ∧
    ∀ i, (storeBackend ℤ).GetVectorValue
        (MultiplyMatrixVector (storeBackend ℤ) 2 1 0 0
          ⟨fun _ i j => i + j, fun _ _ => [], fun _ i => i + 4, fun _ _ => 3⟩) i 0
      = (storeBackend ℤ).GetVectorValue
          ⟨fun _ i j => i + j, fun _ _ => [], fun _ i => i + 4, fun _ _ => 3⟩ i 0 :=
  ⟨storeBackend_getSetLaws ℤ, by decide, by decide, by decide,
    (MultiplyMatrixVector_changes_result_only (storeBackend ℤ) (storeBackend_getSetLaws ℤ)
      2 1 0 0 (by decide)
      ⟨fun _ i j => i + j, fun _ _ => [], fun _ i => i + 4, fun _ _ => 3⟩).2.1⟩

/-- Claim C37. On a backend obeying the get/set laws, for every scale: `ScaleMatrix`
leaves every other matrix slot, every vector slot and every solution slot as it was;
`ScaleVector` leaves every matrix slot, every other vector slot and every solution
slot as it was; `ScaleSolution` leaves every matrix slot, every vector slot and every
other solution slot as it was. -/
theorem Scale_touches_addressed_slot_only [Zero F] [Mul F] [One F] [DecidableEq F]
    (B : LinearSystemBackend σ F) (h : GetSetLaws B) (N : Nat) (scale : F) (index : Nat)
    (s : σ) :
    ((∀ i j m, m ≠ index →
        B.GetMatrixValue (ScaleMatrix B N scale index s) i j m = B.GetMatrixValue s i j m) ∧
      (∀ i k, B.GetVectorValue (ScaleMatrix B N scale index s) i k = B.GetVectorValue s i k) ∧
      (∀ i k, B.GetSolutionValue (ScaleMatrix B N scale index s) i k
        = B.GetSolutionValue s i k)) ∧
    ((∀ i j m, B.GetMatrixValue (ScaleVector B N scale index s) i j m
        = B.GetMatrixValue s i j m) ∧
      (∀ i k, k ≠ index →
        B.GetVectorValue (ScaleVector B N scale index s) i k = B.GetVectorValue s i k) ∧
      (∀ i k, B.GetSolutionValue (ScaleVector B N scale index s) i k
        = B.GetSolutionValue s i k)) ∧
    ((∀ i j m, B.GetMatrixValue (ScaleSolution B N scale index s) i j m
        = B.GetMatrixValue s i j m) ∧
      (∀ i k, B.GetVectorValue (ScaleSolution B N scale index s) i k
        = B.GetVectorValue s i k) ∧
      (∀ i k, k ≠ index →
        B.GetSolutionValue (ScaleSolution B N scale index s) i k
          = B.GetSolutionValue s i k)) := by
  refine ⟨?_, ?_, ?_⟩
  · unfold ScaleMatrix
    split
    · exact ⟨fun _ _ _ _ => rfl, fun _ _ => rfl, fun _ _ => rfl⟩
    · apply foldl_invariant (fun t =>
        (∀ i j m, m ≠ index → B.GetMatrixValue t i j m = B.GetMatrixValue s i j m) ∧
        (∀ i k, B.GetVectorValue t i k = B.GetVectorValue s i k) ∧
        (∀ i k, B.GetSolutionValue t i k = B.GetSolutionValue s i k))
      · intro t i ht
        apply foldl_invariant (fun t =>
          (∀ i j m, m ≠ index → B.GetMatrixValue t i j m = B.GetMatrixValue s i j m) ∧
          (∀ i k, B.GetVectorValue t i k = B.GetVectorValue s i k) ∧
          (∀ i k, B.GetSolutionValue t i k = B.GetSolutionValue s i k)) _ _ _ t ht
        intro u j hu
        refine ⟨fun i2 j2 m hm => ?_, fun i2 k => ?_, fun i2 k => ?_⟩
        · rw [h.matrix_read_other _ _ _ _ _ _ _ _ (by
            intro he
            simp only [Prod.mk.injEq] at he
            exact hm he.2.2)]
          exact hu.1 i2 j2 m hm
        · rw [h.matrix_write_vector]
          exact hu.2.1 i2 k
        · rw [h.matrix_write_solution]
          exact hu.2.2 i2 k
      · exact ⟨fun _ _ _ _ => rfl, fun _ _ => rfl, fun _ _ => rfl⟩
  · unfold ScaleVector
    split
    · exact ⟨fun _ _ _ => rfl, fun _ _ _ => rfl, fun _ _ => rfl⟩
    · apply foldl_invariant (fun t =>
        (∀ i j m, B.GetMatrixValue t i j m = B.GetMatrixValue s i j m) ∧
        (∀ i k, k ≠ index → B.GetVectorValue t i k = B.GetVectorValue s i k) ∧
        (∀ i k, B.GetSolutionValue t i k = B.GetSolutionValue s i k))
      · intro t i ht
        refine ⟨fun i2 j2 m => ?_, fun i2 k hk => ?_, fun i2 k => ?_⟩
        · rw [h.vector_write_matrix]
          exact ht.1 i2 j2 m
        · rw [h.vector_read_other _ _ _ _ _ _ (by
            intro he
            simp only [Prod.mk.injEq] at he
            exact hk he.2)]
          exact ht.2.1 i2 k hk
        · rw [h.vector_write_solution]
          exact ht.2.2 i2 k
      · exact ⟨fun _ _ _ => rfl, fun _ _ _ => rfl, fun _ _ => rfl⟩
  · unfold ScaleSolution
    split
    · exact ⟨fun _ _ _ => rfl, fun _ _ => rfl, fun _ _ _ => rfl⟩
    · apply foldl_invariant (fun t =>
        (∀ i j m, B.GetMatrixValue t i j m = B.GetMatrixValue s i j m) ∧
        (∀ i k, B.GetVectorValue t i k = B.GetVectorValue s i k) ∧
        (∀ i k, k ≠ index → B.GetSolutionValue t i k = B.GetSolutionValue s i k))
      · intro t i ht
        refine ⟨fun i2 j2 m => ?_, fun i2 k => ?_, fun i2 k hk => ?_⟩
        · rw [h.solution_write_matrix]
          exact ht.1 i2 j2 m
        · rw [h.solution_write_vector]
          exact ht.2.1 i2 k
        · rw [h.solution_read_other _ _ _ _ _ _ (by
            intro he
            simp only [Prod.mk.injEq] at he
            exact hk he.2)]
          exact ht.2.2 i2 k hk
      · exact ⟨fun _ _ _ => rfl, fun _ _ => rfl, fun _ _ _ => rfl⟩

/-- Witness of C37 on the reference backend over the integers: scaling matrix slot 0
by 2 with `N = 2` doubles slot 0 and leaves matrix slot 1 and the vector slots as
they were. -/
theorem Scale_touches_addressed_slot_only_witness :
    GetSetLaws (storeBackend ℤ) ∧
    (storeBackend ℤ).GetMatrixValue
        (ScaleMatrix (storeBackend ℤ) 2 2 0
          ⟨fun m i j => m + i + j + 1, fun _ _ => [], fun _ i => i + 4, fun _ _ => 3⟩) 1 1 0
      = 6 ∧
    (∀ i j m, m ≠ 0 → (storeBackend ℤ).GetMatrixValue
        (ScaleMatrix (storeBackend ℤ) 2 2 0
          ⟨fun m i j => m + i + j + 1, fun _ _ => [], fun _ i => i + 4, fun _ _ => 3⟩) i j m
      = (storeBackend ℤ).GetMatrixValue
          ⟨fun m i j => m + i + j + 1, fun _ _ => [], fun _ i => i + 4, fun _ _ => 3⟩ i j m) :=
  ⟨storeBackend_getSetLaws ℤ, by decide,
    (Scale_touches_addressed_slot_only (storeBackend ℤ) (storeBackend_getSetLaws ℤ) 2 2 0
      ⟨fun m i j => m + i + j + 1, fun _ _ => [], fun _ i => i + 4, fun _ _ => 3⟩).1.1⟩

end FrameProofs

/-! ## Proofs: the slots of `OptimizeMatrixStorage` -/

section OptimizeSlotProofs

variable {σ F : Type}

theorem storeBackend_slotLaws (F : Type) [Zero F] : SlotLaws (storeBackend F) := by
  constructor <;> intros <;> simp_all [storeBackend]

/-- Two loops that make the same steps from related states end in related states. -/
theorem foldl_related {α : Type} (R : σ → σ → Prop) (f : σ → α → σ)
    (hf : ∀ s1 s2 a, R s1 s2 → R (f s1 a) (f s2 a)) :
    ∀ (l : List α) (s1 s2 : σ), R s1 s2 → R (l.foldl f s1) (l.foldl f s2) := by
  intro l
  induction l with
  | nil => intro s1 s2 h; exact h
  | cons a l ih => intro s1 s2 h; exact ih _ _ (hf s1 s2 a h)

/-- Copying a value of a slot onto itself changes no value of that slot. -/
theorem copy_onto_itself [Zero F] (B : LinearSystemBackend σ F) (hg : GetSetLaws B)
    (m : Nat) (s : σ) (i c i2 j2 : Nat) :
    B.GetMatrixValue (B.SetMatrixValue s i c (B.GetMatrixValue s i c m) m) i2 j2 m
      = B.GetMatrixValue s i2 j2 m := by
  by_cases hpos : (i2, j2, m) = (i, c, m)
  · simp only [Prod.mk.injEq, and_true] at hpos
    rw [hpos.1, hpos.2, hg.matrix_read_written]
  · rw [hg.matrix_read_other _ _ _ _ _ _ _ _ hpos]

/-- Claim C31. On a backend obeying the get/set and slot laws, when `matrixIndex`
and `tempMatrixIndex` are the same slot, `OptimizeMatrixStorage` destroys a slot
that holds zero at every position, the copy loop having rewritten the
reinitialised slot with its own values; and what the slot holds after the call is
the same whatever the state before the call: no original value survives. -/
theorem OptimizeMatrixStorage_aliased_erases [Zero F] (B : LinearSystemBackend σ F)
    (hg : GetSetLaws B) (hl : SlotLaws B) (N matrixIndex : Nat) (s : σ) :
    (∃ emptied, OptimizeMatrixStorage B N matrixIndex matrixIndex s
        = B.DestroyMatrix emptied matrixIndex ∧
      ∀ i j, B.GetMatrixValue emptied i j matrixIndex = 0) ∧
    ∀ s2 i j,
      B.GetMatrixValue (OptimizeMatrixStorage B N matrixIndex matrixIndex s) i j matrixIndex
        = B.GetMatrixValue (OptimizeMatrixStorage B N matrixIndex matrixIndex s2) i j
            matrixIndex := by
  constructor
  · refine ⟨_, rfl, ?_⟩
    apply foldl_invariant (fun t => ∀ i j, B.GetMatrixValue t i j matrixIndex = 0)
    · intro t i ht
      apply foldl_invariant (fun t => ∀ i j, B.GetMatrixValue t i j matrixIndex = 0) _ _ _ t ht
      intro u c hu i2 j2
      rw [copy_onto_itself B hg matrixIndex u i c i2 j2]
      exact hu i2 j2
    · intro i j
      exact hl.fresh_matrix_zero _ _ _ _
  · intro s2 i j
    unfold OptimizeMatrixStorage
    exact hl.destroyed_value _ _ _ _ _

/-- Witness of C31 on the reference backend over the integers: slot 0 holds 7 at
every position and enumerates both columns of its two rows; after the call with
slot 0 as its own temporary slot it holds 0. -/
theorem OptimizeMatrixStorage_aliased_erases_witness :
    GetSetLaws (storeBackend ℤ) ∧ SlotLaws (storeBackend ℤ) ∧
    (storeBackend ℤ).GetMatrixValue ⟨fun _ _ _ => 7, fun _ _ => [0, 1], 0, 0⟩ 1 1 0 = 7 ∧
    (storeBackend ℤ).GetMatrixValue
        (OptimizeMatrixStorage (storeBackend ℤ) 2 0 0 ⟨fun _ _ _ => 7, fun _ _ => [0, 1], 0, 0⟩)
        1 1 0 = 0 ∧
    ∃ emptied, OptimizeMatrixStorage (storeBackend ℤ) 2 0 0
          ⟨fun _ _ _ => 7, fun _ _ => [0, 1], 0, 0⟩
        = (storeBackend ℤ).DestroyMatrix emptied 0 ∧
      ∀ i j, (storeBackend ℤ).GetMatrixValue emptied i j 0 = 0 :=
  ⟨storeBackend_getSetLaws ℤ, storeBackend_slotLaws ℤ, by decide, by decide,
    (OptimizeMatrixStorage_aliased_erases (storeBackend ℤ) (storeBackend_getSetLaws ℤ)
      (storeBackend_slotLaws ℤ) 2 0 ⟨fun _ _ _ => 7, fun _ _ => [0, 1], 0, 0⟩).1⟩

/-- A write of the same value at the same position keeps two states the same. -/
theorem sameState_write [Zero F] (B : LinearSystemBackend σ F) (hg : GetSetLaws B)
    (hs : StorageLaws B) (hl : SlotLaws B) (s1 s2 : σ) (i c : Nat) (v : F) (m : Nat)
    (h : SameState B s1 s2) :
    SameState B (B.SetMatrixValue s1 i c v m) (B.SetMatrixValue s2 i c v m) := by
  obtain ⟨hM, hC, hV, hS⟩ := h
  refine ⟨?_, ?_, ?_, ?_⟩
  · intro i2 j2 x
    by_cases hpos : (i2, j2, x) = (i, c, m)
    · simp only [Prod.mk.injEq] at hpos
      rw [hpos.1, hpos.2.1, hpos.2.2, hg.matrix_read_written, hg.matrix_read_written]
    · rw [hg.matrix_read_other _ _ _ _ _ _ _ _ hpos, hg.matrix_read_other _ _ _ _ _ _ _ _ hpos]
      exact hM i2 j2 x
  · intro row x
    by_cases hx : x = m
    · rw [hx]
      exact hl.write_columns s1 s2 i c v m (fun i2 j2 => hM i2 j2 m) (fun r => hC r m) row
    · rw [hs.write_other_columns _ _ _ _ _ _ _ hx, hs.write_other_columns _ _ _ _ _ _ _ hx]
      exact hC row x
  · intro i2 k
    rw [hg.matrix_write_vector, hg.matrix_write_vector]
    exact hV i2 k
  · intro i2 k
    rw [hg.matrix_write_solution, hg.matrix_write_solution]
    exact hS i2 k

/-- Claim C32. On a backend obeying the get/set, storage and slot laws, for distinct
`matrixIndex` and `tempMatrixIndex`, two calls of `OptimizeMatrixStorage` from states
that hold the same in every slot other than `tempMatrixIndex` end in states that
hold the same in every slot, `tempMatrixIndex` included, which the call destroys:
what `tempMatrixIndex` held before the call has no effect. -/
theorem OptimizeMatrixStorage_ignores_temp_contents [Zero F] (B : LinearSystemBackend σ F)
    (hg : GetSetLaws B) (hs : StorageLaws B) (hl : SlotLaws B)
    (N matrixIndex tempMatrixIndex : Nat) (hne : matrixIndex ≠ tempMatrixIndex)
    (s1 s2 : σ) (h : SameOutside B tempMatrixIndex s1 s2) :
    SameState B (OptimizeMatrixStorage B N matrixIndex tempMatrixIndex s1)
      (OptimizeMatrixStorage B N matrixIndex tempMatrixIndex s2) ∧
    ∃ last, OptimizeMatrixStorage B N matrixIndex tempMatrixIndex s1
      = B.DestroyMatrix last tempMatrixIndex := by
  obtain ⟨hM, hC, hV, hS⟩ := h
  refine ⟨?_, _, rfl⟩
  have hstart : SameState B
      (B.InitializeMatrix (B.SwapMatrices s1 matrixIndex tempMatrixIndex) matrixIndex)
      (B.InitializeMatrix (B.SwapMatrices s2 matrixIndex tempMatrixIndex) matrixIndex) := by
    refine ⟨?_, ?_, ?_, ?_⟩
    · intro i j x
      by_cases hxm : x = matrixIndex
      · rw [hxm, hl.fresh_matrix_zero, hl.fresh_matrix_zero]
      · rw [hs.fresh_matrix_other _ _ _ _ _ hxm, hs.fresh_matrix_other _ _ _ _ _ hxm]
        by_cases hxt : x = tempMatrixIndex
        · rw [hxt, hs.swap_second, hs.swap_second]
          exact hM i j matrixIndex hne
        · rw [hl.swap_other _ _ _ _ _ _ hxm hxt, hl.swap_other _ _ _ _ _ _ hxm hxt]
          exact hM i j x hxt
    · intro row x
      by_cases hxm : x = matrixIndex
      · rw [hxm]
        exact hl.fresh_matrix_columns _ _ _ _
      · rw [hs.fresh_matrix_other_columns _ _ _ _ hxm,
          hs.fresh_matrix_other_columns _ _ _ _ hxm]
        by_cases hxt : x = tempMatrixIndex
        · rw [hxt, hs.swap_second_columns, hs.swap_second_columns]
          exact hC row matrixIndex hne
        · rw [hl.swap_other_columns _ _ _ _ _ hxm hxt, hl.swap_other_columns _ _ _ _ _ hxm hxt]
          exact hC row x hxt
    · intro i k
      rw [hl.fresh_matrix_vector, hl.fresh_matrix_vector, hl.swap_vector, hl.swap_vector]
      exact hV i k
    · intro i k
      rw [hl.fresh_matrix_solution, hl.fresh_matrix_solution, hl.swap_solution,
        hl.swap_solution]
      exact hS i k
  have hloop := foldl_related (SameState B) (fun s i =>
      (B.GetColumnsOfNonZeroMatrixElementsInRow s i tempMatrixIndex).foldl (fun s c =>
        B.SetMatrixValue s i c (B.GetMatrixValue s i c tempMatrixIndex) matrixIndex) s)
    (by
      intro t1 t2 i ht
      beta_reduce
      rw [ht.2.1 i tempMatrixIndex]
      apply foldl_related (SameState B) _ _ _ t1 t2 ht
      intro u1 u2 c hu
      beta_reduce
      rw [hu.1 i c tempMatrixIndex]
      exact sameState_write B hg hs hl u1 u2 i c _ matrixIndex hu)
    (List.range N) _ _ hstart
  obtain ⟨hM2, hC2, hV2, hS2⟩ := hloop
  unfold OptimizeMatrixStorage
  refine ⟨?_, ?_, ?_, ?_⟩
  · intro i j x
    by_cases hxt : x = tempMatrixIndex
    · rw [hxt]
      exact hl.destroyed_value _ _ _ _ _
    · rw [hs.destroy_other _ _ _ _ _ hxt, hs.destroy_other _ _ _ _ _ hxt]
      exact hM2 i j x
  · intro row x
    by_cases hxt : x = tempMatrixIndex
    · rw [hxt]
      exact hl.destroyed_columns _ _ _ _
    · rw [hl.destroy_other_columns _ _ _ _ hxt, hl.destroy_other_columns _ _ _ _ hxt]
      exact hC2 row x
  · intro i k
    rw [hl.destroy_vector, hl.destroy_vector]
    exact hV2 i k
  · intro i k
    rw [hl.destroy_solution, hl.destroy_solution]
    exact hS2 i k

/-- Witness of C32 on the reference backend over the integers: matrix slot 0 holds 7
everywhere and enumerates column 1; the temporary slot 1 holds 9 everywhere with
the enumeration `[0]` in the one state, 5 everywhere with an empty enumeration in
the other. -/
theorem OptimizeMatrixStorage_ignores_temp_contents_witness :
    GetSetLaws (storeBackend ℤ) ∧ StorageLaws (storeBackend ℤ) ∧ SlotLaws (storeBackend ℤ) ∧
    (0 : Nat) ≠ 1 ∧
    SameOutside (storeBackend ℤ) 1
      ⟨fun m _ _ => if m = 1 then 9 else 7, fun m _ => if m = 1 then [0] else [1], 0, 0⟩
      ⟨fun m _ _ => if m = 1 then 5 else 7, fun m _ => if m = 1 then [] else [1], 0, 0⟩ ∧
    SameState (storeBackend ℤ)
      (OptimizeMatrixStorage (storeBackend ℤ) 2 0 1
        ⟨fun m _ _ => if m = 1 then 9 else 7, fun m _ => if m = 1 then [0] else [1], 0, 0⟩)
      (OptimizeMatrixStorage (storeBackend ℤ) 2 0 1
        ⟨fun m _ _ => if m = 1 then 5 else 7, fun m _ => if m = 1 then [] else [1], 0, 0⟩) :=
  have hsame : SameOutside (storeBackend ℤ) 1
      ⟨fun m _ _ => if m = 1 then 9 else 7, fun m _ => if m = 1 then [0] else [1], 0, 0⟩
      ⟨fun m _ _ => if m = 1 then 5 else 7, fun m _ => if m = 1 then [] else [1], 0, 0⟩ := by
    refine ⟨?_, ?_, fun _ _ => rfl, fun _ _ => rfl⟩
    · intro i j m hm
      simp [storeBackend, hm]
    · intro row m hm
      simp [storeBackend, hm]
  ⟨storeBackend_getSetLaws ℤ, storeBackend_storageLaws ℤ, storeBackend_slotLaws ℤ, by decide,
    hsame,
    (OptimizeMatrixStorage_ignores_temp_contents (storeBackend ℤ) (storeBackend_getSetLaws ℤ)
      (storeBackend_storageLaws ℤ) (storeBackend_slotLaws ℤ) 2 0 1 (by decide) _ _ hsame).1⟩

end OptimizeSlotProofs

end itk.fem
